import Mathlib

/-!
# Tic-Tac-Toe engine (`app.js`): board rules, minimax decision engine, session

A shallow embedding of the game engine of `app.js`.

* JavaScript strings `""`, `"X"`, `"O"` that fill the board are the three
  constructors of `Cell`.
* The board is a `List Cell`; `b[i]` on an index that is not in the array
  is `undefined` in the source and `none` here (`b[i]?`).
* The module-level variables `human` and `cpu` that `bestMoveMinimax` reads
  are explicit arguments.
* The recursion of `bestMoveMinimax` is structural on a fuel counter; a run
  that exhausts its fuel is `none`.
* The callbacks handed to `window.setTimeout` are counted in the field
  `pending` of the session state; the values of `Math.random()` are rational
  parameters of the callback.
* The handlers registered by `buildBoardOnce` and `wireControls` and the
  firing of a callback are the constructors of `Event`; a session is a list
  of events applied to the state after `init()`.
* JavaScript numbers are doubles. The values that are rounded in the source
  are rounded here: the product `Math.random() * moves.length`, the literal
  `0.35` and the sum of `score.x += 1` go through `roundDouble`, the rounding
  of IEEE 754 binary64 to nearest, ties to even, over the rationals. The
  counters of the score are the non-negative integers that doubles hold.
* Rendering, DOM wiring and `localStorage` are outside the engine and are
  not modelled; the score that `loadScore` reads is the argument of `init`.
-/

namespace TicTacToe

/-! ## Data model -/

/-- A board cell: the strings `""`, `"X"` and `"O"` of the source. -/
inductive Cell where
  | empty
  | X
  | O
  deriving DecidableEq, Repr

/-- The numbers that `score` fields hold: integers and the two infinities
that initialise the running best. -/
inductive Score where
  | negInf
  | fin (v : Int)
  | posInf
  deriving DecidableEq, Repr

/-- The object `{ winner, line }` returned by `getWinner`; `line` is `null`
(`none`) when there is no winner. -/
structure WinResult where
  winner : Cell
  line : Option (Nat × Nat × Nat)
  deriving DecidableEq, Repr

/-- The object `{ idx, score }` returned by `bestMoveMinimax`; `idx` is
`none` for the JavaScript `undefined` (`moves[0]` of an empty array). -/
structure Result where
  idx : Option Int
  score : Score
  deriving DecidableEq, Repr

/-- The `score` object `{ human, cpu, draw }`; a counter holds a non-negative
integer. -/
structure Tally where
  human : Nat
  cpu : Nat
  draw : Nat
  deriving DecidableEq, Repr

/-- The difficulty setting, `"easy"` or `"hard"`. -/
inductive Difficulty where
  | easy
  | hard
  deriving DecidableEq, Repr

/-! ## JavaScript numbers -/

/-- The unit in the last place of the doubles around `x`: `2 ^ (e - 52)` when
`2 ^ e ≤ x < 2 ^ (e + 1)`, and `2 ^ (-1074)` for `x` below `2 ^ (-1022)`. -/
def ulp (x : ℚ) : ℚ :=
  (2 : ℚ) ^ (max (Int.log 2 x) (-1022) - 52)

/-- Rounding of a real `x ≥ 0` to a double (IEEE 754 binary64, to nearest,
ties to even), for `x` below the overflow threshold. -/
def roundDouble (x : ℚ) : ℚ :=
  if 2 * (x / ulp x - ⌊x / ulp x⌋) < 1 then ⌊x / ulp x⌋ * ulp x
  else if 1 < 2 * (x / ulp x - ⌊x / ulp x⌋) then (⌊x / ulp x⌋ + 1) * ulp x
  else if ⌊x / ulp x⌋ % 2 = 0 then ⌊x / ulp x⌋ * ulp x
  else (⌊x / ulp x⌋ + 1) * ulp x

/-- The largest double that is not above `x ≥ 0`. -/
def floorDouble (x : ℚ) : ℚ :=
  ⌊x / ulp x⌋ * ulp x

/-- The real `x ≥ 0` is a double: a multiple of the unit in its last place. -/
def IsDouble (x : ℚ) : Prop :=
  ∃ m : ℤ, x = m * ulp x

/-- The statement `x += 1` on a counter that holds the integer `n`: the double
nearest to `n + 1`. -/
def addOne (n : ℕ) : ℕ :=
  (roundDouble ((n : ℚ) + 1)).floor.toNat

/-! ## Board rules -/

/-- The constant `WIN_LINES`. -/
def WIN_LINES : List (Nat × Nat × Nat) :=
  [(0, 1, 2), (3, 4, 5), (6, 7, 8), (0, 3, 6), (1, 4, 7), (2, 5, 8), (0, 4, 8), (2, 4, 6)]

/-- The function `other(p)`: `p === "X" ? "O" : "X"`. -/
def other (p : Cell) : Cell :=
  if p = Cell.X then Cell.O else Cell.X

/-- The test of one line in `getWinner`:
`v && v === b[c] && v === b[d]` with `v = b[a]`. -/
def lineWinner (b : List Cell) (l : Nat × Nat × Nat) : Option Cell :=
  match b[l.1]? with
  | some v =>
    if v ≠ Cell.empty ∧ b[l.2.1]? = some v ∧ b[l.2.2]? = some v then some v else none
  | none => none

/-- The `for (const line of WIN_LINES)` loop of `getWinner`, over the lines
still to be scanned. -/
def getWinnerFrom (b : List Cell) : List (Nat × Nat × Nat) → WinResult
  | [] => { winner := Cell.empty, line := none }
  | l :: rest =>
    match lineWinner b l with
    | some v => { winner := v, line := some l }
    | none => getWinnerFrom b rest

/-- The function `getWinner(b)`. -/
def getWinner (b : List Cell) : WinResult :=
  getWinnerFrom b WIN_LINES

/-- The test `b.every((x) => x !== "")`. -/
def allFilled (b : List Cell) : Bool :=
  b.all (fun x => decide (x ≠ Cell.empty))

/-- The function `isDraw(b)`. -/
def isDraw (b : List Cell) : Bool :=
  allFilled b && decide ((getWinner b).winner = Cell.empty)

/-- The function `emptyMoves(b)`: the indices `0..8` with `b[i] === ""`,
ascending. -/
def emptyMoves (b : List Cell) : List Nat :=
  (List.range 9).filter (fun i => decide (b[i]? = some Cell.empty))

/-! ## Decision engine -/

/-- The comparison `a > b` on scores. -/
def Score.gt : Score → Score → Bool
  | Score.negInf, _ => false
  | Score.fin _, Score.negInf => true
  | Score.fin x, Score.fin y => decide (y < x)
  | Score.fin _, Score.posInf => false
  | Score.posInf, Score.posInf => false
  | Score.posInf, _ => true

/-- The comparison `a < b` on scores. -/
def Score.lt (a b : Score) : Bool :=
  Score.gt b a

/-- The sum `s + k` of a score and a finite integer. -/
def Score.addInt : Score → Int → Score
  | Score.negInf, _ => Score.negInf
  | Score.fin v, k => Score.fin (v + k)
  | Score.posInf, _ => Score.posInf

/-- The depth adjustment
`result.score + (result.score > 0 ? -1 : result.score < 0 ? 1 : 0)`. -/
def scoreAdjusted (s : Score) : Score :=
  s.addInt (if s.gt (Score.fin 0) then -1 else if s.lt (Score.fin 0) then 1 else 0)

/-- The `for (const idx of moves)` loop of `bestMoveMinimax`, over the moves
still to be tried, with the running `best`; `recur` is the recursive call. -/
def minimaxLoop (cpu : Cell) (recur : List Cell → Cell → Option Result)
    (b : List Cell) (player : Cell) : List Nat → Result → Option Result
  | [], best => some best
  | idx :: rest, best =>
    match recur (b.set idx player) (other player) with
    | none => none
    | some result =>
      let adjusted := scoreAdjusted result.score
      if player = cpu then
        minimaxLoop cpu recur b player rest
          (if adjusted.gt best.score then { idx := some (idx : Int), score := adjusted } else best)
      else
        minimaxLoop cpu recur b player rest
          (if adjusted.lt best.score then { idx := some (idx : Int), score := adjusted } else best)

/-- The function `bestMoveMinimax(b, player)` with a bound on the recursion
depth: `none` when the bound is reached. -/
def bestMoveMinimaxAux (human cpu : Cell) : Nat → List Cell → Cell → Option Result
  | 0, _, _ => none
  | fuel + 1, b, player =>
    let winner := (getWinner b).winner
    if winner = cpu then some { idx := some (-1), score := Score.fin 10 }
    else if winner = human then some { idx := some (-1), score := Score.fin (-10) }
    else if allFilled b then some { idx := some (-1), score := Score.fin 0 }
    else
      let moves := emptyMoves b
      minimaxLoop cpu (bestMoveMinimaxAux human cpu fuel) b player moves
        { idx := moves.head?.map Int.ofNat,
          score := if player = cpu then Score.negInf else Score.posInf }

/-- The function `bestMoveMinimax(b, player)`. Every recursive call fills one
of the at most nine cells that `emptyMoves` lists, so a depth of the number
of empty cells plus one is enough for the players `"X"` and `"O"` (one more
level covers a call with the player `""`, which fills nothing). -/
def bestMoveMinimax (human cpu : Cell) (b : List Cell) (player : Cell) : Option Result :=
  bestMoveMinimaxAux human cpu ((emptyMoves b).length + 2) b player

/-! ## Session -/

/-- The module-level variables of the session: `board`, `human`, `cpu`,
`difficulty`, `current`, `gameOver`, `lastMove`, `winningLine`, `score`, and
the number of `setTimeout` callbacks scheduled by `maybeCpuMove` that have not
fired yet (the callback captures nothing, so a count describes them). -/
structure State where
  board : List Cell
  human : Cell
  cpu : Cell
  difficulty : Difficulty
  current : Cell
  gameOver : Bool
  lastMove : Int
  winningLine : Option (Nat × Nat × Nat)
  score : Tally
  pending : Nat
  deriving DecidableEq, Repr

/-- The read `board[idx]` for a JavaScript index: `none` (`undefined`) when
`idx` is `undefined`, negative or past the end. -/
def boardAt (b : List Cell) (idx : Option Int) : Option Cell :=
  match idx with
  | some i => if 0 ≤ i then b[i.toNat]? else none
  | none => none

/-- The function `applyMove(idx, player)`: the new state and the returned
boolean. -/
def applyMove (s : State) (idx : Option Int) (player : Cell) : State × Bool :=
  match idx with
  | some i =>
    if boardAt s.board (some i) ≠ some Cell.empty then (s, false)
    else ({ s with board := s.board.set i.toNat player, lastMove := i }, true)
  | none => (s, false)

/-- The function `endIfNeeded()`: the new state and the returned boolean. -/
def endIfNeeded (s : State) : State × Bool :=
  let res := getWinner s.board
  if res.winner ≠ Cell.empty then
    ({ s with
        gameOver := true,
        winningLine := res.line,
        score :=
          if res.winner = s.human then { s.score with human := addOne s.score.human }
          else { s.score with cpu := addOne s.score.cpu } }, true)
  else if isDraw s.board then
    ({ s with
        gameOver := true,
        winningLine := none,
        score := { s.score with draw := addOne s.score.draw } }, true)
  else (s, false)

/-- The function `maybeCpuMove()`: it only schedules the callback. -/
def maybeCpuMove (s : State) : State :=
  if s.gameOver then s
  else if s.current ≠ s.cpu then s
  else { s with pending := s.pending + 1 }

/-- The function `tryHumanMove(idx)`. -/
def tryHumanMove (s : State) (idx : Int) : State :=
  if s.gameOver then s
  else if s.current ≠ s.human then s
  else
    let r := applyMove s (some idx) s.human
    if !r.2 then s
    else
      let e := endIfNeeded r.1
      if e.2 then e.1
      else maybeCpuMove { e.1 with current := e.1.cpu }

/-- The function `chooseCpuMove()`. The two calls of `Math.random()` return
doubles in `[0, 1)`: the doubles `floorDouble r1` and `floorDouble r2`, which
are `r1` and `r2` themselves when these are doubles. The literal `0.35` is the
double nearest to 35/100, the product is rounded to a double before
`Math.floor`. The outer `none` is a minimax search that did not return. -/
def chooseCpuMove (r1 r2 : ℚ) (s : State) : Option (Option Int) :=
  let moves := emptyMoves s.board
  if moves.length = 0 then some (some 0)
  else if s.difficulty = Difficulty.easy ∧ floorDouble r1 < roundDouble (35 / 100) then
    some (moves[(roundDouble (floorDouble r2 * moves.length)).floor.toNat]?.map Int.ofNat)
  else
    (bestMoveMinimax s.human s.cpu s.board s.cpu).map (fun r => r.idx)

/-- The body of the callback that `maybeCpuMove` hands to `setTimeout`. -/
def cpuTimeout (r1 r2 : ℚ) (s : State) : Option State :=
  if s.gameOver ∨ s.current ≠ s.cpu then some s
  else
    match chooseCpuMove r1 r2 s with
    | none => none
    | some idx =>
      let e := endIfNeeded (applyMove s idx s.cpu).1
      if e.2 then some e.1
      else some { e.1 with current := e.1.human }

/-- The function `newRound({ cpuStarts })`; `cpuStarts` is `none` for `null`
or an omitted argument. -/
def newRound (s : State) (cpuStarts : Option Bool) : State :=
  maybeCpuMove
    { s with
      board := List.replicate 9 Cell.empty,
      gameOver := false,
      lastMove := -1,
      winningLine := none,
      current :=
        match cpuStarts with
        | none => Cell.X
        | some true => s.cpu
        | some false => s.human }

/-- The click handler of a `[data-human]` button in `wireControls`. -/
def selectHuman (s : State) (nextHuman : Cell) : State :=
  if nextHuman ≠ Cell.X ∧ nextHuman ≠ Cell.O then s
  else
    newRound { s with human := nextHuman, cpu := other nextHuman }
      (some (decide (nextHuman = Cell.O)))

/-- The click handler of a `[data-difficulty]` button in `wireControls`. -/
def selectDifficulty (s : State) (next : Difficulty) : State :=
  { s with difficulty := next }

/-- The click handler of the New Game button. -/
def clickNewGame (s : State) : State :=
  newRound s (some (decide (s.human = Cell.O)))

/-- The click handler of the Reset Score button. -/
def resetScore (s : State) : State :=
  { s with score := { human := 0, cpu := 0, draw := 0 } }

/-- The state after `init()`; `saved` is the score that `loadScore` reads. -/
def init (saved : Tally) : State :=
  newRound
    { board := List.replicate 9 Cell.empty,
      human := Cell.X,
      cpu := Cell.O,
      difficulty := Difficulty.hard,
      current := Cell.X,
      gameOver := false,
      lastMove := -1,
      winningLine := none,
      score := saved,
      pending := 0 }
    (some false)

/-! ## Specification-side and proof-side definitions -/

/-- The depth adjustment on integers. -/
def adjI (s : Int) : Int :=
  s + (if 0 < s then -1 else if s < 0 then 1 else 0)

/-- The finite score of a returned result (`0` when there is none). -/
def scoreOf : Option Result → Int
  | some { idx := _, score := Score.fin v } => v
  | _ => 0

/-- The score that `bestMoveMinimax` returns on a board. -/
def valueAt (human cpu : Cell) (b : List Cell) (p : Cell) : Int :=
  scoreOf (bestMoveMinimax human cpu b p)

/-- The depth-adjusted score of the child reached by `player` filling cell `i`. -/
def childValue (human cpu : Cell) (b : List Cell) (p : Cell) (i : Nat) : Int :=
  adjI (valueAt human cpu (b.set i p) (other p))

/-- Orientation of the comparison in the loop: `1` when the CPU maximises,
`-1` when the opponent minimises. -/
def orient (cpu p : Cell) : Int :=
  if p = cpu then 1 else -1

/-- Whether a cell is `""`. -/
def isE : Cell → Bool
  | Cell.empty => true
  | _ => false

/-- Equality of two cells, as a boolean. -/
def beqC : Cell → Cell → Bool
  | Cell.X, Cell.X => true
  | Cell.O, Cell.O => true
  | Cell.empty, Cell.empty => true
  | _, _ => false

/-- Three cells hold the same mark. -/
def line3 : Cell → Cell → Cell → Bool
  | Cell.X, Cell.X, Cell.X => true
  | Cell.O, Cell.O, Cell.O => true
  | _, _, _ => false

/-- The winner of the board `[c0, …, c8]`, scanning the lines in the order of
`WIN_LINES`. -/
def winner9 (c0 c1 c2 c3 c4 c5 c6 c7 c8 : Cell) : Cell :=
  bif line3 c0 c1 c2 then c0 else bif line3 c3 c4 c5 then c3 else bif line3 c6 c7 c8 then c6 else
  bif line3 c0 c3 c6 then c0 else bif line3 c1 c4 c7 then c1 else bif line3 c2 c5 c8 then c2 else
  bif line3 c0 c4 c8 then c0 else bif line3 c2 c4 c6 then c2 else Cell.empty

/-- No cell of the board `[c0, …, c8]` is empty. -/
def full9 (c0 c1 c2 c3 c4 c5 c6 c7 c8 : Cell) : Bool :=
  !isE c0 && !isE c1 && !isE c2 && !isE c3 && !isE c4 && !isE c5 && !isE c6 && !isE c7 && !isE c8

/-- The threshold on a child score that corresponds to a threshold `k` on its
depth-adjusted score. -/
def unadj (k : Int) : Int :=
  if 0 < k then k + 1 else if k < 0 then k - 1 else 0

/-- Some board obtained from `[c0, …, c8]` by writing `p` into an empty cell
passes the test `f`, which also receives the index of the cell. -/
def anyChild (f : Nat → List Cell → Bool) (c0 c1 c2 c3 c4 c5 c6 c7 c8 p : Cell) : Bool :=
  (isE c0 && f 0 [p, c1, c2, c3, c4, c5, c6, c7, c8]) ||
  (isE c1 && f 1 [c0, p, c2, c3, c4, c5, c6, c7, c8]) ||
  (isE c2 && f 2 [c0, c1, p, c3, c4, c5, c6, c7, c8]) ||
  (isE c3 && f 3 [c0, c1, c2, p, c4, c5, c6, c7, c8]) ||
  (isE c4 && f 4 [c0, c1, c2, c3, p, c5, c6, c7, c8]) ||
  (isE c5 && f 5 [c0, c1, c2, c3, c4, p, c6, c7, c8]) ||
  (isE c6 && f 6 [c0, c1, c2, c3, c4, c5, p, c7, c8]) ||
  (isE c7 && f 7 [c0, c1, c2, c3, c4, c5, c6, p, c8]) ||
  (isE c8 && f 8 [c0, c1, c2, c3, c4, c5, c6, c7, p])

/-- Every board obtained from `[c0, …, c8]` by writing `p` into an empty cell
passes the test `f`, which also receives the index of the cell. -/
def allChild (f : Nat → List Cell → Bool) (c0 c1 c2 c3 c4 c5 c6 c7 c8 p : Cell) : Bool :=
  (!isE c0 || f 0 [p, c1, c2, c3, c4, c5, c6, c7, c8]) &&
  (!isE c1 || f 1 [c0, p, c2, c3, c4, c5, c6, c7, c8]) &&
  (!isE c2 || f 2 [c0, c1, p, c3, c4, c5, c6, c7, c8]) &&
  (!isE c3 || f 3 [c0, c1, c2, p, c4, c5, c6, c7, c8]) &&
  (!isE c4 || f 4 [c0, c1, c2, c3, p, c5, c6, c7, c8]) &&
  (!isE c5 || f 5 [c0, c1, c2, c3, c4, p, c6, c7, c8]) &&
  (!isE c6 || f 6 [c0, c1, c2, c3, c4, c5, p, c7, c8]) &&
  (!isE c7 || f 7 [c0, c1, c2, c3, c4, c5, c6, p, c8]) &&
  (!isE c8 || f 8 [c0, c1, c2, c3, c4, c5, c6, c7, p])

/-- Bound checker on a nine-cell board: with `ge = true` it searches for a
proof that the minimax score with `p` to move is at least `k`, with
`ge = false` that it is at most `k`. `q` is the other player. -/
def boundL (human cpu : Cell) : Nat → List Cell → Cell → Cell → Bool → Int → Bool
  | n + 1, [c0, c1, c2, c3, c4, c5, c6, c7, c8], p, q, ge, k =>
    bif beqC (winner9 c0 c1 c2 c3 c4 c5 c6 c7 c8) cpu then
      (bif ge then decide (k ≤ 10) else decide (10 ≤ k))
    else bif beqC (winner9 c0 c1 c2 c3 c4 c5 c6 c7 c8) human then
      (bif ge then decide (k ≤ -10) else decide (-10 ≤ k))
    else bif full9 c0 c1 c2 c3 c4 c5 c6 c7 c8 then
      (bif ge then decide (k ≤ 0) else decide (0 ≤ k))
    else bif (bif beqC p cpu then ge else !ge) then
      anyChild (fun _ b => boundL human cpu n b q p ge (unadj k)) c0 c1 c2 c3 c4 c5 c6 c7 c8 p
    else
      allChild (fun _ b => boundL human cpu n b q p ge (unadj k)) c0 c1 c2 c3 c4 c5 c6 c7 c8 p
  | _, _, _, _, _, _ => false

/-- Certificate that `bestMoveMinimax` on the nine-cell board `b` with `p` to
move returns the index `i0` with the score `v`: the board has no winner, cell
`i0` is empty and its child has adjusted score `v`, the empty cells before
`i0` have strictly worse adjusted scores and those after it have no better
ones. -/
def certMove (human cpu : Cell) (n : Nat) (b : List Cell) (p q : Cell) (i0 : Nat) (v : Int) :
    Bool :=
  match b with
  | [c0, c1, c2, c3, c4, c5, c6, c7, c8] =>
    !beqC (winner9 c0 c1 c2 c3 c4 c5 c6 c7 c8) cpu &&
    !beqC (winner9 c0 c1 c2 c3 c4 c5 c6 c7 c8) human &&
    anyChild (fun j _ => Nat.beq j i0) c0 c1 c2 c3 c4 c5 c6 c7 c8 p &&
    allChild (fun j b' =>
      bif Nat.blt j i0 then
        boundL human cpu n b' q p (!beqC p cpu) (unadj (bif beqC p cpu then v - 1 else v + 1))
      else bif Nat.beq j i0 then
        boundL human cpu n b' q p true (unadj v) && boundL human cpu n b' q p false (unadj v)
      else
        boundL human cpu n b' q p (!beqC p cpu) (unadj v)) c0 c1 c2 c3 c4 c5 c6 c7 c8 p
  | _ => false

/-- The round is over on board `b`: what makes `endIfNeeded` return `true`. -/
def isTerminal (b : List Cell) : Bool :=
  decide ((getWinner b).winner ≠ Cell.empty) || isDraw b

/-- The two bindings of marks to the players. -/
def Marks (human cpu : Cell) : Prop :=
  (human = Cell.X ∧ cpu = Cell.O) ∨ (human = Cell.O ∧ cpu = Cell.X)

/-- Positions `(board, player to move)` reachable from the empty board with
`X` to move when the human plays any empty cell and the CPU plays the index
returned by `bestMoveMinimax`; no move is made on a terminal board. -/
inductive HardPlay (human cpu : Cell) : List Cell → Cell → Prop where
  | start : HardPlay human cpu (List.replicate 9 Cell.empty) Cell.X
  | humanMove {b : List Cell} {i : Nat} :
      HardPlay human cpu b human → isTerminal b = false → i ∈ emptyMoves b →
      HardPlay human cpu (b.set i human) cpu
  | cpuMove {b : List Cell} {r : Result} {i : Nat} :
      HardPlay human cpu b cpu → isTerminal b = false →
      bestMoveMinimax human cpu b cpu = some r → r.idx = some (i : Int) →
      HardPlay human cpu (b.set i cpu) human

/-- Self-play: while the board is not terminal, the side to move writes its
mark into the cell `bestMoveMinimax(board, toMove).idx` (which has to be an
empty cell) and the turn passes to `other(toMove)`. The result is the terminal
board reached within `n` moves, if any. -/
def selfPlay (human cpu : Cell) : Nat → List Cell → Cell → Option (List Cell)
  | 0, b, _ => if isTerminal b then some b else none
  | n + 1, b, toMove =>
    if isTerminal b then some b
    else
      match bestMoveMinimax human cpu b toMove with
      | some r =>
        if boardAt b r.idx = some Cell.empty then
          match r.idx with
          | some i => selfPlay human cpu n (b.set i.toNat toMove) (other toMove)
          | none => none
        else none
      | none => none

/-- Plain minimax, with the base cases of `bestMoveMinimax` and no depth
adjustment: `1` when the CPU can force a win, `-1` when the human can, `0`
for a draw. The first argument bounds the recursion depth. -/
def plainMinimaxAux (human cpu : Cell) : Nat → List Cell → Cell → Int
  | 0, _, _ => 0
  | n + 1, b, player =>
    if (getWinner b).winner = cpu then 1
    else if (getWinner b).winner = human then -1
    else if allFilled b then 0
    else if player = cpu then
      ((emptyMoves b).map
        (fun i => plainMinimaxAux human cpu n (b.set i player) (other player))).foldl max (-1)
    else
      ((emptyMoves b).map
        (fun i => plainMinimaxAux human cpu n (b.set i player) (other player))).foldl min 1

/-- Plain minimax value of a board with `player` to move. -/
def plainMinimax (human cpu : Cell) (b : List Cell) (player : Cell) : Int :=
  plainMinimaxAux human cpu ((emptyMoves b).length + 1) b player

/-- Every play from `(board, player to move)` in which the CPU moves to
`bestMoveMinimax(board, cpu).idx` and the human moves to any empty cell ends
on a board where `getWinner` reports the CPU's mark. -/
inductive CpuWins (human cpu : Cell) : List Cell → Cell → Prop where
  | won {b : List Cell} {p : Cell} : (getWinner b).winner = cpu → CpuWins human cpu b p
  | cpuMove {b : List Cell} {r : Result} {i : Nat} :
      isTerminal b = false → bestMoveMinimax human cpu b cpu = some r →
      r.idx = some (i : Int) → i ∈ emptyMoves b →
      CpuWins human cpu (b.set i cpu) human → CpuWins human cpu b cpu
  | humanMove {b : List Cell} :
      isTerminal b = false → emptyMoves b ≠ [] →
      (∀ i ∈ emptyMoves b, CpuWins human cpu (b.set i human) cpu) → CpuWins human cpu b human

/-- The sign of an integer, as `1`, `0` or `-1`. -/
def sgn (v : Int) : Int :=
  if 0 < v then 1 else if v < 0 then -1 else 0

/-- The three cells of line `l` all hold `m`. -/
abbrev LineHolds (b : List Cell) (l : Nat × Nat × Nat) (m : Cell) : Prop :=
  b[l.1]? = some m ∧ b[l.2.1]? = some m ∧ b[l.2.2]? = some m

/-- The lesser of two plies counts, `none` standing for "no forced win". -/
def optMin : Option Nat → Option Nat → Option Nat
  | some x, some y => some (min x y)
  | some x, none => some x
  | none, r => r

/-- The greater of two plies counts, `none` when one of them is undefined. -/
def optMax : Option Nat → Option Nat → Option Nat
  | some x, some y => some (max x y)
  | _, _ => none

/-- The least of the defined entries: the human wins as fast as possible. -/
def fastest : List (Option Nat) → Option Nat
  | [] => none
  | d :: ds => optMin d (fastest ds)

/-- The greatest entry when every entry is defined: the CPU delays as long as
possible, and has an escape when some entry is undefined. -/
def slowest : List (Option Nat) → Option Nat
  | [] => some 0
  | d :: ds => optMax d (slowest ds)

/-- The number of plies from the board to the human's winning move when the
human wins as fast as possible and the CPU delays as long as possible; `none`
when the human cannot force a win. The first argument bounds the recursion
depth. -/
def pliesToLossAux (human cpu : Cell) : Nat → List Cell → Cell → Option Nat
  | 0, _, _ => none
  | n + 1, b, player =>
    if (getWinner b).winner = cpu then none
    else if (getWinner b).winner = human then some 0
    else if allFilled b then none
    else if player = cpu then
      (slowest ((emptyMoves b).map
        (fun i => pliesToLossAux human cpu n (b.set i player) (other player)))).map (· + 1)
    else
      (fastest ((emptyMoves b).map
        (fun i => pliesToLossAux human cpu n (b.set i player) (other player)))).map (· + 1)

/-- The number of plies until the human's winning move. -/
def pliesToLoss (human cpu : Cell) (b : List Cell) (player : Cell) : Option Nat :=
  pliesToLossAux human cpu ((emptyMoves b).length + 1) b player

/-- The plies count read off a score: a negative score `v` means a loss in
`v + 10` plies. -/
def pliesOfValue (v : Int) : Option Nat :=
  if v < 0 then some (v + 10).toNat else none

/-- A session state in mid-game: X (human) holds cell 0, O (CPU, hard) holds
cell 4, X is to move. -/
def exampleState : State :=
  { board := [Cell.X, Cell.empty, Cell.empty, Cell.empty, Cell.O, Cell.empty, Cell.empty,
      Cell.empty, Cell.empty],
    human := Cell.X, cpu := Cell.O, difficulty := Difficulty.hard, current := Cell.X,
    gameOver := false, lastMove := 4, winningLine := none,
    score := { human := 0, cpu := 0, draw := 0 }, pending := 0 }

/-! ## Events of a session, reachable states and the session invariant -/

/-- What can happen to the session after `init()`: a cell click or digit key
(`tryHumanMove(idx)`), a callback scheduled by `maybeCpuMove` firing (with the
values of its two `Math.random()` calls), and the four controls. -/
inductive Event where
  | click (idx : Int)
  | timeout (r1 r2 : ℚ)
  | newGame
  | side (nextHuman : Cell)
  | level (next : Difficulty)
  | clearScore
  deriving DecidableEq

/-- One of the callbacks that are pending fires; `none` when no callback is
pending or the minimax search does not return. -/
def fireTimeout (r1 r2 : ℚ) (s : State) : Option State :=
  if s.pending = 0 then none
  else cpuTimeout r1 r2 { s with pending := s.pending - 1 }

/-- The effect of one event on the session. -/
def applyEvent (s : State) : Event → Option State
  | Event.click idx => some (tryHumanMove s idx)
  | Event.timeout r1 r2 => fireTimeout r1 r2 s
  | Event.newGame => some (clickNewGame s)
  | Event.side nextHuman => some (selectHuman s nextHuman)
  | Event.level next => some (selectDifficulty s next)
  | Event.clearScore => some (resetScore s)

/-- The effect of a sequence of events, in order. -/
def runEvents : State → List Event → Option State
  | s, [] => some s
  | s, e :: es =>
    match applyEvent s e with
    | some s' => runEvents s' es
    | none => none

/-- The random draws of an event lie in `[0, 1)`, as `Math.random()` returns. -/
def Event.drawsInRange : Event → Prop
  | Event.timeout r1 r2 => 0 ≤ r1 ∧ r1 < 1 ∧ 0 ≤ r2 ∧ r2 < 1
  | _ => True

/-- The event is a human move request or a deferred CPU callback. -/
def Event.isMove : Event → Bool
  | Event.click _ => true
  | Event.timeout _ _ => true
  | _ => false

/-- The states the session can be in: those reached from `init()` by a
sequence of events. -/
def Reachable (s : State) : Prop :=
  ∃ (saved : Tally) (es : List Event),
    (∀ e ∈ es, e.drawsInRange) ∧ runEvents (init saved) es = some s

/-- Two states agree on `board`, `current`, `gameOver`, `lastMove`,
`winningLine` and `score`. -/
def SameRound (s t : State) : Prop :=
  t.board = s.board ∧ t.current = s.current ∧ t.gameOver = s.gameOver ∧
  t.lastMove = s.lastMove ∧ t.winningLine = s.winningLine ∧ t.score = s.score

/-- A finished round: O (CPU) has completed the top row, one callback is still
pending. -/
def wonState : State :=
  { board := [Cell.O, Cell.O, Cell.O, Cell.empty, Cell.X, Cell.empty, Cell.X, Cell.empty,
      Cell.X],
    human := Cell.X, cpu := Cell.O, difficulty := Difficulty.hard, current := Cell.O,
    gameOver := true, lastMove := 1, winningLine := some (0, 1, 2),
    score := { human := 0, cpu := 1, draw := 0 }, pending := 1 }

/-- The invariant of the session on the fields that decide play: a nine-cell
board, two distinct marks, `gameOver` set exactly on terminal boards, X never
behind and at most one ahead, and the turn matching the counts while the round
is on. -/
def GameInv (board : List Cell) (human cpu current : Cell) (gameOver : Bool) : Prop :=
  board.length = 9 ∧ Marks human cpu ∧ gameOver = isTerminal board ∧
  (board.count Cell.X = board.count Cell.O ∨ board.count Cell.X = board.count Cell.O + 1) ∧
  (gameOver = false →
    (current = Cell.X ∧ board.count Cell.X = board.count Cell.O) ∨
    (current = Cell.O ∧ board.count Cell.X = board.count Cell.O + 1))

/-- The invariant of the session state. -/
def SessionInv (s : State) : Prop :=
  GameInv s.board s.human s.cpu s.current s.gameOver

/-- The state that the callback leaves once it has chosen the index `idx`:
`applyMove(idx, cpu)`, `endIfNeeded()` and the hand-over of the turn. -/
def afterCpuMove (s : State) (idx : Option Int) : State :=
  if (endIfNeeded (applyMove s idx s.cpu).1).2 then (endIfNeeded (applyMove s idx s.cpu).1).1
  else
    { (endIfNeeded (applyMove s idx s.cpu).1).1 with
      current := (endIfNeeded (applyMove s idx s.cpu).1).1.human }

/-- The state after the human (X) has opened at the centre: the CPU is to move
and its callback is pending. -/
def openedState : State :=
  { board := [Cell.empty, Cell.empty, Cell.empty, Cell.empty, Cell.X, Cell.empty, Cell.empty,
      Cell.empty, Cell.empty],
    human := Cell.X, cpu := Cell.O, difficulty := Difficulty.hard, current := Cell.O,
    gameOver := false, lastMove := 4, winningLine := none,
    score := { human := 0, cpu := 0, draw := 0 }, pending := 1 }

/-- A state in mid-round with human X, CPU O on hard difficulty. -/
def playing (board : List Cell) (current : Cell) (lastMove : Int) (pending : Nat)
    (score : Tally) : State :=
  { board := board, human := Cell.X, cpu := Cell.O, difficulty := Difficulty.hard,
    current := current, gameOver := false, lastMove := lastMove, winningLine := none,
    score := score, pending := pending }

/-- The state in which the scenario of the human moves 4, 8, 6 ends: the CPU
has completed the top row. -/
def scenarioEnd (saved : Tally) : State :=
  { board := [Cell.O, Cell.O, Cell.O, Cell.empty, Cell.X, Cell.empty, Cell.X, Cell.empty,
      Cell.X],
    human := Cell.X, cpu := Cell.O, difficulty := Difficulty.hard, current := Cell.O,
    gameOver := true, lastMove := 1, winningLine := some (0, 1, 2),
    score := { saved with cpu := addOne saved.cpu }, pending := 0 }

/-- The CPU (O) has just moved to cell 1 and completed the top row, before
`endIfNeeded()`; the counter `score.cpu` holds `2 ^ 53`. -/
def saturatedState : State :=
  { board := [Cell.O, Cell.O, Cell.O, Cell.empty, Cell.X, Cell.empty, Cell.X, Cell.empty,
      Cell.X],
    human := Cell.X, cpu := Cell.O, difficulty := Difficulty.hard, current := Cell.O,
    gameOver := false, lastMove := 1, winningLine := none,
    score := { human := 0, cpu := 2 ^ 53, draw := 0 }, pending := 0 }

/-- The state after the human has chosen O on a fresh session: the CPU plays X,
is to open, and its callback is pending. -/
def cpuOpensState : State :=
  { board := [Cell.empty, Cell.empty, Cell.empty, Cell.empty, Cell.empty, Cell.empty,
      Cell.empty, Cell.empty, Cell.empty],
    human := Cell.O, cpu := Cell.X, difficulty := Difficulty.hard, current := Cell.X,
    gameOver := false, lastMove := -1, winningLine := none,
    score := { human := 0, cpu := 0, draw := 0 }, pending := 1 }

/-! ## Lemmas: empty cells and the recursion depth -/

theorem mem_emptyMoves {b : List Cell} {i : Nat} :
    i ∈ emptyMoves b ↔ i < 9 ∧ b[i]? = some Cell.empty := by
  simp [emptyMoves]

theorem emptyMoves_nodup (b : List Cell) : (emptyMoves b).Nodup :=
  (List.nodup_range 9).filter _

theorem emptyMoves_sorted (b : List Cell) : (emptyMoves b).Pairwise (· < ·) :=
  (List.pairwise_lt_range 9).filter _

theorem emptyMoves_set {b : List Cell} {i : Nat} {p : Cell} (hp : p ≠ Cell.empty) :
    emptyMoves (b.set i p) = (emptyMoves b).filter (fun j => j != i) := by
  unfold emptyMoves
  rw [List.filter_filter]
  apply List.filter_congr
  intro j _
  by_cases hji : i = j
  · subst hji
    by_cases hlt : i < b.length
    · simp [List.getElem?_set, hlt, hp]
    · simp [List.getElem?_set, hlt]
  · have : j ≠ i := fun h => hji h.symm
    simp [List.getElem?_set, hji, this]

theorem emptyMoves_length_set {b : List Cell} {i : Nat} {p : Cell} (hp : p ≠ Cell.empty)
    (hi : i ∈ emptyMoves b) :
    (emptyMoves (b.set i p)).length + 1 = (emptyMoves b).length := by
  rw [emptyMoves_set hp, ← (emptyMoves_nodup b).erase_eq_filter i,
    List.length_erase_of_mem hi]
  have : 0 < (emptyMoves b).length := List.length_pos_of_mem hi
  omega

theorem length_set_eq (b : List Cell) (i : Nat) (p : Cell) : (b.set i p).length = b.length := by
  simp

theorem minimaxLoop_congr {cpu : Cell} {f g : List Cell → Cell → Option Result}
    {b : List Cell} {p : Cell} :
    ∀ (ms : List Nat) (best : Result),
      (∀ i ∈ ms, f (b.set i p) (other p) = g (b.set i p) (other p)) →
      minimaxLoop cpu f b p ms best = minimaxLoop cpu g b p ms best
  | [], _, _ => rfl
  | i :: rest, best, h => by
    have hi := h i (List.mem_cons_self _ _)
    have hrest : ∀ j ∈ rest, f (b.set j p) (other p) = g (b.set j p) (other p) :=
      fun j hj => h j (List.mem_cons_of_mem _ hj)
    simp only [minimaxLoop, hi]
    cases g (b.set i p) (other p) with
    | none => rfl
    | some r =>
      simp only
      split
      · exact minimaxLoop_congr rest _ hrest
      · exact minimaxLoop_congr rest _ hrest

theorem other_ne_empty (p : Cell) : other p ≠ Cell.empty := by
  unfold other; split <;> simp

theorem aux_fuel_indep (human cpu : Cell) :
    ∀ (n m : Nat) (b : List Cell) (p : Cell), p ≠ Cell.empty →
      (emptyMoves b).length < n → (emptyMoves b).length < m →
      bestMoveMinimaxAux human cpu n b p = bestMoveMinimaxAux human cpu m b p
  | 0, _, _, _, _, h, _ => absurd h (Nat.not_lt_zero _)
  | _ + 1, 0, _, _, _, _, h => absurd h (Nat.not_lt_zero _)
  | n + 1, m + 1, b, p, hp, hn, hm => by
    simp only [bestMoveMinimaxAux]
    split
    · rfl
    · split
      · rfl
      · split
        · rfl
        · apply minimaxLoop_congr
          intro i hi
          have hlen := emptyMoves_length_set hp hi
          exact aux_fuel_indep human cpu n m _ _ (other_ne_empty p) (by omega) (by omega)

theorem bestMoveMinimax_eq_aux (human cpu : Cell) (b : List Cell) (p : Cell) (n : Nat)
    (hp : p ≠ Cell.empty) (hn : (emptyMoves b).length < n) :
    bestMoveMinimax human cpu b p = bestMoveMinimaxAux human cpu n b p :=
  aux_fuel_indep human cpu _ _ b p hp (by omega) hn

/-! ## Lemmas: the loop of `bestMoveMinimax` -/

theorem scoreAdjusted_fin (v : Int) : scoreAdjusted (Score.fin v) = Score.fin (adjI v) := by
  simp [scoreAdjusted, Score.gt, Score.lt, Score.addInt, adjI]

theorem orient_cases (cpu p : Cell) : orient cpu p = 1 ∨ orient cpu p = -1 := by
  unfold orient; split <;> simp

theorem minimaxLoop_spec {cpu : Cell} {recur : List Cell → Cell → Option Result}
    {b : List Cell} {p : Cell} (g : Nat → Int) :
    ∀ (ms : List Nat) (i0 : Option Int) (v0 : Int),
      (∀ i ∈ ms, ∃ ix v, recur (b.set i p) (other p) = some ⟨ix, Score.fin v⟩ ∧ g i = adjI v) →
      ms.Pairwise (· < ·) →
      (minimaxLoop cpu recur b p ms ⟨i0, Score.fin v0⟩ = some ⟨i0, Score.fin v0⟩ ∧
          ∀ j ∈ ms, orient cpu p * g j ≤ orient cpu p * v0) ∨
        ∃ i ∈ ms, minimaxLoop cpu recur b p ms ⟨i0, Score.fin v0⟩
              = some ⟨some (i : Int), Score.fin (g i)⟩ ∧
            orient cpu p * v0 < orient cpu p * g i ∧
            (∀ j ∈ ms, orient cpu p * g j ≤ orient cpu p * g i) ∧
            (∀ j ∈ ms, j < i → orient cpu p * g j < orient cpu p * g i)
  | [], i0, v0, _, _ => Or.inl ⟨rfl, fun _ h => absurd h (List.not_mem_nil _)⟩
  | m :: rest, i0, v0, H, hs => by
    obtain ⟨ix, v, hrec, hg⟩ := H m (List.mem_cons_self _ _)
    have Hrest : ∀ i ∈ rest, ∃ ix v, recur (b.set i p) (other p) = some ⟨ix, Score.fin v⟩ ∧
        g i = adjI v := fun i hi => H i (List.mem_cons_of_mem _ hi)
    have hsr : rest.Pairwise (· < ·) := (List.pairwise_cons.mp hs).2
    have hlt : ∀ j ∈ rest, m < j := (List.pairwise_cons.mp hs).1
    -- the comparison made by the loop, as an inequality on integers
    have hstep : minimaxLoop cpu recur b p (m :: rest) ⟨i0, Score.fin v0⟩ =
        minimaxLoop cpu recur b p rest
          (if orient cpu p * v0 < orient cpu p * g m then ⟨some (m : Int), Score.fin (g m)⟩
           else ⟨i0, Score.fin v0⟩) := by
      simp only [minimaxLoop, hrec, scoreAdjusted_fin, ← hg]
      unfold orient
      by_cases hpc : p = cpu
      · simp [hpc, Score.gt]
      · simp [hpc, Score.gt, Score.lt]
    rw [hstep]
    by_cases hc : orient cpu p * v0 < orient cpu p * g m
    · simp only [hc, if_true]
      rcases minimaxLoop_spec g rest (some (m : Int)) (g m) Hrest hsr with ⟨h1, h2⟩ | ⟨i, hi, h1, h2, h3, h4⟩
      · refine Or.inr ⟨m, List.mem_cons_self _ _, h1, hc, ?_, ?_⟩
        · intro j hj
          rcases List.mem_cons.mp hj with rfl | hj
          · exact le_refl _
          · exact h2 j hj
        · intro j hj hjm
          rcases List.mem_cons.mp hj with rfl | hj
          · exact absurd hjm (lt_irrefl _)
          · exact absurd (hlt j hj) (by omega)
      · refine Or.inr ⟨i, List.mem_cons_of_mem _ hi, h1, lt_trans hc h2, ?_, ?_⟩
        · intro j hj
          rcases List.mem_cons.mp hj with rfl | hj
          · exact le_of_lt h2
          · exact h3 j hj
        · intro j hj hji
          rcases List.mem_cons.mp hj with rfl | hj
          · exact h2
          · exact h4 j hj hji
    · simp only [hc, if_false]
      rcases minimaxLoop_spec g rest i0 v0 Hrest hsr with ⟨h1, h2⟩ | ⟨i, hi, h1, h2, h3, h4⟩
      · refine Or.inl ⟨h1, ?_⟩
        intro j hj
        rcases List.mem_cons.mp hj with rfl | hj
        · exact not_lt.mp hc
        · exact h2 j hj
      · refine Or.inr ⟨i, List.mem_cons_of_mem _ hi, h1, h2, ?_, ?_⟩
        · intro j hj
          rcases List.mem_cons.mp hj with rfl | hj
          · exact le_of_lt (lt_of_le_of_lt (not_lt.mp hc) h2)
          · exact h3 j hj
        · intro j hj hji
          rcases List.mem_cons.mp hj with rfl | hj
          · exact lt_of_le_of_lt (not_lt.mp hc) h2
          · exact h4 j hj hji

theorem minimaxLoop_start {cpu : Cell} {recur : List Cell → Cell → Option Result}
    {b : List Cell} {p : Cell} (g : Nat → Int) (ms : List Nat) (i0 : Option Int)
    (hne : ms ≠ [])
    (H : ∀ i ∈ ms, ∃ ix v, recur (b.set i p) (other p) = some ⟨ix, Score.fin v⟩ ∧ g i = adjI v)
    (hs : ms.Pairwise (· < ·)) :
    ∃ i ∈ ms, minimaxLoop cpu recur b p ms
          ⟨i0, if p = cpu then Score.negInf else Score.posInf⟩
          = some ⟨some (i : Int), Score.fin (g i)⟩ ∧
        (∀ j ∈ ms, orient cpu p * g j ≤ orient cpu p * g i) ∧
        (∀ j ∈ ms, j < i → orient cpu p * g j < orient cpu p * g i) := by
  cases ms with
  | nil => exact absurd rfl hne
  | cons m rest =>
    obtain ⟨ix, v, hrec, hg⟩ := H m (List.mem_cons_self _ _)
    have Hrest : ∀ i ∈ rest, ∃ ix v, recur (b.set i p) (other p) = some ⟨ix, Score.fin v⟩ ∧
        g i = adjI v := fun i hi => H i (List.mem_cons_of_mem _ hi)
    have hsr : rest.Pairwise (· < ·) := (List.pairwise_cons.mp hs).2
    have hlt : ∀ j ∈ rest, m < j := (List.pairwise_cons.mp hs).1
    have hstep : minimaxLoop cpu recur b p (m :: rest)
          ⟨i0, if p = cpu then Score.negInf else Score.posInf⟩ =
        minimaxLoop cpu recur b p rest ⟨some (m : Int), Score.fin (g m)⟩ := by
      simp only [minimaxLoop, hrec, scoreAdjusted_fin, ← hg]
      by_cases hpc : p = cpu
      · simp [hpc, Score.gt]
      · simp [hpc, Score.gt, Score.lt]
    rw [hstep]
    rcases minimaxLoop_spec g rest (some (m : Int)) (g m) Hrest hsr with
      ⟨h1, h2⟩ | ⟨i, hi, h1, h2, h3, h4⟩
    · refine ⟨m, List.mem_cons_self _ _, h1, ?_, ?_⟩
      · intro j hj
        rcases List.mem_cons.mp hj with rfl | hj
        · exact le_refl _
        · exact h2 j hj
      · intro j hj hjm
        rcases List.mem_cons.mp hj with rfl | hj
        · exact absurd hjm (lt_irrefl _)
        · exact absurd (hlt j hj) (by omega)
    · refine ⟨i, List.mem_cons_of_mem _ hi, h1, ?_, ?_⟩
      · intro j hj
        rcases List.mem_cons.mp hj with rfl | hj
        · exact le_of_lt h2
        · exact h3 j hj
      · intro j hj hji
        rcases List.mem_cons.mp hj with rfl | hj
        · exact h2
        · exact h4 j hj hji

theorem emptyMoves_ne_nil {b : List Cell} (hlen : b.length = 9) (hfull : allFilled b = false) :
    emptyMoves b ≠ [] := by
  have : ∃ x ∈ b, x = Cell.empty := by
    by_contra hcon
    have hall : allFilled b = true := by
      unfold allFilled
      rw [List.all_eq_true]
      intro x hx
      simp only [decide_eq_true_eq]
      intro hxe
      exact hcon ⟨x, hx, hxe⟩
    rw [hall] at hfull
    exact Bool.noConfusion hfull
  obtain ⟨x, hx, hxe⟩ := this
  obtain ⟨i, hi, hget⟩ := List.getElem_of_mem hx
  have hmem : i ∈ emptyMoves b := by
    rw [mem_emptyMoves]
    refine ⟨by omega, ?_⟩
    rw [List.getElem?_eq_getElem hi, hget, hxe]
  exact List.ne_nil_of_mem hmem

theorem aux_fin (human cpu : Cell) :
    ∀ (n : Nat) (b : List Cell) (p : Cell), p ≠ Cell.empty → b.length = 9 →
      (emptyMoves b).length < n →
      ∃ ix v, bestMoveMinimaxAux human cpu n b p = some ⟨ix, Score.fin v⟩
  | 0, _, _, _, _, h => absurd h (Nat.not_lt_zero _)
  | n + 1, b, p, hp, hlen, hn => by
    simp only [bestMoveMinimaxAux]
    split
    · exact ⟨_, _, rfl⟩
    · split
      · exact ⟨_, _, rfl⟩
      · split
        · exact ⟨_, _, rfl⟩
        · rename_i hfull
          have hfull' : allFilled b = false := by simpa using hfull
          have H : ∀ i ∈ emptyMoves b, ∃ ix v,
              bestMoveMinimaxAux human cpu n (b.set i p) (other p) = some ⟨ix, Score.fin v⟩ ∧
              adjI (scoreOf (bestMoveMinimaxAux human cpu n (b.set i p) (other p))) = adjI v := by
            intro i hi
            have hl := emptyMoves_length_set hp hi
            obtain ⟨ix, v, h⟩ := aux_fin human cpu n (b.set i p) (other p) (other_ne_empty p)
              (by simpa using hlen) (by omega)
            exact ⟨ix, v, h, by rw [h]; rfl⟩
          obtain ⟨i, _, h, _⟩ := minimaxLoop_start _ (emptyMoves b)
            ((emptyMoves b).head?.map Int.ofNat)
            (emptyMoves_ne_nil hlen hfull') H (emptyMoves_sorted b)
          exact ⟨_, _, h⟩

theorem bestMoveMinimax_fin (human cpu : Cell) (b : List Cell) (p : Cell)
    (hp : p ≠ Cell.empty) (hlen : b.length = 9) :
    ∃ ix, bestMoveMinimax human cpu b p = some ⟨ix, Score.fin (valueAt human cpu b p)⟩ := by
  obtain ⟨ix, v, h⟩ := aux_fin human cpu ((emptyMoves b).length + 2) b p hp hlen (by omega)
  refine ⟨ix, ?_⟩
  unfold valueAt bestMoveMinimax
  rw [h]; rfl

theorem bestMoveMinimax_cpuWin (human cpu : Cell) (b : List Cell) (p : Cell)
    (hw : (getWinner b).winner = cpu) :
    bestMoveMinimax human cpu b p = some ⟨some (-1), Score.fin 10⟩ := by
  simp [bestMoveMinimax, bestMoveMinimaxAux, hw]

theorem bestMoveMinimax_humanWin (human cpu : Cell) (b : List Cell) (p : Cell)
    (hc : (getWinner b).winner ≠ cpu) (hw : (getWinner b).winner = human) :
    bestMoveMinimax human cpu b p = some ⟨some (-1), Score.fin (-10)⟩ := by
  simp [bestMoveMinimax, bestMoveMinimaxAux, hw, hw ▸ hc]

theorem bestMoveMinimax_full (human cpu : Cell) (b : List Cell) (p : Cell)
    (hc : (getWinner b).winner ≠ cpu) (hh : (getWinner b).winner ≠ human)
    (hfull : allFilled b = true) :
    bestMoveMinimax human cpu b p = some ⟨some (-1), Score.fin 0⟩ := by
  simp [bestMoveMinimax, bestMoveMinimaxAux, hc, hh, hfull]

/-- The recursive case of `bestMoveMinimax` on a nine-cell board. -/
theorem bestMoveMinimax_step (human cpu : Cell) (b : List Cell) (p : Cell)
    (hp : p ≠ Cell.empty) (hlen : b.length = 9)
    (hc : (getWinner b).winner ≠ cpu) (hh : (getWinner b).winner ≠ human)
    (hfull : allFilled b = false) :
    ∃ i ∈ emptyMoves b,
      bestMoveMinimax human cpu b p
          = some ⟨some (i : Int), Score.fin (childValue human cpu b p i)⟩ ∧
        (∀ j ∈ emptyMoves b,
          orient cpu p * childValue human cpu b p j ≤ orient cpu p * childValue human cpu b p i) ∧
        (∀ j ∈ emptyMoves b, j < i →
          orient cpu p * childValue human cpu b p j < orient cpu p * childValue human cpu b p i) := by
  have H : ∀ i ∈ emptyMoves b, ∃ ix v,
      bestMoveMinimaxAux human cpu ((emptyMoves b).length + 1) (b.set i p) (other p)
        = some ⟨ix, Score.fin v⟩ ∧ childValue human cpu b p i = adjI v := by
    intro i hi
    have hl := emptyMoves_length_set hp hi
    have hlen' : (b.set i p).length = 9 := by simpa using hlen
    obtain ⟨ix, h⟩ := bestMoveMinimax_fin human cpu (b.set i p) (other p) (other_ne_empty p) hlen'
    rw [bestMoveMinimax_eq_aux human cpu _ _ ((emptyMoves b).length + 1) (other_ne_empty p)
      (by omega)] at h
    exact ⟨ix, _, h, rfl⟩
  obtain ⟨i, hi, h, h1, h2⟩ := minimaxLoop_start (childValue human cpu b p) (emptyMoves b)
    ((emptyMoves b).head?.map Int.ofNat) (emptyMoves_ne_nil hlen hfull) H (emptyMoves_sorted b)
  refine ⟨i, hi, ?_, h1, h2⟩
  rw [← h]
  simp [bestMoveMinimax, bestMoveMinimaxAux, hc, hh, hfull]

/-! ## Lemmas: the range of scores -/

theorem emptyMoves_length_le (b : List Cell) : (emptyMoves b).length ≤ 9 := by
  unfold emptyMoves
  exact le_trans (List.length_filter_le _ _) (by simp)

theorem allFilled_false_of_mem {b : List Cell} {i : Nat} (hi : i ∈ emptyMoves b) :
    allFilled b = false := by
  rw [mem_emptyMoves] at hi
  have hmem : Cell.empty ∈ b := List.getElem?_mem hi.2
  by_contra hcon
  have hall : allFilled b = true := by simpa using hcon
  unfold allFilled at hall
  rw [List.all_eq_true] at hall
  have := hall _ hmem
  simp at this

/-- The value of a board in one of the three cases of `bestMoveMinimax`. -/
theorem valueAt_cases (human cpu : Cell) (b : List Cell) (p : Cell)
    (hp : p ≠ Cell.empty) (hlen : b.length = 9) :
    ((getWinner b).winner = cpu ∧ valueAt human cpu b p = 10) ∨
    ((getWinner b).winner ≠ cpu ∧ (getWinner b).winner = human ∧ valueAt human cpu b p = -10) ∨
    ((getWinner b).winner ≠ cpu ∧ (getWinner b).winner ≠ human ∧ allFilled b = true ∧
        valueAt human cpu b p = 0) ∨
    ((getWinner b).winner ≠ cpu ∧ (getWinner b).winner ≠ human ∧ allFilled b = false ∧
      ∃ i ∈ emptyMoves b,
        bestMoveMinimax human cpu b p
            = some ⟨some (i : Int), Score.fin (childValue human cpu b p i)⟩ ∧
        valueAt human cpu b p = childValue human cpu b p i ∧
        (∀ j ∈ emptyMoves b,
          orient cpu p * childValue human cpu b p j ≤ orient cpu p * childValue human cpu b p i) ∧
        (∀ j ∈ emptyMoves b, j < i →
          orient cpu p * childValue human cpu b p j
            < orient cpu p * childValue human cpu b p i)) := by
  by_cases hc : (getWinner b).winner = cpu
  · left
    exact ⟨hc, by simp [valueAt, bestMoveMinimax_cpuWin human cpu b p hc, scoreOf]⟩
  · by_cases hh : (getWinner b).winner = human
    · right; left
      exact ⟨hc, hh, by simp [valueAt, bestMoveMinimax_humanWin human cpu b p hc hh, scoreOf]⟩
    · by_cases hf : allFilled b = true
      · right; right; left
        exact ⟨hc, hh, hf, by simp [valueAt, bestMoveMinimax_full human cpu b p hc hh hf, scoreOf]⟩
      · right; right; right
        have hf' : allFilled b = false := by simpa using hf
        obtain ⟨i, hi, h, h1, h2⟩ := bestMoveMinimax_step human cpu b p hp hlen hc hh hf'
        exact ⟨hc, hh, hf', i, hi, h, by simp [valueAt, h, scoreOf], h1, h2⟩

/-- A non-zero value is at distance at most the number of empty cells from
`10` or from `-10`. -/
theorem valueAt_range (human cpu : Cell) :
    ∀ (n : Nat) (b : List Cell) (p : Cell), p ≠ Cell.empty → b.length = 9 →
      (emptyMoves b).length ≤ n →
      valueAt human cpu b p = 0 ∨
      (10 - (n : Int) ≤ valueAt human cpu b p ∧ valueAt human cpu b p ≤ 10) ∨
      (-10 ≤ valueAt human cpu b p ∧ valueAt human cpu b p ≤ (n : Int) - 10)
  | n, b, p, hp, hlen, hn => by
    rcases valueAt_cases human cpu b p hp hlen with ⟨_, h⟩ | ⟨_, _, h⟩ | ⟨_, _, _, h⟩ |
      ⟨_, _, _, i, hi, _, h, _, _⟩
    · right; left; rw [h]; omega
    · right; right; rw [h]; omega
    · left; exact h
    · have hl := emptyMoves_length_set hp hi
      have h9 := emptyMoves_length_le b
      cases n with
      | zero => omega
      | succ k =>
        have ih := valueAt_range human cpu k (b.set i p) (other p) (other_ne_empty p)
          (by simpa using hlen) (by omega)
        rw [h]
        unfold childValue adjI
        rcases ih with h0 | ⟨h1, h2⟩ | ⟨h1, h2⟩
        · left; rw [h0]; simp
        · right; left
          split_ifs <;> push_cast <;> omega
        · right; right
          split_ifs <;> push_cast <;> omega

theorem valueAt_range' (human cpu : Cell) (b : List Cell) (p : Cell)
    (hp : p ≠ Cell.empty) (hlen : b.length = 9) :
    valueAt human cpu b p = 0 ∨
    (10 - ((emptyMoves b).length : Int) ≤ valueAt human cpu b p ∧ valueAt human cpu b p ≤ 10) ∨
    (-10 ≤ valueAt human cpu b p ∧
      valueAt human cpu b p ≤ ((emptyMoves b).length : Int) - 10) :=
  valueAt_range human cpu _ b p hp hlen (le_refl _)

/-! ## Lemmas: soundness of the bound checker -/

theorem beqC_eq_decide (a b : Cell) : beqC a b = decide (a = b) := by
  cases a <;> cases b <;> rfl

theorem isE_eq_decide (a : Cell) : isE a = decide (a = Cell.empty) := by
  cases a <;> rfl

theorem line3_eq_decide (a b c : Cell) :
    line3 a b c = decide (a ≠ Cell.empty ∧ b = a ∧ c = a) := by
  cases a <;> cases b <;> cases c <;> rfl

theorem lineWinner_of_get {b : List Cell} {a c d : Nat} {x y z : Cell}
    (ha : b[a]? = some x) (hc : b[c]? = some y) (hd : b[d]? = some z) :
    lineWinner b (a, c, d) = bif line3 x y z then some x else none := by
  simp only [lineWinner, ha, hc, hd, line3_eq_decide, Option.some.injEq]
  by_cases h : x ≠ Cell.empty ∧ y = x ∧ z = x <;> simp [h]

theorem winner_cons {b : List Cell} {l : Nat × Nat × Nat} {rest : List (Nat × Nat × Nat)}
    {x : Cell} {t : Bool} (h : lineWinner b l = bif t then some x else none) :
    (getWinnerFrom b (l :: rest)).winner = bif t then x else (getWinnerFrom b rest).winner := by
  cases t <;> simp [getWinnerFrom, h]

theorem getWinner_nine (c0 c1 c2 c3 c4 c5 c6 c7 c8 : Cell) :
    (getWinner [c0, c1, c2, c3, c4, c5, c6, c7, c8]).winner
      = winner9 c0 c1 c2 c3 c4 c5 c6 c7 c8 := by
  unfold getWinner WIN_LINES winner9
  rw [winner_cons (lineWinner_of_get (x := c0) (y := c1) (z := c2) rfl rfl rfl),
    winner_cons (lineWinner_of_get (x := c3) (y := c4) (z := c5) rfl rfl rfl),
    winner_cons (lineWinner_of_get (x := c6) (y := c7) (z := c8) rfl rfl rfl),
    winner_cons (lineWinner_of_get (x := c0) (y := c3) (z := c6) rfl rfl rfl),
    winner_cons (lineWinner_of_get (x := c1) (y := c4) (z := c7) rfl rfl rfl),
    winner_cons (lineWinner_of_get (x := c2) (y := c5) (z := c8) rfl rfl rfl),
    winner_cons (lineWinner_of_get (x := c0) (y := c4) (z := c8) rfl rfl rfl),
    winner_cons (lineWinner_of_get (x := c2) (y := c4) (z := c6) rfl rfl rfl)]
  rfl

theorem allFilled_nine (c0 c1 c2 c3 c4 c5 c6 c7 c8 : Cell) :
    allFilled [c0, c1, c2, c3, c4, c5, c6, c7, c8] = full9 c0 c1 c2 c3 c4 c5 c6 c7 c8 := by
  simp [allFilled, full9, isE_eq_decide, Bool.and_assoc]

theorem unadj_le {k s : Int} (h : unadj k ≤ s) : k ≤ adjI s := by
  unfold unadj at h; unfold adjI
  split_ifs at h ⊢ <;> omega

theorem le_unadj {k s : Int} (h : s ≤ unadj k) : adjI s ≤ k := by
  unfold unadj at h; unfold adjI
  split_ifs at h ⊢ <;> omega

theorem other_other {p : Cell} (hp : p ≠ Cell.empty) : other (other p) = p := by
  cases p <;> simp [other] at hp ⊢

theorem anyChild_elim {f : Nat → List Cell → Bool} {c0 c1 c2 c3 c4 c5 c6 c7 c8 p : Cell}
    (h : anyChild f c0 c1 c2 c3 c4 c5 c6 c7 c8 p = true) :
    ∃ i ∈ emptyMoves [c0, c1, c2, c3, c4, c5, c6, c7, c8],
      f i ([c0, c1, c2, c3, c4, c5, c6, c7, c8].set i p) = true := by
  simp only [anyChild, Bool.or_eq_true, Bool.and_eq_true, isE_eq_decide, decide_eq_true_eq] at h
  rcases h with (((((((⟨e, h⟩ | ⟨e, h⟩) | ⟨e, h⟩) | ⟨e, h⟩) | ⟨e, h⟩) | ⟨e, h⟩) | ⟨e, h⟩) |
    ⟨e, h⟩) | ⟨e, h⟩
  · exact ⟨0, mem_emptyMoves.mpr ⟨by decide, by simp [e]⟩, h⟩
  · exact ⟨1, mem_emptyMoves.mpr ⟨by decide, by simp [e]⟩, h⟩
  · exact ⟨2, mem_emptyMoves.mpr ⟨by decide, by simp [e]⟩, h⟩
  · exact ⟨3, mem_emptyMoves.mpr ⟨by decide, by simp [e]⟩, h⟩
  · exact ⟨4, mem_emptyMoves.mpr ⟨by decide, by simp [e]⟩, h⟩
  · exact ⟨5, mem_emptyMoves.mpr ⟨by decide, by simp [e]⟩, h⟩
  · exact ⟨6, mem_emptyMoves.mpr ⟨by decide, by simp [e]⟩, h⟩
  · exact ⟨7, mem_emptyMoves.mpr ⟨by decide, by simp [e]⟩, h⟩
  · exact ⟨8, mem_emptyMoves.mpr ⟨by decide, by simp [e]⟩, h⟩

theorem allChild_elim {f : Nat → List Cell → Bool} {c0 c1 c2 c3 c4 c5 c6 c7 c8 p : Cell}
    (h : allChild f c0 c1 c2 c3 c4 c5 c6 c7 c8 p = true) :
    ∀ i ∈ emptyMoves [c0, c1, c2, c3, c4, c5, c6, c7, c8],
      f i ([c0, c1, c2, c3, c4, c5, c6, c7, c8].set i p) = true := by
  simp only [allChild, Bool.and_eq_true, Bool.or_eq_true, isE_eq_decide, Bool.not_eq_true',
    decide_eq_false_iff_not, decide_eq_true_eq] at h
  obtain ⟨⟨⟨⟨⟨⟨⟨⟨h0, h1⟩, h2⟩, h3⟩, h4⟩, h5⟩, h6⟩, h7⟩, h8⟩ := h
  intro i hi
  rw [mem_emptyMoves] at hi
  obtain ⟨hlt, hget⟩ := hi
  interval_cases i
  · exact h0.resolve_left (fun hne => hne (by simpa using hget))
  · exact h1.resolve_left (fun hne => hne (by simpa using hget))
  · exact h2.resolve_left (fun hne => hne (by simpa using hget))
  · exact h3.resolve_left (fun hne => hne (by simpa using hget))
  · exact h4.resolve_left (fun hne => hne (by simpa using hget))
  · exact h5.resolve_left (fun hne => hne (by simpa using hget))
  · exact h6.resolve_left (fun hne => hne (by simpa using hget))
  · exact h7.resolve_left (fun hne => hne (by simpa using hget))
  · exact h8.resolve_left (fun hne => hne (by simpa using hget))

theorem boundL_shape {human cpu : Cell} {n : Nat} {b : List Cell} {p q : Cell} {ge : Bool}
    {k : Int} (h : boundL human cpu n b p q ge k = true) :
    ∃ m c0 c1 c2 c3 c4 c5 c6 c7 c8, n = m + 1 ∧ b = [c0, c1, c2, c3, c4, c5, c6, c7, c8] := by
  unfold boundL at h
  split at h
  · exact ⟨_, _, _, _, _, _, _, _, _, _, rfl, rfl⟩
  · exact absurd h (by simp)

theorem boundL_succ (human cpu : Cell) (n : Nat) (c0 c1 c2 c3 c4 c5 c6 c7 c8 p q : Cell)
    (ge : Bool) (k : Int) :
    boundL human cpu (n + 1) [c0, c1, c2, c3, c4, c5, c6, c7, c8] p q ge k =
      bif beqC (winner9 c0 c1 c2 c3 c4 c5 c6 c7 c8) cpu then
        (bif ge then decide (k ≤ 10) else decide (10 ≤ k))
      else bif beqC (winner9 c0 c1 c2 c3 c4 c5 c6 c7 c8) human then
        (bif ge then decide (k ≤ -10) else decide (-10 ≤ k))
      else bif full9 c0 c1 c2 c3 c4 c5 c6 c7 c8 then
        (bif ge then decide (k ≤ 0) else decide (0 ≤ k))
      else bif (bif beqC p cpu then ge else !ge) then
        anyChild (fun _ b => boundL human cpu n b q p ge (unadj k)) c0 c1 c2 c3 c4 c5 c6 c7 c8 p
      else
        allChild (fun _ b => boundL human cpu n b q p ge (unadj k)) c0 c1 c2 c3 c4 c5 c6 c7 c8 p := by
  rw [boundL]

theorem boundL_sound (human cpu : Cell) :
    ∀ (n : Nat) (b : List Cell) (p q : Cell) (ge : Bool) (k : Int),
      p ≠ Cell.empty → other p = q → boundL human cpu n b p q ge k = true →
      (ge = true → k ≤ valueAt human cpu b p) ∧ (ge = false → valueAt human cpu b p ≤ k)
  | n, b, p, q, ge, k, hp, hq, h => by
    obtain ⟨m, c0, c1, c2, c3, c4, c5, c6, c7, c8, rfl, rfl⟩ := boundL_shape h
    have hqe : q ≠ Cell.empty := hq ▸ other_ne_empty p
    have hqp : other q = p := hq ▸ other_other hp
    rw [boundL_succ, ← getWinner_nine, ← allFilled_nine, beqC_eq_decide, beqC_eq_decide,
      beqC_eq_decide] at h
    have ih : ∀ i, boundL human cpu m ([c0, c1, c2, c3, c4, c5, c6, c7, c8].set i p) q p ge
          (unadj k) = true →
        (ge = true → k ≤ childValue human cpu [c0, c1, c2, c3, c4, c5, c6, c7, c8] p i) ∧
        (ge = false → childValue human cpu [c0, c1, c2, c3, c4, c5, c6, c7, c8] p i ≤ k) := by
      intro i hi
      have := boundL_sound human cpu m _ q p ge (unadj k) hqe hqp hi
      unfold childValue
      rw [hq]
      exact ⟨fun hge => unadj_le (this.1 hge), fun hge => le_unadj (this.2 hge)⟩
    rcases valueAt_cases human cpu [c0, c1, c2, c3, c4, c5, c6, c7, c8] p hp rfl with
      ⟨hc, hv⟩ | ⟨hc, hh, hv⟩ | ⟨hc, hh, hf, hv⟩ | ⟨hc, hh, hf, i0, hi0, _, hv, hmax, _⟩
    · rw [hv]
      cases ge <;> simp [hc] at h ⊢ <;> exact h
    · rw [hv]
      have hne : ¬ human = cpu := fun e => hc (hh.trans e)
      cases ge <;> simp [hh, hne] at h ⊢ <;> exact h
    · rw [hv]
      cases ge <;> simp [hc, hh, hf] at h ⊢ <;> exact h
    · rw [hv]
      simp only [hc, hh, hf, decide_False, cond_false] at h
      by_cases hpc : p = cpu
      · subst hpc
        have ho : orient p p = 1 := by simp [orient]
        simp only [ho, one_mul] at hmax
        cases ge
        · simp only [decide_True, cond_true, cond_false] at h
          refine ⟨fun hge => absurd hge (by simp), fun _ => ?_⟩
          have := allChild_elim h i0 hi0
          exact ((ih i0 this).2 rfl)
        · simp only [decide_True, cond_true] at h
          refine ⟨fun _ => ?_, fun hge => absurd hge (by simp)⟩
          obtain ⟨i, hi, hb⟩ := anyChild_elim h
          exact le_trans ((ih i hb).1 rfl) (hmax i hi)
      · have ho : orient cpu p = -1 := by simp [orient, hpc]
        simp only [ho] at hmax
        cases ge
        · simp only [hpc, decide_False, cond_false, Bool.not_false, cond_true] at h
          refine ⟨fun hge => absurd hge (by simp), fun _ => ?_⟩
          obtain ⟨i, hi, hb⟩ := anyChild_elim h
          have h1 := (ih i hb).2 rfl
          have h2 := hmax i hi
          omega
        · simp only [hpc, decide_False, cond_false, Bool.not_true] at h
          refine ⟨fun _ => ?_, fun hge => absurd hge (by simp)⟩
          have := allChild_elim h i0 hi0
          exact ((ih i0 this).1 rfl)

/-- The index returned on a non-terminal board is determined by bounds on the
adjusted child scores. -/
theorem bestMoveMinimax_of_bounds (human cpu : Cell) (b : List Cell) (p : Cell)
    (hp : p ≠ Cell.empty) (hlen : b.length = 9)
    (hc : (getWinner b).winner ≠ cpu) (hh : (getWinner b).winner ≠ human)
    (i0 : Nat) (hi0 : i0 ∈ emptyMoves b) (v : Int)
    (h0 : childValue human cpu b p i0 = v)
    (hlt : ∀ j ∈ emptyMoves b, j < i0 →
      orient cpu p * childValue human cpu b p j < orient cpu p * v)
    (hle : ∀ j ∈ emptyMoves b, i0 < j →
      orient cpu p * childValue human cpu b p j ≤ orient cpu p * v) :
    bestMoveMinimax human cpu b p = some ⟨some (i0 : Int), Score.fin v⟩ := by
  obtain ⟨i, hi, h, hmax, hfirst⟩ := bestMoveMinimax_step human cpu b p hp hlen hc hh
    (allFilled_false_of_mem hi0)
  have hii : i = i0 := by
    rcases Nat.lt_trichotomy i i0 with hlt' | heq | hgt
    · have h1 := hlt i hi hlt'
      have h2 := hmax i0 hi0
      rw [h0] at h2
      exact absurd h1 (not_lt.mpr h2)
    · exact heq
    · have h1 := hfirst i0 hi0 hgt
      have h2 := hle i hi hgt
      rw [h0] at h1
      exact absurd h1 (not_lt.mpr h2)
  rw [h, hii, h0]

theorem blt_of_lt {j i : Nat} (h : j < i) : Nat.blt j i = true := by
  rw [Nat.blt_eq]; exact h

theorem blt_of_not_lt {j i : Nat} (h : ¬ j < i) : Nat.blt j i = false := by
  cases hb : Nat.blt j i
  · rfl
  · rw [Nat.blt_eq] at hb; exact absurd hb h

theorem beq_of_ne {j i : Nat} (h : j ≠ i) : Nat.beq j i = false := by
  cases hb : Nat.beq j i
  · rfl
  · exact absurd (Nat.eq_of_beq_eq_true hb) h

theorem certMove_sound (human cpu : Cell) (n : Nat) (b : List Cell) (p q : Cell) (i0 : Nat)
    (v : Int) (hp : p ≠ Cell.empty) (hq : other p = q)
    (h : certMove human cpu n b p q i0 v = true) :
    bestMoveMinimax human cpu b p = some ⟨some (i0 : Int), Score.fin v⟩ := by
  unfold certMove at h
  split at h
  swap
  · exact absurd h (by simp)
  rename_i c0 c1 c2 c3 c4 c5 c6 c7 c8
  have hqe : q ≠ Cell.empty := hq ▸ other_ne_empty p
  have hqp : other q = p := hq ▸ other_other hp
  rw [← getWinner_nine] at h
  simp only [Bool.and_eq_true, Bool.not_eq_true', beqC_eq_decide, decide_eq_false_iff_not] at h
  obtain ⟨⟨⟨hc, hh⟩, hany⟩, hall⟩ := h
  obtain ⟨i, hi, hbeq⟩ := anyChild_elim hany
  have hii : i = i0 := Nat.eq_of_beq_eq_true hbeq
  subst hii
  have hall' := allChild_elim hall
  have hbound : ∀ (j : Nat) (ge : Bool) (k : Int),
      boundL human cpu n ([c0, c1, c2, c3, c4, c5, c6, c7, c8].set j p) q p ge (unadj k) = true →
      (ge = true → k ≤ childValue human cpu [c0, c1, c2, c3, c4, c5, c6, c7, c8] p j) ∧
      (ge = false → childValue human cpu [c0, c1, c2, c3, c4, c5, c6, c7, c8] p j ≤ k) := by
    intro j ge k hj
    have := boundL_sound human cpu n _ q p ge (unadj k) hqe hqp hj
    unfold childValue
    rw [hq]
    exact ⟨fun hge => unadj_le (this.1 hge), fun hge => le_unadj (this.2 hge)⟩
  apply bestMoveMinimax_of_bounds human cpu [c0, c1, c2, c3, c4, c5, c6, c7, c8] p hp rfl hc hh
    i hi v
  · have := hall' i hi
    simp only [blt_of_not_lt (lt_irrefl i), Nat.beq_refl, cond_false, cond_true,
      Bool.and_eq_true] at this
    exact le_antisymm ((hbound i false v this.2).2 rfl) ((hbound i true v this.1).1 rfl)
  · intro j hj hlt
    have := hall' j hj
    simp only [blt_of_lt hlt, cond_true] at this
    by_cases hpc : p = cpu
    · subst hpc
      simp only [decide_True, Bool.not_true, cond_true] at this
      have h1 := (hbound j false (v - 1) this).2 rfl
      simp only [orient, if_true, one_mul]
      omega
    · simp only [hpc, decide_False, Bool.not_false, cond_false] at this
      have h1 := (hbound j true (v + 1) this).1 rfl
      simp only [orient, hpc, if_false]
      omega
  · intro j hj hgt
    have := hall' j hj
    simp only [blt_of_not_lt (by omega : ¬ j < i), beq_of_ne (by omega : j ≠ i),
      cond_false] at this
    by_cases hpc : p = cpu
    · subst hpc
      simp only [decide_True, Bool.not_true] at this
      have h1 := (hbound j false v this).2 rfl
      simp only [orient, if_true, one_mul]
      omega
    · simp only [hpc, decide_False, Bool.not_false] at this
      have h1 := (hbound j true v this).1 rfl
      simp only [orient, hpc, if_false]
      omega

/-! ## Certified moves on concrete boards -/

theorem selfPlay_XO_1 :
    bestMoveMinimax Cell.X Cell.O [Cell.empty, Cell.empty, Cell.empty, Cell.empty, Cell.empty, Cell.empty, Cell.empty, Cell.empty, Cell.empty] Cell.X = some ⟨some 0, Score.fin 0⟩ :=
  certMove_sound Cell.X Cell.O 10 _ Cell.X Cell.O 0 0 (by decide) rfl (by decide!)

theorem selfPlay_XO_2 :
    bestMoveMinimax Cell.X Cell.O [Cell.X, Cell.empty, Cell.empty, Cell.empty, Cell.empty, Cell.empty, Cell.empty, Cell.empty, Cell.empty] Cell.O = some ⟨some 4, Score.fin 0⟩ :=
  certMove_sound Cell.X Cell.O 10 _ Cell.O Cell.X 4 0 (by decide) rfl (by decide!)

theorem selfPlay_XO_3 :
    bestMoveMinimax Cell.X Cell.O [Cell.X, Cell.empty, Cell.empty, Cell.empty, Cell.O, Cell.empty, Cell.empty, Cell.empty, Cell.empty] Cell.X = some ⟨some 1, Score.fin 0⟩ :=
  certMove_sound Cell.X Cell.O 10 _ Cell.X Cell.O 1 0 (by decide) rfl (by decide!)

theorem selfPlay_XO_4 :
    bestMoveMinimax Cell.X Cell.O [Cell.X, Cell.X, Cell.empty, Cell.empty, Cell.O, Cell.empty, Cell.empty, Cell.empty, Cell.empty] Cell.O = some ⟨some 2, Score.fin 0⟩ :=
  certMove_sound Cell.X Cell.O 10 _ Cell.O Cell.X 2 0 (by decide) rfl (by decide!)

theorem selfPlay_XO_5 :
    bestMoveMinimax Cell.X Cell.O [Cell.X, Cell.X, Cell.O, Cell.empty, Cell.O, Cell.empty, Cell.empty, Cell.empty, Cell.empty] Cell.X = some ⟨some 6, Score.fin 0⟩ :=
  certMove_sound Cell.X Cell.O 10 _ Cell.X Cell.O 6 0 (by decide) rfl (by decide!)

theorem selfPlay_XO_6 :
    bestMoveMinimax Cell.X Cell.O [Cell.X, Cell.X, Cell.O, Cell.empty, Cell.O, Cell.empty, Cell.X, Cell.empty, Cell.empty] Cell.O = some ⟨some 3, Score.fin 0⟩ :=
  certMove_sound Cell.X Cell.O 10 _ Cell.O Cell.X 3 0 (by decide) rfl (by decide!)

theorem selfPlay_XO_7 :
    bestMoveMinimax Cell.X Cell.O [Cell.X, Cell.X, Cell.O, Cell.O, Cell.O, Cell.empty, Cell.X, Cell.empty, Cell.empty] Cell.X = some ⟨some 5, Score.fin 0⟩ :=
  certMove_sound Cell.X Cell.O 10 _ Cell.X Cell.O 5 0 (by decide) rfl (by decide!)

theorem selfPlay_XO_8 :
    bestMoveMinimax Cell.X Cell.O [Cell.X, Cell.X, Cell.O, Cell.O, Cell.O, Cell.X, Cell.X, Cell.empty, Cell.empty] Cell.O = some ⟨some 7, Score.fin 0⟩ :=
  certMove_sound Cell.X Cell.O 10 _ Cell.O Cell.X 7 0 (by decide) rfl (by decide!)

theorem selfPlay_XO_9 :
    bestMoveMinimax Cell.X Cell.O [Cell.X, Cell.X, Cell.O, Cell.O, Cell.O, Cell.X, Cell.X, Cell.O, Cell.empty] Cell.X = some ⟨some 8, Score.fin 0⟩ :=
  certMove_sound Cell.X Cell.O 10 _ Cell.X Cell.O 8 0 (by decide) rfl (by decide!)

theorem emptyBoard_XO_O :
    bestMoveMinimax Cell.X Cell.O [Cell.empty, Cell.empty, Cell.empty, Cell.empty, Cell.empty, Cell.empty, Cell.empty, Cell.empty, Cell.empty] Cell.O = some ⟨some 0, Score.fin 0⟩ :=
  certMove_sound Cell.X Cell.O 10 _ Cell.O Cell.X 0 0 (by decide) rfl (by decide!)

theorem selfPlay_OX_1 :
    bestMoveMinimax Cell.O Cell.X [Cell.empty, Cell.empty, Cell.empty, Cell.empty, Cell.empty, Cell.empty, Cell.empty, Cell.empty, Cell.empty] Cell.X = some ⟨some 0, Score.fin 0⟩ :=
  certMove_sound Cell.O Cell.X 10 _ Cell.X Cell.O 0 0 (by decide) rfl (by decide!)

theorem selfPlay_OX_2 :
    bestMoveMinimax Cell.O Cell.X [Cell.X, Cell.empty, Cell.empty, Cell.empty, Cell.empty, Cell.empty, Cell.empty, Cell.empty, Cell.empty] Cell.O = some ⟨some 4, Score.fin 0⟩ :=
  certMove_sound Cell.O Cell.X 10 _ Cell.O Cell.X 4 0 (by decide) rfl (by decide!)

theorem selfPlay_OX_3 :
    bestMoveMinimax Cell.O Cell.X [Cell.X, Cell.empty, Cell.empty, Cell.empty, Cell.O, Cell.empty, Cell.empty, Cell.empty, Cell.empty] Cell.X = some ⟨some 1, Score.fin 0⟩ :=
  certMove_sound Cell.O Cell.X 10 _ Cell.X Cell.O 1 0 (by decide) rfl (by decide!)

theorem selfPlay_OX_4 :
    bestMoveMinimax Cell.O Cell.X [Cell.X, Cell.X, Cell.empty, Cell.empty, Cell.O, Cell.empty, Cell.empty, Cell.empty, Cell.empty] Cell.O = some ⟨some 2, Score.fin 0⟩ :=
  certMove_sound Cell.O Cell.X 10 _ Cell.O Cell.X 2 0 (by decide) rfl (by decide!)

theorem selfPlay_OX_5 :
    bestMoveMinimax Cell.O Cell.X [Cell.X, Cell.X, Cell.O, Cell.empty, Cell.O, Cell.empty, Cell.empty, Cell.empty, Cell.empty] Cell.X = some ⟨some 6, Score.fin 0⟩ :=
  certMove_sound Cell.O Cell.X 10 _ Cell.X Cell.O 6 0 (by decide) rfl (by decide!)

theorem selfPlay_OX_6 :
    bestMoveMinimax Cell.O Cell.X [Cell.X, Cell.X, Cell.O, Cell.empty, Cell.O, Cell.empty, Cell.X, Cell.empty, Cell.empty] Cell.O = some ⟨some 3, Score.fin 0⟩ :=
  certMove_sound Cell.O Cell.X 10 _ Cell.O Cell.X 3 0 (by decide) rfl (by decide!)

theorem selfPlay_OX_7 :
    bestMoveMinimax Cell.O Cell.X [Cell.X, Cell.X, Cell.O, Cell.O, Cell.O, Cell.empty, Cell.X, Cell.empty, Cell.empty] Cell.X = some ⟨some 5, Score.fin 0⟩ :=
  certMove_sound Cell.O Cell.X 10 _ Cell.X Cell.O 5 0 (by decide) rfl (by decide!)

theorem selfPlay_OX_8 :
    bestMoveMinimax Cell.O Cell.X [Cell.X, Cell.X, Cell.O, Cell.O, Cell.O, Cell.X, Cell.X, Cell.empty, Cell.empty] Cell.O = some ⟨some 7, Score.fin 0⟩ :=
  certMove_sound Cell.O Cell.X 10 _ Cell.O Cell.X 7 0 (by decide) rfl (by decide!)

theorem selfPlay_OX_9 :
    bestMoveMinimax Cell.O Cell.X [Cell.X, Cell.X, Cell.O, Cell.O, Cell.O, Cell.X, Cell.X, Cell.O, Cell.empty] Cell.X = some ⟨some 8, Score.fin 0⟩ :=
  certMove_sound Cell.O Cell.X 10 _ Cell.X Cell.O 8 0 (by decide) rfl (by decide!)

theorem emptyBoard_OX_O :
    bestMoveMinimax Cell.O Cell.X [Cell.empty, Cell.empty, Cell.empty, Cell.empty, Cell.empty, Cell.empty, Cell.empty, Cell.empty, Cell.empty] Cell.O = some ⟨some 0, Score.fin 0⟩ :=
  certMove_sound Cell.O Cell.X 10 _ Cell.O Cell.X 0 0 (by decide) rfl (by decide!)

/-! ## C1: hard difficulty never loses -/

theorem Marks.human_ne {human cpu : Cell} (h : Marks human cpu) : human ≠ Cell.empty := by
  rcases h with ⟨h, _⟩ | ⟨h, _⟩ <;> simp [h]

theorem Marks.cpu_ne {human cpu : Cell} (h : Marks human cpu) : cpu ≠ Cell.empty := by
  rcases h with ⟨_, h⟩ | ⟨_, h⟩ <;> simp [h]

theorem Marks.ne {human cpu : Cell} (h : Marks human cpu) : human ≠ cpu := by
  rcases h with ⟨h, h'⟩ | ⟨h, h'⟩ <;> simp [h, h']

theorem Marks.other_human {human cpu : Cell} (h : Marks human cpu) : other human = cpu := by
  rcases h with ⟨h, h'⟩ | ⟨h, h'⟩ <;> simp [h, h', other]

theorem Marks.other_cpu {human cpu : Cell} (h : Marks human cpu) : other cpu = human := by
  rcases h with ⟨h, h'⟩ | ⟨h, h'⟩ <;> simp [h, h', other]

theorem Marks.winner_cases {human cpu : Cell} (h : Marks human cpu) (w : Cell) :
    w = Cell.empty ∨ w = human ∨ w = cpu := by
  rcases h with ⟨h, h'⟩ | ⟨h, h'⟩ <;> cases w <;> simp [h, h']

theorem isTerminal_false_iff {b : List Cell} :
    isTerminal b = false ↔ (getWinner b).winner = Cell.empty ∧ allFilled b = false := by
  unfold isTerminal isDraw
  by_cases hw : (getWinner b).winner = Cell.empty <;> simp [hw]

/-- The adjusted score of a child has the sign of the child's score. -/
theorem childValue_sign (human cpu : Cell) (b : List Cell) (p : Cell) (j : Nat)
    (hp : p ≠ Cell.empty) (hlen : b.length = 9) (hj : j ∈ emptyMoves b) :
    (0 < childValue human cpu b p j ↔ 0 < valueAt human cpu (b.set j p) (other p)) ∧
    (childValue human cpu b p j < 0 ↔ valueAt human cpu (b.set j p) (other p) < 0) ∧
    (childValue human cpu b p j = 0 ↔ valueAt human cpu (b.set j p) (other p) = 0) := by
  have hl := emptyMoves_length_set hp hj
  have h9 := emptyMoves_length_le b
  have hr := valueAt_range' human cpu (b.set j p) (other p) (other_ne_empty p)
    (by simpa using hlen)
  unfold childValue adjI
  rcases hr with h0 | ⟨h1, h2⟩ | ⟨h1, h2⟩
  · rw [h0]; simp
  · refine ⟨?_, ?_, ?_⟩ <;> split_ifs <;> constructor <;> intro _ <;> omega
  · refine ⟨?_, ?_, ?_⟩ <;> split_ifs <;> constructor <;> intro _ <;> omega

/-- The non-terminal case of `valueAt_cases`. -/
theorem valueAt_nonterminal (human cpu : Cell) (hm : Marks human cpu) (b : List Cell) (p : Cell)
    (hp : p ≠ Cell.empty) (hlen : b.length = 9) (ht : isTerminal b = false) :
    ∃ i ∈ emptyMoves b,
      bestMoveMinimax human cpu b p
          = some ⟨some (i : Int), Score.fin (childValue human cpu b p i)⟩ ∧
      valueAt human cpu b p = childValue human cpu b p i ∧
      (∀ j ∈ emptyMoves b,
        orient cpu p * childValue human cpu b p j ≤ orient cpu p * childValue human cpu b p i) ∧
      (∀ j ∈ emptyMoves b, j < i →
        orient cpu p * childValue human cpu b p j
          < orient cpu p * childValue human cpu b p i) := by
  obtain ⟨hw, hf⟩ := isTerminal_false_iff.mp ht
  rcases valueAt_cases human cpu b p hp hlen with ⟨hc, _⟩ | ⟨_, hh, _⟩ | ⟨_, _, hf', _⟩ | ⟨_, _, _, h⟩
  · exact absurd (hc ▸ hw) hm.cpu_ne
  · exact absurd (hh ▸ hw) hm.human_ne
  · rw [hf] at hf'; exact Bool.noConfusion hf'
  · exact h

theorem hardPlay_invariant (human cpu : Cell) (hm : Marks human cpu) (b : List Cell) (p : Cell)
    (h : HardPlay human cpu b p) :
    b.length = 9 ∧ p ≠ Cell.empty ∧ 0 ≤ valueAt human cpu b p := by
  induction h with
  | start =>
    refine ⟨by simp, by simp, ?_⟩
    rcases hm with ⟨h1, h2⟩ | ⟨h1, h2⟩
    · subst h1; subst h2
      have := selfPlay_XO_1
      unfold valueAt
      rw [show List.replicate 9 Cell.empty = [Cell.empty, Cell.empty, Cell.empty, Cell.empty,
        Cell.empty, Cell.empty, Cell.empty, Cell.empty, Cell.empty] from rfl, this]
      simp [scoreOf]
    · subst h1; subst h2
      have := selfPlay_OX_1
      unfold valueAt
      rw [show List.replicate 9 Cell.empty = [Cell.empty, Cell.empty, Cell.empty, Cell.empty,
        Cell.empty, Cell.empty, Cell.empty, Cell.empty, Cell.empty] from rfl, this]
      simp [scoreOf]
  | @humanMove b i _ ht hi ih =>
    obtain ⟨hlen, hp, hv⟩ := ih
    refine ⟨by simpa using hlen, hm.cpu_ne, ?_⟩
    obtain ⟨i0, hi0, _, hval, hmax, _⟩ := valueAt_nonterminal human cpu hm b human hp hlen ht
    have ho : orient cpu human = -1 := by simp [orient, hm.ne]
    have h1 := hmax i hi
    rw [ho] at h1
    have h2 : 0 ≤ childValue human cpu b human i := by omega
    have hs := childValue_sign human cpu b human i hp hlen hi
    rw [hm.other_human] at hs
    by_contra hneg
    have := hs.2.1.mpr (by omega)
    omega
  | @cpuMove b r i _ ht hr hidx ih =>
    obtain ⟨hlen, hp, hv⟩ := ih
    refine ⟨by simpa using hlen, hm.human_ne, ?_⟩
    obtain ⟨i0, hi0, hbest, hval, _, _⟩ := valueAt_nonterminal human cpu hm b cpu hp hlen ht
    rw [hbest] at hr
    have hri : r.idx = some (i0 : Int) := by rw [← Option.some.inj hr]
    have hii : i = i0 := by
      rw [hri] at hidx
      exact (Int.ofNat.inj (Option.some.inj hidx)).symm
    subst hii
    have hs := childValue_sign human cpu b cpu i hp hlen hi0
    rw [hm.other_cpu] at hs
    by_contra hneg
    have := hs.2.1.mpr (by omega)
    omega

/-- C1. Hard difficulty never loses: on every position reachable from the
empty board with X to move, when the human plays any legal moves and the CPU
plays `bestMoveMinimax(board, cpu).idx`, `getWinner` does not report the
human's mark; and on every such non-terminal position with the CPU to move,
`bestMoveMinimax` does return an empty cell, so play continues. -/
theorem hard_never_loses (human cpu : Cell) (hm : Marks human cpu) (b : List Cell) (p : Cell)
    (h : HardPlay human cpu b p) :
    (getWinner b).winner ≠ human ∧
    (isTerminal b = false → p = cpu →
      ∃ i ∈ emptyMoves b, ∃ s, bestMoveMinimax human cpu b cpu = some ⟨some (i : Int), s⟩) := by
  obtain ⟨hlen, hp, hv⟩ := hardPlay_invariant human cpu hm b p h
  constructor
  · intro hw
    rcases valueAt_cases human cpu b p hp hlen with ⟨hc, _⟩ | ⟨_, _, h10⟩ | ⟨_, hh, _⟩ |
      ⟨_, hh, _⟩
    · exact hm.ne (hw.symm.trans hc)
    · omega
    · exact hh hw
    · exact hh hw
  · intro ht hpc
    subst hpc
    obtain ⟨i, hi, hbest, _⟩ := valueAt_nonterminal human p hm b p hp hlen ht
    exact ⟨i, hi, _, hbest⟩

/-- Witness for C1 at the position after X takes cell 0 and the CPU (O)
answers with cell 4. -/
theorem hard_never_loses_witness :
    Marks Cell.X Cell.O ∧
    HardPlay Cell.X Cell.O
      [Cell.X, Cell.empty, Cell.empty, Cell.empty, Cell.O, Cell.empty, Cell.empty, Cell.empty,
        Cell.empty] Cell.X ∧
    (getWinner [Cell.X, Cell.empty, Cell.empty, Cell.empty, Cell.O, Cell.empty, Cell.empty,
        Cell.empty, Cell.empty]).winner ≠ Cell.X :=
  have hm : Marks Cell.X Cell.O := Or.inl ⟨rfl, rfl⟩
  have h1 : HardPlay Cell.X Cell.O
      [Cell.X, Cell.empty, Cell.empty, Cell.empty, Cell.empty, Cell.empty, Cell.empty,
        Cell.empty, Cell.empty] Cell.O :=
    HardPlay.humanMove (i := 0) HardPlay.start (by decide) (by decide)
  have h2 : HardPlay Cell.X Cell.O
      [Cell.X, Cell.empty, Cell.empty, Cell.empty, Cell.O, Cell.empty, Cell.empty, Cell.empty,
        Cell.empty] Cell.X :=
    HardPlay.cpuMove (i := 4) h1 (by decide) selfPlay_XO_2 rfl
  ⟨hm, h2, (hard_never_loses Cell.X Cell.O hm _ _ h2).1⟩

/-! ## C2: hard against hard is a draw -/

theorem selfPlay_step (human cpu : Cell) (n : Nat) (b b' : List Cell) (p q : Cell) (i : Nat)
    (s : Score) (ht : isTerminal b = false)
    (hb : bestMoveMinimax human cpu b p = some ⟨some (i : Int), s⟩)
    (hi : b[i]? = some Cell.empty) (hb' : b.set i p = b') (hq : other p = q) :
    selfPlay human cpu (n + 1) b p = selfPlay human cpu n b' q := by
  simp [selfPlay, ht, hb, boardAt, hi, hb', hq]

theorem selfPlay_XO :
    selfPlay Cell.X Cell.O 9 (List.replicate 9 Cell.empty) Cell.X
      = some [Cell.X, Cell.X, Cell.O, Cell.O, Cell.O, Cell.X, Cell.X, Cell.O, Cell.X] := by
  show selfPlay Cell.X Cell.O 9 [Cell.empty, Cell.empty, Cell.empty, Cell.empty, Cell.empty, Cell.empty, Cell.empty, Cell.empty, Cell.empty] Cell.X = _
  calc
    selfPlay Cell.X Cell.O 9 [Cell.empty, Cell.empty, Cell.empty, Cell.empty, Cell.empty, Cell.empty, Cell.empty, Cell.empty, Cell.empty] Cell.X
        = selfPlay Cell.X Cell.O 8 [Cell.X, Cell.empty, Cell.empty, Cell.empty, Cell.empty, Cell.empty, Cell.empty, Cell.empty, Cell.empty] Cell.O :=
          selfPlay_step _ _ _ _ _ _ _ _ _ (by decide) selfPlay_XO_1 (by decide) rfl rfl
    _
        = selfPlay Cell.X Cell.O 7 [Cell.X, Cell.empty, Cell.empty, Cell.empty, Cell.O, Cell.empty, Cell.empty, Cell.empty, Cell.empty] Cell.X :=
          selfPlay_step _ _ _ _ _ _ _ _ _ (by decide) selfPlay_XO_2 (by decide) rfl rfl
    _
        = selfPlay Cell.X Cell.O 6 [Cell.X, Cell.X, Cell.empty, Cell.empty, Cell.O, Cell.empty, Cell.empty, Cell.empty, Cell.empty] Cell.O :=
          selfPlay_step _ _ _ _ _ _ _ _ _ (by decide) selfPlay_XO_3 (by decide) rfl rfl
    _
        = selfPlay Cell.X Cell.O 5 [Cell.X, Cell.X, Cell.O, Cell.empty, Cell.O, Cell.empty, Cell.empty, Cell.empty, Cell.empty] Cell.X :=
          selfPlay_step _ _ _ _ _ _ _ _ _ (by decide) selfPlay_XO_4 (by decide) rfl rfl
    _
        = selfPlay Cell.X Cell.O 4 [Cell.X, Cell.X, Cell.O, Cell.empty, Cell.O, Cell.empty, Cell.X, Cell.empty, Cell.empty] Cell.O :=
          selfPlay_step _ _ _ _ _ _ _ _ _ (by decide) selfPlay_XO_5 (by decide) rfl rfl
    _
        = selfPlay Cell.X Cell.O 3 [Cell.X, Cell.X, Cell.O, Cell.O, Cell.O, Cell.empty, Cell.X, Cell.empty, Cell.empty] Cell.X :=
          selfPlay_step _ _ _ _ _ _ _ _ _ (by decide) selfPlay_XO_6 (by decide) rfl rfl
    _
        = selfPlay Cell.X Cell.O 2 [Cell.X, Cell.X, Cell.O, Cell.O, Cell.O, Cell.X, Cell.X, Cell.empty, Cell.empty] Cell.O :=
          selfPlay_step _ _ _ _ _ _ _ _ _ (by decide) selfPlay_XO_7 (by decide) rfl rfl
    _
        = selfPlay Cell.X Cell.O 1 [Cell.X, Cell.X, Cell.O, Cell.O, Cell.O, Cell.X, Cell.X, Cell.O, Cell.empty] Cell.X :=
          selfPlay_step _ _ _ _ _ _ _ _ _ (by decide) selfPlay_XO_8 (by decide) rfl rfl
    _
        = selfPlay Cell.X Cell.O 0 [Cell.X, Cell.X, Cell.O, Cell.O, Cell.O, Cell.X, Cell.X, Cell.O, Cell.X] Cell.O :=
          selfPlay_step _ _ _ _ _ _ _ _ _ (by decide) selfPlay_XO_9 (by decide) rfl rfl
    _ = some [Cell.X, Cell.X, Cell.O, Cell.O, Cell.O, Cell.X, Cell.X, Cell.O, Cell.X] := by decide

theorem selfPlay_OX :
    selfPlay Cell.O Cell.X 9 (List.replicate 9 Cell.empty) Cell.X
      = some [Cell.X, Cell.X, Cell.O, Cell.O, Cell.O, Cell.X, Cell.X, Cell.O, Cell.X] := by
  show selfPlay Cell.O Cell.X 9 [Cell.empty, Cell.empty, Cell.empty, Cell.empty, Cell.empty, Cell.empty, Cell.empty, Cell.empty, Cell.empty] Cell.X = _
  calc
    selfPlay Cell.O Cell.X 9 [Cell.empty, Cell.empty, Cell.empty, Cell.empty, Cell.empty, Cell.empty, Cell.empty, Cell.empty, Cell.empty] Cell.X
        = selfPlay Cell.O Cell.X 8 [Cell.X, Cell.empty, Cell.empty, Cell.empty, Cell.empty, Cell.empty, Cell.empty, Cell.empty, Cell.empty] Cell.O :=
          selfPlay_step _ _ _ _ _ _ _ _ _ (by decide) selfPlay_OX_1 (by decide) rfl rfl
    _
        = selfPlay Cell.O Cell.X 7 [Cell.X, Cell.empty, Cell.empty, Cell.empty, Cell.O, Cell.empty, Cell.empty, Cell.empty, Cell.empty] Cell.X :=
          selfPlay_step _ _ _ _ _ _ _ _ _ (by decide) selfPlay_OX_2 (by decide) rfl rfl
    _
        = selfPlay Cell.O Cell.X 6 [Cell.X, Cell.X, Cell.empty, Cell.empty, Cell.O, Cell.empty, Cell.empty, Cell.empty, Cell.empty] Cell.O :=
          selfPlay_step _ _ _ _ _ _ _ _ _ (by decide) selfPlay_OX_3 (by decide) rfl rfl
    _
        = selfPlay Cell.O Cell.X 5 [Cell.X, Cell.X, Cell.O, Cell.empty, Cell.O, Cell.empty, Cell.empty, Cell.empty, Cell.empty] Cell.X :=
          selfPlay_step _ _ _ _ _ _ _ _ _ (by decide) selfPlay_OX_4 (by decide) rfl rfl
    _
        = selfPlay Cell.O Cell.X 4 [Cell.X, Cell.X, Cell.O, Cell.empty, Cell.O, Cell.empty, Cell.X, Cell.empty, Cell.empty] Cell.O :=
          selfPlay_step _ _ _ _ _ _ _ _ _ (by decide) selfPlay_OX_5 (by decide) rfl rfl
    _
        = selfPlay Cell.O Cell.X 3 [Cell.X, Cell.X, Cell.O, Cell.O, Cell.O, Cell.empty, Cell.X, Cell.empty, Cell.empty] Cell.X :=
          selfPlay_step _ _ _ _ _ _ _ _ _ (by decide) selfPlay_OX_6 (by decide) rfl rfl
    _
        = selfPlay Cell.O Cell.X 2 [Cell.X, Cell.X, Cell.O, Cell.O, Cell.O, Cell.X, Cell.X, Cell.empty, Cell.empty] Cell.O :=
          selfPlay_step _ _ _ _ _ _ _ _ _ (by decide) selfPlay_OX_7 (by decide) rfl rfl
    _
        = selfPlay Cell.O Cell.X 1 [Cell.X, Cell.X, Cell.O, Cell.O, Cell.O, Cell.X, Cell.X, Cell.O, Cell.empty] Cell.X :=
          selfPlay_step _ _ _ _ _ _ _ _ _ (by decide) selfPlay_OX_8 (by decide) rfl rfl
    _
        = selfPlay Cell.O Cell.X 0 [Cell.X, Cell.X, Cell.O, Cell.O, Cell.O, Cell.X, Cell.X, Cell.O, Cell.X] Cell.O :=
          selfPlay_step _ _ _ _ _ _ _ _ _ (by decide) selfPlay_OX_9 (by decide) rfl rfl
    _ = some [Cell.X, Cell.X, Cell.O, Cell.O, Cell.O, Cell.X, Cell.X, Cell.O, Cell.X] := by decide

/-- C2. Self-play of hard against hard from the empty board with X to move
returns, for either binding of the marks, a board with all nine cells filled
on which `getWinner` reports no winner and `isDraw` is true. -/
theorem hard_self_play_draw :
    (∃ b, selfPlay Cell.X Cell.O 9 (List.replicate 9 Cell.empty) Cell.X = some b ∧
      b.length = 9 ∧ allFilled b = true ∧ getWinner b = ⟨Cell.empty, none⟩ ∧ isDraw b = true) ∧
    (∃ b, selfPlay Cell.O Cell.X 9 (List.replicate 9 Cell.empty) Cell.X = some b ∧
      b.length = 9 ∧ allFilled b = true ∧ getWinner b = ⟨Cell.empty, none⟩ ∧ isDraw b = true) :=
  ⟨⟨_, selfPlay_XO, by decide, by decide, by decide, by decide⟩,
    ⟨_, selfPlay_OX, by decide, by decide, by decide, by decide⟩⟩

/-! ## C3: hard difficulty wins when it can -/

theorem sgn_mono {a b : Int} (h : a ≤ b) : sgn a ≤ sgn b := by
  unfold sgn; split_ifs <;> omega

theorem sgn_childValue (human cpu : Cell) (b : List Cell) (p : Cell) (j : Nat)
    (hp : p ≠ Cell.empty) (hlen : b.length = 9) (hj : j ∈ emptyMoves b) :
    sgn (childValue human cpu b p j) = sgn (valueAt human cpu (b.set j p) (other p)) := by
  obtain ⟨h1, h2, _⟩ := childValue_sign human cpu b p j hp hlen hj
  unfold sgn
  by_cases hpos : 0 < valueAt human cpu (b.set j p) (other p)
  · simp [hpos, h1.mpr hpos]
  · by_cases hneg : valueAt human cpu (b.set j p) (other p) < 0
    · have := h2.mpr hneg
      simp [hpos, hneg, this, not_lt.mpr (le_of_lt this)]
    · have hn1 : ¬ 0 < childValue human cpu b p j := fun h => hpos (h1.mp h)
      have hn2 : ¬ childValue human cpu b p j < 0 := fun h => hneg (h2.mp h)
      simp [hpos, hneg, hn1, hn2]

theorem foldl_max_eq : ∀ (l : List Int) (a m : Int), a ≤ m → (∀ x ∈ l, x ≤ m) →
    (m = a ∨ m ∈ l) → l.foldl max a = m
  | [], a, m, _, _, h => by
    rcases h with h | h
    · simp [h]
    · exact absurd h (List.not_mem_nil _)
  | x :: l, a, m, ha, hl, h => by
    rw [List.foldl_cons]
    have hx : x ≤ m := hl x (List.mem_cons_self _ _)
    apply foldl_max_eq l (max a x) m (max_le ha hx) (fun y hy => hl y (List.mem_cons_of_mem _ hy))
    rcases h with h | h
    · left; rw [h]; exact (max_eq_left (h ▸ hx)).symm
    · rcases List.mem_cons.mp h with h | h
      · left; rw [h]; exact (max_eq_right (h ▸ ha)).symm
      · right; exact h

theorem foldl_min_eq : ∀ (l : List Int) (a m : Int), m ≤ a → (∀ x ∈ l, m ≤ x) →
    (m = a ∨ m ∈ l) → l.foldl min a = m
  | [], a, m, _, _, h => by
    rcases h with h | h
    · simp [h]
    · exact absurd h (List.not_mem_nil _)
  | x :: l, a, m, ha, hl, h => by
    rw [List.foldl_cons]
    have hx : m ≤ x := hl x (List.mem_cons_self _ _)
    apply foldl_min_eq l (min a x) m (le_min ha hx) (fun y hy => hl y (List.mem_cons_of_mem _ hy))
    rcases h with h | h
    · left; rw [h]; exact (min_eq_left (h ▸ hx)).symm
    · rcases List.mem_cons.mp h with h | h
      · left; rw [h]; exact (min_eq_right (h ▸ ha)).symm
      · right; exact h

/-- Plain minimax is the sign of the depth-adjusted score. -/
theorem plainMinimaxAux_eq_sgn (human cpu : Cell) :
    ∀ (n : Nat) (b : List Cell) (p : Cell), p ≠ Cell.empty → b.length = 9 →
      (emptyMoves b).length < n →
      plainMinimaxAux human cpu n b p = sgn (valueAt human cpu b p)
  | 0, _, _, _, _, h => absurd h (Nat.not_lt_zero _)
  | n + 1, b, p, hp, hlen, hn => by
    have hmap : (emptyMoves b).map
          (fun i => plainMinimaxAux human cpu n (b.set i p) (other p))
        = (emptyMoves b).map (fun i => sgn (childValue human cpu b p i)) := by
      apply List.map_congr_left
      intro i hi
      have hl := emptyMoves_length_set hp hi
      rw [plainMinimaxAux_eq_sgn human cpu n (b.set i p) (other p) (other_ne_empty p)
        (by simpa using hlen) (by omega), sgn_childValue human cpu b p i hp hlen hi]
    rcases valueAt_cases human cpu b p hp hlen with ⟨hc, hv⟩ | ⟨hc, hh, hv⟩ | ⟨hc, hh, hf, hv⟩ |
      ⟨hc, hh, hf, i0, hi0, _, hv, hmax, _⟩
    · simp [plainMinimaxAux, hc, hv, sgn]
    · have hne : ¬ human = cpu := fun e => hc (hh.trans e)
      simp [plainMinimaxAux, hh, hne, hv, sgn]
    · simp [plainMinimaxAux, hc, hh, hf, hv, sgn]
    · simp only [plainMinimaxAux, hc, hh, hf, if_false, Bool.false_eq_true]
      rw [hmap, hv]
      by_cases hpc : p = cpu
      · subst hpc
        simp only [if_true]
        have ho : orient p p = 1 := by simp [orient]
        simp only [ho, one_mul] at hmax
        apply foldl_max_eq
        · unfold sgn; split_ifs <;> omega
        · intro x hx
          obtain ⟨j, hj, rfl⟩ := List.mem_map.mp hx
          exact sgn_mono (hmax j hj)
        · right
          exact List.mem_map.mpr ⟨i0, hi0, rfl⟩
      · simp only [hpc, if_false]
        have ho : orient cpu p = -1 := by simp [orient, hpc]
        simp only [ho] at hmax
        apply foldl_min_eq
        · unfold sgn; split_ifs <;> omega
        · intro x hx
          obtain ⟨j, hj, rfl⟩ := List.mem_map.mp hx
          exact sgn_mono (by have := hmax j hj; omega)
        · right
          exact List.mem_map.mpr ⟨i0, hi0, rfl⟩

theorem plainMinimax_eq_sgn (human cpu : Cell) (b : List Cell) (p : Cell)
    (hp : p ≠ Cell.empty) (hlen : b.length = 9) :
    plainMinimax human cpu b p = sgn (valueAt human cpu b p) :=
  plainMinimaxAux_eq_sgn human cpu _ b p hp hlen (by omega)

theorem cpuWins_of_pos (human cpu : Cell) (hm : Marks human cpu) :
    ∀ (n : Nat) (b : List Cell) (p : Cell), (emptyMoves b).length < n → b.length = 9 →
      (p = human ∨ p = cpu) → 0 < valueAt human cpu b p → CpuWins human cpu b p
  | 0, _, _, h, _, _, _ => absurd h (Nat.not_lt_zero _)
  | n + 1, b, p, hn, hlen, hpl, hv => by
    have hp : p ≠ Cell.empty := by
      rcases hpl with h | h
      · exact h ▸ hm.human_ne
      · exact h ▸ hm.cpu_ne
    rcases valueAt_cases human cpu b p hp hlen with ⟨hc, _⟩ | ⟨_, _, h10⟩ | ⟨_, _, _, h0⟩ |
      ⟨hc, hh, hf, i0, hi0, hbest, hval, hmax, _⟩
    · exact CpuWins.won hc
    · omega
    · omega
    · have hw : (getWinner b).winner = Cell.empty := by
        rcases hm.winner_cases (getWinner b).winner with h | h | h
        · exact h
        · exact absurd h hh
        · exact absurd h hc
      have ht : isTerminal b = false := isTerminal_false_iff.mpr ⟨hw, hf⟩
      rcases hpl with hph | hpc
      · subst hph
        have ho : orient cpu p = -1 := by simp [orient, hm.ne]
        rw [ho] at hmax
        refine CpuWins.humanMove ht (List.ne_nil_of_mem hi0) ?_
        intro i hi
        have hl := emptyMoves_length_set hp hi
        have h1 := hmax i hi
        have hs := (childValue_sign p cpu b p i hp hlen hi).1.mp (by omega)
        rw [hm.other_human] at hs
        exact cpuWins_of_pos p cpu hm n _ _ (by omega) (by simpa using hlen) (Or.inr rfl) hs
      · subst hpc
        have hl := emptyMoves_length_set hp hi0
        have hs := (childValue_sign human p b p i0 hp hlen hi0).1.mp (by omega)
        rw [hm.other_cpu] at hs
        exact CpuWins.cpuMove ht hbest rfl hi0
          (cpuWins_of_pos human p hm n _ _ (by omega) (by simpa using hlen) (Or.inl rfl) hs)

/-- C3. Hard difficulty wins whenever it can force a win: on every nine-cell
board with the CPU to move whose plain minimax value (no depth adjustment) is
a CPU win, in particular on every such non-terminal board reachable by legal
alternating play, play in which the CPU moves to
`bestMoveMinimax(board, cpu).idx` ends, whatever legal replies the human
makes, on a board where `getWinner` reports the CPU's mark. -/
theorem hard_wins_when_winning (human cpu : Cell) (hm : Marks human cpu) (b : List Cell)
    (hlen : b.length = 9) (hwin : plainMinimax human cpu b cpu = 1) :
    CpuWins human cpu b cpu := by
  rw [plainMinimax_eq_sgn human cpu b cpu hm.cpu_ne hlen] at hwin
  have hv : 0 < valueAt human cpu b cpu := by
    unfold sgn at hwin
    by_contra hneg
    split_ifs at hwin
    all_goals omega
  exact cpuWins_of_pos human cpu hm _ b cpu (Nat.lt_succ_self _) hlen (Or.inr rfl) hv

/-- Witness for C3: X (human) has wasted two moves, O (CPU) holds cells 0 and
4 and is to move. -/
theorem hard_wins_when_winning_witness :
    Marks Cell.X Cell.O ∧
    [Cell.O, Cell.X, Cell.X, Cell.empty, Cell.O, Cell.X, Cell.empty, Cell.O, Cell.empty].length = 9 ∧
    isTerminal [Cell.O, Cell.X, Cell.X, Cell.empty, Cell.O, Cell.X, Cell.empty, Cell.O,
      Cell.empty] = false ∧
    plainMinimax Cell.X Cell.O
      [Cell.O, Cell.X, Cell.X, Cell.empty, Cell.O, Cell.X, Cell.empty, Cell.O, Cell.empty]
      Cell.O = 1 ∧
    CpuWins Cell.X Cell.O
      [Cell.O, Cell.X, Cell.X, Cell.empty, Cell.O, Cell.X, Cell.empty, Cell.O, Cell.empty]
      Cell.O :=
  ⟨Or.inl ⟨rfl, rfl⟩, rfl, by decide, by decide,
    hard_wins_when_winning Cell.X Cell.O (Or.inl ⟨rfl, rfl⟩) _ rfl (by decide)⟩

/-! ## C7: the tie-break -/

theorem scoreAdjusted_of_bmm (human cpu : Cell) (b : List Cell) (p : Cell) (j : Nat)
    (hlen : b.length = 9) :
    ∃ r, bestMoveMinimax human cpu (b.set j p) (other p) = some r ∧
      scoreAdjusted r.score = Score.fin (childValue human cpu b p j) := by
  obtain ⟨ix, h⟩ := bestMoveMinimax_fin human cpu (b.set j p) (other p) (other_ne_empty p)
    (by simpa using hlen)
  exact ⟨_, h, by simp [scoreAdjusted_fin, childValue]⟩

/-- C7. Tie-break is lowest index: on a nine-cell board with no completed
line and an empty cell, every child returns a finite score, and
`bestMoveMinimax` returns the smallest empty index whose depth-adjusted child
score `g` is the maximum (player = cpu) or the minimum (player = human) over
the empty cells, with that extreme value as score; and on the empty board it
returns index 0 with score 0. -/
theorem tie_break_lowest_index (human cpu : Cell) (hm : Marks human cpu) (b : List Cell)
    (player : Cell) (hpl : player = cpu ∨ player = human) (hlen : b.length = 9)
    (hw : (getWinner b).winner = Cell.empty) (hne : emptyMoves b ≠ []) :
    (∃ (g : Nat → Int) (i : Nat), i ∈ emptyMoves b ∧
      (∀ j ∈ emptyMoves b, ∃ r,
        bestMoveMinimax human cpu (b.set j player) (other player) = some r ∧
        scoreAdjusted r.score = Score.fin (g j)) ∧
      bestMoveMinimax human cpu b player = some ⟨some (i : Int), Score.fin (g i)⟩ ∧
      (player = cpu →
        (∀ j ∈ emptyMoves b, g j ≤ g i) ∧ (∀ j ∈ emptyMoves b, j < i → g j < g i)) ∧
      (player = human →
        (∀ j ∈ emptyMoves b, g i ≤ g j) ∧ (∀ j ∈ emptyMoves b, j < i → g i < g j))) ∧
    bestMoveMinimax human cpu (List.replicate 9 Cell.empty) player
      = some ⟨some 0, Score.fin 0⟩ := by
  have hp : player ≠ Cell.empty := by
    rcases hpl with h | h
    · exact h ▸ hm.cpu_ne
    · exact h ▸ hm.human_ne
  constructor
  · obtain ⟨i0, hi0⟩ := List.exists_mem_of_ne_nil _ hne
    have ht : isTerminal b = false :=
      isTerminal_false_iff.mpr ⟨hw, allFilled_false_of_mem hi0⟩
    obtain ⟨i, hi, hbest, _, hmax, hfirst⟩ :=
      valueAt_nonterminal human cpu hm b player hp hlen ht
    refine ⟨childValue human cpu b player, i, hi, ?_, hbest, ?_, ?_⟩
    · intro j _
      exact scoreAdjusted_of_bmm human cpu b player j hlen
    · intro hpc
      have ho : orient cpu player = 1 := by simp [orient, hpc]
      simp only [ho, one_mul] at hmax hfirst
      exact ⟨hmax, hfirst⟩
    · intro hph
      have ho : orient cpu player = -1 := by
        simp only [orient, hph, hm.ne, if_false]
      simp only [ho] at hmax hfirst
      exact ⟨fun j hj => by have := hmax j hj; omega,
        fun j hj hlt => by have := hfirst j hj hlt; omega⟩
  · show bestMoveMinimax human cpu [Cell.empty, Cell.empty, Cell.empty, Cell.empty, Cell.empty,
      Cell.empty, Cell.empty, Cell.empty, Cell.empty] player = _
    rcases hm with ⟨h1, h2⟩ | ⟨h1, h2⟩ <;> rcases hpl with h | h <;> subst h1 <;> subst h2 <;>
      subst h
    · exact emptyBoard_XO_O
    · exact selfPlay_XO_1
    · exact selfPlay_OX_1
    · exact emptyBoard_OX_O

/-- Witness for C7: the board after X at 0 and O at 4, human X to move. -/
theorem tie_break_lowest_index_witness :
    Marks Cell.X Cell.O ∧ (Cell.X = Cell.O ∨ Cell.X = Cell.X) ∧
    [Cell.X, Cell.empty, Cell.empty, Cell.empty, Cell.O, Cell.empty, Cell.empty, Cell.empty,
      Cell.empty].length = 9 ∧
    (getWinner [Cell.X, Cell.empty, Cell.empty, Cell.empty, Cell.O, Cell.empty, Cell.empty,
      Cell.empty, Cell.empty]).winner = Cell.empty ∧
    emptyMoves [Cell.X, Cell.empty, Cell.empty, Cell.empty, Cell.O, Cell.empty, Cell.empty,
      Cell.empty, Cell.empty] ≠ [] ∧
    bestMoveMinimax Cell.X Cell.O (List.replicate 9 Cell.empty) Cell.X
      = some ⟨some 0, Score.fin 0⟩ :=
  ⟨Or.inl ⟨rfl, rfl⟩, Or.inr rfl, rfl, by decide, by decide,
    (tie_break_lowest_index Cell.X Cell.O (Or.inl ⟨rfl, rfl⟩)
      [Cell.X, Cell.empty, Cell.empty, Cell.empty, Cell.O, Cell.empty, Cell.empty, Cell.empty,
        Cell.empty] Cell.X (Or.inr rfl) rfl (by decide) (by decide)).2⟩

/-! ## Lemmas: `getWinner` and completed lines -/

theorem lineWinner_eq_some {b : List Cell} {l : Nat × Nat × Nat} {v : Cell} :
    lineWinner b l = some v ↔ v ≠ Cell.empty ∧ LineHolds b l v := by
  unfold lineWinner LineHolds
  cases h : b[l.1]? with
  | none => simp
  | some w =>
    simp only [Option.some.injEq]
    constructor
    · intro hx
      split_ifs at hx with hc
      obtain rfl := Option.some.inj hx
      exact ⟨hc.1, rfl, hc.2.1, hc.2.2⟩
    · rintro ⟨hv, rfl, h2, h3⟩
      rw [if_pos ⟨hv, h2, h3⟩]

theorem lineWinner_eq_none {b : List Cell} {l : Nat × Nat × Nat} :
    lineWinner b l = none ↔ ∀ m, m ≠ Cell.empty → ¬ LineHolds b l m := by
  constructor
  · intro h m hm hl
    have := lineWinner_eq_some.mpr ⟨hm, hl⟩
    rw [h] at this
    exact Option.noConfusion this
  · intro h
    cases hv : lineWinner b l with
    | none => rfl
    | some v =>
      obtain ⟨h1, h2⟩ := lineWinner_eq_some.mp hv
      exact absurd h2 (h v h1)

/-- The loop of `getWinner` returns the first line with a winner. -/
theorem getWinnerFrom_spec (b : List Cell) :
    ∀ (ls : List (Nat × Nat × Nat)),
      (getWinnerFrom b ls = ⟨Cell.empty, none⟩ ∧ ∀ l ∈ ls, lineWinner b l = none) ∨
      ∃ (pre : List (Nat × Nat × Nat)) (l : Nat × Nat × Nat) (post : List (Nat × Nat × Nat))
        (v : Cell),
        ls = pre ++ l :: post ∧ (∀ l' ∈ pre, lineWinner b l' = none) ∧
        lineWinner b l = some v ∧ getWinnerFrom b ls = ⟨v, some l⟩
  | [] => Or.inl ⟨rfl, fun _ h => absurd h (List.not_mem_nil _)⟩
  | l :: rest => by
    cases hl : lineWinner b l with
    | some v =>
      exact Or.inr ⟨[], l, rest, v, rfl, fun _ h => absurd h (List.not_mem_nil _), hl,
        by simp [getWinnerFrom, hl]⟩
    | none =>
      have heq : getWinnerFrom b (l :: rest) = getWinnerFrom b rest := by
        simp [getWinnerFrom, hl]
      rcases getWinnerFrom_spec b rest with ⟨h1, h2⟩ | ⟨pre, l', post, v, h1, h2, h3, h4⟩
      · refine Or.inl ⟨heq.trans h1, ?_⟩
        intro x hx
        rcases List.mem_cons.mp hx with rfl | hx
        · exact hl
        · exact h2 x hx
      · refine Or.inr ⟨l :: pre, l', post, v, by simp [h1], ?_, h3, heq.trans h4⟩
        intro x hx
        rcases List.mem_cons.mp hx with rfl | hx
        · exact hl
        · exact h2 x hx

theorem getWinner_eq_empty_iff {b : List Cell} :
    (getWinner b).winner = Cell.empty ↔
      ∀ l ∈ WIN_LINES, ∀ m, m ≠ Cell.empty → ¬ LineHolds b l m := by
  unfold getWinner
  rcases getWinnerFrom_spec b WIN_LINES with ⟨h1, h2⟩ | ⟨pre, l, post, v, h1, _, h3, h4⟩
  · rw [h1]
    simp only [true_iff]
    intro l hl
    exact lineWinner_eq_none.mp (h2 l hl)
  · rw [h4]
    obtain ⟨hv, hh⟩ := lineWinner_eq_some.mp h3
    constructor
    · intro he
      exact absurd he hv
    · intro hall
      exact absurd hh (hall l (by rw [h1]; simp) v hv)

theorem getWinner_of_no_line {b : List Cell}
    (h : ∀ l ∈ WIN_LINES, ∀ m, m ≠ Cell.empty → ¬ LineHolds b l m) :
    getWinner b = ⟨Cell.empty, none⟩ := by
  unfold getWinner
  rcases getWinnerFrom_spec b WIN_LINES with ⟨h1, _⟩ | ⟨pre, l, post, v, h1, _, h3, _⟩
  · exact h1
  · obtain ⟨hv, hh⟩ := lineWinner_eq_some.mp h3
    exact absurd hh (h l (by rw [h1]; simp) v hv)

theorem getWinner_line_of_winner {b : List Cell} {v : Cell}
    (h : (getWinner b).winner = v) (hv : v ≠ Cell.empty) :
    ∃ l ∈ WIN_LINES, LineHolds b l v := by
  unfold getWinner at h
  rcases getWinnerFrom_spec b WIN_LINES with ⟨h1, _⟩ | ⟨pre, l, post, w, h1, _, h3, h4⟩
  · rw [h1] at h
    exact absurd h.symm hv
  · rw [h4] at h
    simp only at h
    subst h
    exact ⟨l, by rw [h1]; simp, (lineWinner_eq_some.mp h3).2⟩

theorem getWinner_winner_of_unique {b : List Cell} {v : Cell} (hv : v ≠ Cell.empty)
    (hex : ∃ l ∈ WIN_LINES, LineHolds b l v)
    (huniq : ∀ l ∈ WIN_LINES, ∀ w, w ≠ Cell.empty → LineHolds b l w → w = v) :
    (getWinner b).winner = v := by
  unfold getWinner
  rcases getWinnerFrom_spec b WIN_LINES with ⟨_, h2⟩ | ⟨pre, l, post, w, h1, _, h3, h4⟩
  · obtain ⟨l, hl, hh⟩ := hex
    exact absurd hh (lineWinner_eq_none.mp (h2 l hl) v hv)
  · rw [h4]
    obtain ⟨hw, hh⟩ := lineWinner_eq_some.mp h3
    exact huniq l (by rw [h1]; simp) w hw hh

/-! ## C8 and C9: win detection -/

theorem allFilled_of_no_empty {b : List Cell} (hlen : b.length = 9)
    (h : ∀ i, i < 9 → b[i]? ≠ some Cell.empty) : allFilled b = true := by
  unfold allFilled
  rw [List.all_eq_true]
  intro x hx
  simp only [decide_eq_true_eq]
  intro hxe
  obtain ⟨i, hi, hget⟩ := List.getElem_of_mem hx
  apply h i (by omega)
  rw [List.getElem?_eq_getElem hi, hget, hxe]

/-- C8, as stated, fails: on the board `X X X / X O O / X O O` (reachable with
X moving last at cell 0) the line `[0, 3, 6]` is filled with X and O completes
no line, yet `getWinner` returns the line `[0, 1, 2]`. -/
theorem win_detection_counterexample :
    [Cell.X, Cell.X, Cell.X, Cell.X, Cell.O, Cell.O, Cell.X, Cell.O, Cell.O].length = 9 ∧
    (0, 3, 6) ∈ WIN_LINES ∧
    LineHolds [Cell.X, Cell.X, Cell.X, Cell.X, Cell.O, Cell.O, Cell.X, Cell.O, Cell.O]
      (0, 3, 6) Cell.X ∧
    (∀ l ∈ WIN_LINES,
      ¬ LineHolds [Cell.X, Cell.X, Cell.X, Cell.X, Cell.O, Cell.O, Cell.X, Cell.O, Cell.O]
        l Cell.O) ∧
    getWinner [Cell.X, Cell.X, Cell.X, Cell.X, Cell.O, Cell.O, Cell.X, Cell.O, Cell.O]
      = ⟨Cell.X, some (0, 1, 2)⟩ ∧
    getWinner [Cell.X, Cell.X, Cell.X, Cell.X, Cell.O, Cell.O, Cell.X, Cell.O, Cell.O]
      ≠ ⟨Cell.X, some (0, 3, 6)⟩ := by
  refine ⟨rfl, by decide, by decide, by decide, by decide, by decide⟩

/-- C8, amended. For a line `l` of `WIN_LINES` (with `pre` the lines before it)
and a mark `m`, on every board (of nine cells or not) whose three cells on `l`
hold `m` and on which the other mark completes no line, `getWinner` returns
the winner `m` and, as line, the first line of `WIN_LINES` filled with `m`;
that is `l` itself when no line before `l` is filled with `m`. -/
theorem win_detection_first_line (b : List Cell) (m : Cell) (hm : m = Cell.X ∨ m = Cell.O)
    (pre : List (Nat × Nat × Nat)) (l : Nat × Nat × Nat) (post : List (Nat × Nat × Nat))
    (hsplit : WIN_LINES = pre ++ l :: post) (hl : LineHolds b l m)
    (hno : ∀ l' ∈ WIN_LINES, ¬ LineHolds b l' (other m)) :
    (getWinner b).winner = m ∧
    (∃ pre0 l0 post0, WIN_LINES = pre0 ++ l0 :: post0 ∧ (getWinner b).line = some l0 ∧
      LineHolds b l0 m ∧ ∀ l' ∈ pre0, ¬ LineHolds b l' m) ∧
    ((∀ l' ∈ pre, ¬ LineHolds b l' m) → getWinner b = ⟨m, some l⟩) := by
  have hme : m ≠ Cell.empty := by rcases hm with h | h <;> simp [h]
  have hlmem : l ∈ WIN_LINES := by rw [hsplit]; simp
  unfold getWinner
  rcases getWinnerFrom_spec b WIN_LINES with ⟨_, h2⟩ | ⟨pre0, l0, post0, v, h1, h2, h3, h4⟩
  · exact absurd hl (lineWinner_eq_none.mp (h2 l hlmem) m hme)
  · obtain ⟨hv, hh⟩ := lineWinner_eq_some.mp h3
    have hl0mem : l0 ∈ WIN_LINES := by rw [h1]; simp
    have hvm : v = m := by
      by_contra hne
      have : v = other m := by
        rcases hm with h | h <;> subst h <;> cases v <;> simp_all [other]
      exact hno l0 hl0mem (this ▸ hh)
    subst hvm
    rw [h4]
    refine ⟨rfl, ⟨pre0, l0, post0, h1, rfl, hh, ?_⟩, ?_⟩
    · intro l' hl' hhold
      exact lineWinner_eq_none.mp (h2 l' hl') v hv hhold
    · intro hpre
      have heq : pre ++ l :: post = pre0 ++ l0 :: post0 := hsplit.symm.trans h1
      rcases List.append_eq_append_iff.mp heq with ⟨a, ha1, ha2⟩ | ⟨c, hc1, hc2⟩
      · cases a with
        | nil =>
          simp only [List.nil_append, List.cons.injEq] at ha2
          rw [ha2.1]
        | cons x a' =>
          simp only [List.cons_append, List.cons.injEq] at ha2
          have : l ∈ pre0 := by rw [ha1, ← ha2.1]; simp
          exact absurd hl (lineWinner_eq_none.mp (h2 l this) v hv)
      · cases c with
        | nil =>
          simp only [List.nil_append, List.cons.injEq] at hc2
          rw [hc2.1]
        | cons x c' =>
          simp only [List.cons_append, List.cons.injEq] at hc2
          have : l0 ∈ pre := by rw [hc1, ← hc2.1]; simp
          exact absurd hh (hpre l0 this)

/-- Witness for the amended C8 on the board of the counterexample. -/
theorem win_detection_first_line_witness :
    (Cell.X = Cell.X ∨ Cell.X = Cell.O) ∧
    WIN_LINES = [(0, 1, 2), (3, 4, 5), (6, 7, 8)] ++ (0, 3, 6) ::
      [(1, 4, 7), (2, 5, 8), (0, 4, 8), (2, 4, 6)] ∧
    LineHolds [Cell.X, Cell.X, Cell.X, Cell.X, Cell.O, Cell.O, Cell.X, Cell.O, Cell.O]
      (0, 3, 6) Cell.X ∧
    (getWinner [Cell.X, Cell.X, Cell.X, Cell.X, Cell.O, Cell.O, Cell.X, Cell.O, Cell.O]).winner
      = Cell.X :=
  ⟨Or.inl rfl, rfl, by decide,
    (win_detection_first_line
      [Cell.X, Cell.X, Cell.X, Cell.X, Cell.O, Cell.O, Cell.X, Cell.O, Cell.O] Cell.X
      (Or.inl rfl) [(0, 1, 2), (3, 4, 5), (6, 7, 8)] (0, 3, 6)
      [(1, 4, 7), (2, 5, 8), (0, 4, 8), (2, 4, 6)] rfl (by decide) (by decide)).1⟩

/-- C9. No false positives and draw correctness: on a nine-cell board with no
line of three equal non-empty cells `getWinner` returns winner `""` and line
`null`, and `isDraw` is false when some cell is empty and true when none is;
and `isDraw` is false on every board with a completed line. -/
theorem no_false_positive_and_draw (b : List Cell) (hlen : b.length = 9) :
    ((∀ l ∈ WIN_LINES, ∀ m, m ≠ Cell.empty → ¬ LineHolds b l m) →
      getWinner b = ⟨Cell.empty, none⟩ ∧
      ((∃ i, i < 9 ∧ b[i]? = some Cell.empty) → isDraw b = false ∧ isTerminal b = false) ∧
      ((∀ i, i < 9 → b[i]? ≠ some Cell.empty) → isDraw b = true)) ∧
    ((∃ l ∈ WIN_LINES, ∃ m, m ≠ Cell.empty ∧ LineHolds b l m) → isDraw b = false) := by
  constructor
  · intro hno
    have hg := getWinner_of_no_line hno
    refine ⟨hg, ?_, ?_⟩
    · rintro ⟨i, hi, hget⟩
      have hf : allFilled b = false := allFilled_false_of_mem (mem_emptyMoves.mpr ⟨hi, hget⟩)
      exact ⟨by simp [isDraw, hf], isTerminal_false_iff.mpr ⟨by rw [hg], hf⟩⟩
    · intro hall
      simp [isDraw, allFilled_of_no_empty hlen hall, hg]
  · rintro ⟨l, hl, m, hm, hh⟩
    have hw : (getWinner b).winner ≠ Cell.empty := by
      intro he
      exact getWinner_eq_empty_iff.mp he l hl m hm hh
    simp [isDraw, hw]

/-- Witness for C9 on the drawn board that ends hard-against-hard self-play. -/
theorem no_false_positive_and_draw_witness :
    [Cell.X, Cell.X, Cell.O, Cell.O, Cell.O, Cell.X, Cell.X, Cell.O, Cell.X].length = 9 ∧
    (∀ l ∈ WIN_LINES, ∀ m, m ≠ Cell.empty →
        ¬ LineHolds [Cell.X, Cell.X, Cell.O, Cell.O, Cell.O, Cell.X, Cell.X, Cell.O, Cell.X]
          l m) ∧
    getWinner [Cell.X, Cell.X, Cell.O, Cell.O, Cell.O, Cell.X, Cell.X, Cell.O, Cell.X]
        = ⟨Cell.empty, none⟩ := by
  have hno : ∀ l ∈ WIN_LINES, ∀ m, m ≠ Cell.empty →
      ¬ LineHolds [Cell.X, Cell.X, Cell.O, Cell.O, Cell.O, Cell.X, Cell.X, Cell.O, Cell.X]
        l m := by
    intro l hl m hm
    cases m
    · exact absurd rfl hm
    · revert l; decide
    · revert l; decide
  exact ⟨rfl, hno,
    ((no_false_positive_and_draw
      [Cell.X, Cell.X, Cell.O, Cell.O, Cell.O, Cell.X, Cell.X, Cell.O, Cell.X] rfl).1 hno).1⟩

/-! ## C4: the immediate win -/

theorem adjI_mono {a b : Int} (h : a ≤ b) : adjI a ≤ adjI b := by
  unfold adjI; split_ifs <;> omega

/-- Scores lie in `[-10, 10]`, and the extremes are taken on won boards only. -/
theorem valueAt_bounds (human cpu : Cell) (b : List Cell) (p : Cell)
    (hp : p ≠ Cell.empty) (hlen : b.length = 9) :
    -10 ≤ valueAt human cpu b p ∧ valueAt human cpu b p ≤ 10 ∧
    ((getWinner b).winner ≠ cpu → valueAt human cpu b p ≤ 9) ∧
    ((getWinner b).winner ≠ human → -9 ≤ valueAt human cpu b p) := by
  have hr := valueAt_range' human cpu
  have h9 := emptyMoves_length_le b
  rcases valueAt_cases human cpu b p hp hlen with ⟨hc, hv⟩ | ⟨hc, hh, hv⟩ | ⟨hc, hh, hf, hv⟩ |
    ⟨hc, hh, hf, i, hi, _, hv, _, _⟩
  · rw [hv]; exact ⟨by omega, by omega, fun h => absurd hc h, fun _ => by omega⟩
  · rw [hv]; exact ⟨by omega, by omega, fun _ => by omega, fun h => absurd hh h⟩
  · rw [hv]; exact ⟨by omega, by omega, fun _ => by omega, fun _ => by omega⟩
  · rw [hv]
    have hc' := hr (b.set i p) (other p) (other_ne_empty p) (by simpa using hlen)
    have h9' := emptyMoves_length_le (b.set i p)
    have : -9 ≤ childValue human cpu b p i ∧ childValue human cpu b p i ≤ 9 := by
      unfold childValue adjI
      rcases hc' with h0 | ⟨h1, h2⟩ | ⟨h1, h2⟩
      · rw [h0]; simp
      · split_ifs <;> omega
      · split_ifs <;> omega
    exact ⟨by omega, by omega, fun _ => this.2, fun _ => this.1⟩

theorem valueAt_of_cpuWin (human cpu : Cell) (b : List Cell) (p : Cell)
    (hw : (getWinner b).winner = cpu) : valueAt human cpu b p = 10 := by
  simp [valueAt, bestMoveMinimax_cpuWin human cpu b p hw, scoreOf]

theorem valueAt_of_humanWin (human cpu : Cell) (hne : human ≠ cpu) (b : List Cell) (p : Cell)
    (hw : (getWinner b).winner = human) : valueAt human cpu b p = -10 := by
  simp [valueAt, bestMoveMinimax_humanWin human cpu b p (hw ▸ hne) hw, scoreOf]

/-- C4. Immediate win is preferred: on a nine-cell board with no completed
line on which some empty cell completes a line for the CPU,
`bestMoveMinimax(b, cpu)` returns score 9 and an empty cell whose filling with
the CPU's mark makes `getWinner` report the CPU, namely the smallest such
cell. -/
theorem immediate_win_preferred (human cpu : Cell) (hm : Marks human cpu) (b : List Cell)
    (hlen : b.length = 9) (hw : (getWinner b).winner = Cell.empty)
    (hwin : ∃ i ∈ emptyMoves b, (getWinner (b.set i cpu)).winner = cpu) :
    ∃ i ∈ emptyMoves b,
      bestMoveMinimax human cpu b cpu = some ⟨some (i : Int), Score.fin 9⟩ ∧
      (getWinner (b.set i cpu)).winner = cpu ∧
      ∀ j ∈ emptyMoves b, j < i → (getWinner (b.set j cpu)).winner ≠ cpu := by
  obtain ⟨i, hi, hiw⟩ := hwin
  have ht : isTerminal b = false :=
    isTerminal_false_iff.mpr ⟨hw, allFilled_false_of_mem hi⟩
  obtain ⟨i0, hi0, hbest, _, hmax, hfirst⟩ :=
    valueAt_nonterminal human cpu hm b cpu hm.cpu_ne hlen ht
  have ho : orient cpu cpu = 1 := by simp [orient]
  simp only [ho, one_mul] at hmax hfirst
  have hcv : ∀ j, (getWinner (b.set j cpu)).winner = cpu →
      childValue human cpu b cpu j = 9 := by
    intro j hj
    unfold childValue
    rw [valueAt_of_cpuWin human cpu _ _ hj]
    rfl
  have hle : ∀ j, childValue human cpu b cpu j ≤ 9 ∧
      (childValue human cpu b cpu j = 9 → (getWinner (b.set j cpu)).winner = cpu) := by
    intro j
    have hb := valueAt_bounds human cpu (b.set j cpu) (other cpu) (other_ne_empty cpu)
      (by simpa using hlen)
    unfold childValue adjI
    constructor
    · split_ifs <;> omega
    · intro h9
      by_contra hne
      have := hb.2.2.1 hne
      split_ifs at h9 <;> omega
  have h9 : childValue human cpu b cpu i0 = 9 := by
    have h1 := hmax i hi
    rw [hcv i hiw] at h1
    have h2 := (hle i0).1
    omega
  refine ⟨i0, hi0, by rw [hbest, h9], (hle i0).2 h9, ?_⟩
  intro j hj hlt hjw
  have h1 := hfirst j hj hlt
  rw [hcv j hjw, h9] at h1
  exact absurd h1 (lt_irrefl _)

/-- Witness for C4: O (CPU) holds cells 0 and 4 and can complete the diagonal
at cell 8 or win later. -/
theorem immediate_win_preferred_witness :
    Marks Cell.X Cell.O ∧
    (getWinner [Cell.O, Cell.X, Cell.X, Cell.empty, Cell.O, Cell.X, Cell.empty, Cell.O,
      Cell.empty]).winner = Cell.empty ∧
    (∃ i ∈ emptyMoves [Cell.O, Cell.X, Cell.X, Cell.empty, Cell.O, Cell.X, Cell.empty, Cell.O,
        Cell.empty],
      (getWinner ([Cell.O, Cell.X, Cell.X, Cell.empty, Cell.O, Cell.X, Cell.empty, Cell.O,
        Cell.empty].set i Cell.O)).winner = Cell.O) ∧
    ∃ i ∈ emptyMoves [Cell.O, Cell.X, Cell.X, Cell.empty, Cell.O, Cell.X, Cell.empty, Cell.O,
        Cell.empty],
      bestMoveMinimax Cell.X Cell.O [Cell.O, Cell.X, Cell.X, Cell.empty, Cell.O, Cell.X,
        Cell.empty, Cell.O, Cell.empty] Cell.O = some ⟨some (i : Int), Score.fin 9⟩ ∧
      (getWinner ([Cell.O, Cell.X, Cell.X, Cell.empty, Cell.O, Cell.X, Cell.empty, Cell.O,
        Cell.empty].set i Cell.O)).winner = Cell.O ∧
      ∀ j ∈ emptyMoves [Cell.O, Cell.X, Cell.X, Cell.empty, Cell.O, Cell.X, Cell.empty, Cell.O,
        Cell.empty], j < i →
        (getWinner ([Cell.O, Cell.X, Cell.X, Cell.empty, Cell.O, Cell.X, Cell.empty, Cell.O,
          Cell.empty].set j Cell.O)).winner ≠ Cell.O :=
  ⟨Or.inl ⟨rfl, rfl⟩, by decide, ⟨8, by decide, by decide⟩,
    immediate_win_preferred Cell.X Cell.O (Or.inl ⟨rfl, rfl⟩) _ rfl (by decide)
      ⟨8, by decide, by decide⟩⟩

/-! ## C6: the forced block -/

theorem lineHolds_set {b : List Cell} {i : Nat} {q : Cell} {l : Nat × Nat × Nat} {m : Cell}
    (h : LineHolds (b.set i q) l m) : m = q ∨ LineHolds b l m := by
  obtain ⟨h1, h2, h3⟩ := h
  have key : ∀ x : Nat, (b.set i q)[x]? = some m → m = q ∨ b[x]? = some m := by
    intro x hx
    rw [List.getElem?_set] at hx
    split_ifs at hx with hix hlt
    · left; exact (Option.some.inj hx).symm
    · right; exact hx
  rcases key _ h1 with h | h1'
  · exact Or.inl h
  rcases key _ h2 with h | h2'
  · exact Or.inl h
  rcases key _ h3 with h | h3'
  · exact Or.inl h
  exact Or.inr ⟨h1', h2', h3'⟩

theorem lineHolds_set_of_ne {b : List Cell} {i : Nat} {q : Cell} {l : Nat × Nat × Nat}
    {m : Cell} (h : LineHolds b l m) (hi : b[i]? ≠ some m) : LineHolds (b.set i q) l m := by
  obtain ⟨h1, h2, h3⟩ := h
  have key : ∀ x : Nat, b[x]? = some m → (b.set i q)[x]? = some m := by
    intro x hx
    have hne : i ≠ x := fun e => hi (e ▸ hx)
    rw [List.getElem?_set_ne hne]
    exact hx
  exact ⟨key _ h1, key _ h2, key _ h3⟩

/-- Filling one cell of a board without a completed line can only make the
filling mark the winner. -/
theorem winner_set_cases {b : List Cell} (hw : (getWinner b).winner = Cell.empty) (i : Nat)
    (q : Cell) :
    (getWinner (b.set i q)).winner = Cell.empty ∨ (getWinner (b.set i q)).winner = q := by
  by_cases he : (getWinner (b.set i q)).winner = Cell.empty
  · exact Or.inl he
  · right
    obtain ⟨l, hl, hh⟩ := getWinner_line_of_winner rfl he
    rcases lineHolds_set hh with h | h
    · exact h
    · exact absurd h (getWinner_eq_empty_iff.mp hw l hl _ he)

theorem winner_set_of_line {b : List Cell} (hw : (getWinner b).winner = Cell.empty) (i : Nat)
    (q : Cell) (hq : q ≠ Cell.empty) (hex : ∃ l ∈ WIN_LINES, LineHolds (b.set i q) l q) :
    (getWinner (b.set i q)).winner = q := by
  apply getWinner_winner_of_unique hq hex
  intro l hl w hwne hh
  rcases lineHolds_set hh with h | h
  · exact h
  · exact absurd h (getWinner_eq_empty_iff.mp hw l hl w hwne)

theorem mem_emptyMoves_set {b : List Cell} {i j : Nat} {p : Cell} (hp : p ≠ Cell.empty) :
    j ∈ emptyMoves (b.set i p) ↔ j ∈ emptyMoves b ∧ j ≠ i := by
  rw [emptyMoves_set hp, List.mem_filter]
  simp

/-- C6. Forced block: on a nine-cell board with no completed line on which the
CPU has no immediately winning cell and the human has exactly one empty cell
`c` that would complete a human line, `bestMoveMinimax(b, cpu).idx` is `c`; in
particular on the board `[X, X, _, _, _, _, _, _, _]` with cpu = O and hard
difficulty `chooseCpuMove` returns 2. -/
theorem forced_block (human cpu : Cell) (hm : Marks human cpu) (b : List Cell)
    (hlen : b.length = 9) (hw : (getWinner b).winner = Cell.empty)
    (hnowin : ∀ i ∈ emptyMoves b, (getWinner (b.set i cpu)).winner ≠ cpu)
    (c : Nat) (hc : c ∈ emptyMoves b) (hcw : (getWinner (b.set c human)).winner = human)
    (huniq : ∀ j ∈ emptyMoves b, (getWinner (b.set j human)).winner = human → j = c) :
    (∃ s, bestMoveMinimax human cpu b cpu = some ⟨some (c : Int), s⟩) ∧
    (∀ (r1 r2 : ℚ) (st : State),
      st.board = [Cell.X, Cell.X, Cell.empty, Cell.empty, Cell.empty, Cell.empty, Cell.empty,
        Cell.empty, Cell.empty] →
      st.human = Cell.X → st.cpu = Cell.O → st.difficulty = Difficulty.hard →
      chooseCpuMove r1 r2 st = some (some 2)) := by
  have hgen : ∀ (human cpu : Cell), Marks human cpu → ∀ (b : List Cell), b.length = 9 →
      (getWinner b).winner = Cell.empty →
      (∀ i ∈ emptyMoves b, (getWinner (b.set i cpu)).winner ≠ cpu) →
      ∀ c ∈ emptyMoves b, (getWinner (b.set c human)).winner = human →
      (∀ j ∈ emptyMoves b, (getWinner (b.set j human)).winner = human → j = c) →
      ∃ s, bestMoveMinimax human cpu b cpu = some ⟨some (c : Int), s⟩ := by
    intro human cpu hm b hlen hw hnowin c hc hcw huniq
    have hce : b[c]? = some Cell.empty := (mem_emptyMoves.mp hc).2
    have ht : isTerminal b = false :=
      isTerminal_false_iff.mpr ⟨hw, allFilled_false_of_mem hc⟩
    obtain ⟨i0, hi0, hbest, _, hmax, _⟩ :=
      valueAt_nonterminal human cpu hm b cpu hm.cpu_ne hlen ht
    have ho : orient cpu cpu = 1 := by simp [orient]
    simp only [ho, one_mul] at hmax
    -- the board after any CPU move has no completed line
    have hwset : ∀ i ∈ emptyMoves b, (getWinner (b.set i cpu)).winner = Cell.empty := by
      intro i hi
      rcases winner_set_cases hw i cpu with h | h
      · exact h
      · exact absurd h (hnowin i hi)
    -- a CPU move elsewhere lets the human win at once
    have hother : ∀ m ∈ emptyMoves b, m ≠ c → childValue human cpu b cpu m = -8 := by
      intro m hmm hmc
      have hme : b[m]? = some Cell.empty := (mem_emptyMoves.mp hmm).2
      have hlen1 : (b.set m cpu).length = 9 := by simpa using hlen
      have hc1 : c ∈ emptyMoves (b.set m cpu) :=
        (mem_emptyMoves_set hm.cpu_ne).mpr ⟨hc, fun e => hmc e.symm⟩
      have ht1 : isTerminal (b.set m cpu) = false :=
        isTerminal_false_iff.mpr ⟨hwset m hmm, allFilled_false_of_mem hc1⟩
      have hwin1 : (getWinner ((b.set m cpu).set c human)).winner = human := by
        apply winner_set_of_line (hwset m hmm) c human hm.human_ne
        obtain ⟨l, hl, hh⟩ := getWinner_line_of_winner hcw hm.human_ne
        refine ⟨l, hl, ?_⟩
        rw [List.set_comm _ _ _ hmc]
        apply lineHolds_set_of_ne hh
        rw [List.getElem?_set_ne (fun e => hmc e.symm), hme]
        intro e
        exact hm.human_ne (Option.some.inj e).symm
      obtain ⟨i1, _, _, hval1, hmax1, _⟩ :=
        valueAt_nonterminal human cpu hm (b.set m cpu) human hm.human_ne hlen1 ht1
      have ho1 : orient cpu human = -1 := by simp [orient, hm.ne]
      rw [ho1] at hmax1
      have hcv1 : childValue human cpu (b.set m cpu) human c = -9 := by
        unfold childValue
        rw [valueAt_of_humanWin human cpu hm.ne _ _ hwin1]
        rfl
      have h1 := hmax1 c hc1
      have h2 := (valueAt_bounds human cpu (b.set m cpu) human hm.human_ne hlen1).2.2.2
        (by rw [hwset m hmm]; exact fun e => hm.human_ne e.symm)
      have hv1 : valueAt human cpu (b.set m cpu) human = -9 := by omega
      unfold childValue
      rw [hm.other_cpu, hv1]
      rfl
    -- the block does strictly better
    have hblock : -7 ≤ childValue human cpu b cpu c := by
      have hlen2 : (b.set c cpu).length = 9 := by simpa using hlen
      have hv2 : -8 ≤ valueAt human cpu (b.set c cpu) human := by
        rcases valueAt_cases human cpu (b.set c cpu) human hm.human_ne hlen2 with
          ⟨_, hv⟩ | ⟨_, hh, _⟩ | ⟨_, _, _, hv⟩ | ⟨_, _, _, i2, hi2, _, hv, _, _⟩
        · omega
        · exact absurd (hh ▸ hwset c hc) hm.human_ne
        · omega
        · obtain ⟨hi2b, hi2c⟩ := (mem_emptyMoves_set hm.cpu_ne).mp hi2
          have hnot : (getWinner ((b.set c cpu).set i2 human)).winner ≠ human := by
            intro hwin3
            apply hi2c
            apply huniq i2 hi2b
            apply winner_set_of_line hw i2 human hm.human_ne
            obtain ⟨l, hl, hh⟩ := getWinner_line_of_winner hwin3 hm.human_ne
            refine ⟨l, hl, ?_⟩
            rw [List.set_comm _ _ _ (fun e => hi2c e.symm)] at hh
            rcases lineHolds_set hh with h | h
            · exact absurd h hm.ne
            · exact h
          have hb3 := (valueAt_bounds human cpu ((b.set c cpu).set i2 human) (other human)
            (other_ne_empty human) (by simpa using hlen)).2.2.2 hnot
          rw [hv]
          have := adjI_mono hb3
          unfold childValue
          have h9 : adjI (-9) = -8 := rfl
          omega
      unfold childValue
      rw [hm.other_cpu]
      have := adjI_mono hv2
      have h8 : adjI (-8) = -7 := rfl
      omega
    have hic : i0 = c := by
      by_contra hne
      have h1 := hother i0 hi0 hne
      have h2 := hmax c hc
      omega
    exact ⟨_, hic ▸ hbest⟩
  refine ⟨hgen human cpu hm b hlen hw hnowin c hc hcw huniq, ?_⟩
  intro r1 r2 st hb hh hcpu hd
  obtain ⟨s, hs⟩ := hgen Cell.X Cell.O (Or.inl ⟨rfl, rfl⟩)
    [Cell.X, Cell.X, Cell.empty, Cell.empty, Cell.empty, Cell.empty, Cell.empty, Cell.empty,
      Cell.empty] rfl (by decide) (by decide) 2 (by decide) (by decide) (by decide)
  have hmoves : (emptyMoves [Cell.X, Cell.X, Cell.empty, Cell.empty, Cell.empty, Cell.empty,
      Cell.empty, Cell.empty, Cell.empty]).length ≠ 0 := by decide
  unfold chooseCpuMove
  simp only [hb, hh, hcpu, hd, hmoves, if_false, hs]
  simp

/-- Witness for C6 on the board `[X, X, _, _, _, _, _, _, _]` with cpu = O. -/
theorem forced_block_witness :
    Marks Cell.X Cell.O ∧
    (getWinner [Cell.X, Cell.X, Cell.empty, Cell.empty, Cell.empty, Cell.empty, Cell.empty,
      Cell.empty, Cell.empty]).winner = Cell.empty ∧
    (2 : Nat) ∈ emptyMoves [Cell.X, Cell.X, Cell.empty, Cell.empty, Cell.empty, Cell.empty,
      Cell.empty, Cell.empty, Cell.empty] ∧
    (getWinner ([Cell.X, Cell.X, Cell.empty, Cell.empty, Cell.empty, Cell.empty, Cell.empty,
      Cell.empty, Cell.empty].set 2 Cell.X)).winner = Cell.X ∧
    ∃ s, bestMoveMinimax Cell.X Cell.O [Cell.X, Cell.X, Cell.empty, Cell.empty, Cell.empty,
      Cell.empty, Cell.empty, Cell.empty, Cell.empty] Cell.O = some ⟨some ((2 : Nat) : Int), s⟩ :=
  ⟨Or.inl ⟨rfl, rfl⟩, by decide, by decide, by decide,
    (forced_block Cell.X Cell.O (Or.inl ⟨rfl, rfl⟩)
      [Cell.X, Cell.X, Cell.empty, Cell.empty, Cell.empty, Cell.empty, Cell.empty, Cell.empty,
        Cell.empty] rfl (by decide) (by decide) 2 (by decide) (by decide) (by decide)).1⟩

/-! ## C5: delaying a loss -/

theorem fastest_eq_none : ∀ (l : List (Option Nat)), (∀ x ∈ l, x = none) → fastest l = none
  | [], _ => rfl
  | d :: ds, h => by
    have hd : d = none := h d (List.mem_cons_self _ _)
    subst hd
    simp only [fastest, optMin]
    exact fastest_eq_none ds (fun x hx => h x (List.mem_cons_of_mem _ hx))

theorem fastest_eq_some : ∀ (l : List (Option Nat)) (d : Nat), some d ∈ l →
    (∀ e, some e ∈ l → d ≤ e) → fastest l = some d
  | [], _, h, _ => absurd h (List.not_mem_nil _)
  | x :: ds, d, hmem, hmin => by
    have hmin' : ∀ e, some e ∈ ds → d ≤ e := fun e he => hmin e (List.mem_cons_of_mem _ he)
    by_cases hds : some d ∈ ds
    · have ih := fastest_eq_some ds d hds hmin'
      cases x with
      | none => simp only [fastest, optMin, ih]
      | some a =>
        have : d ≤ a := hmin a (List.mem_cons_self _ _)
        simp only [fastest, optMin, ih, Option.some.injEq]
        omega
    · have hx : x = some d := by
        rcases List.mem_cons.mp hmem with h | h
        · exact h.symm
        · exact absurd h hds
      subst hx
      cases hf : fastest ds with
      | none => simp only [fastest, optMin, hf]
      | some y =>
        have hy : some y ∈ ds ∧ True := by
          constructor
          · clear hmin hmin' hmem hds
            induction ds generalizing y with
            | nil => simp [fastest] at hf
            | cons z zs ih =>
              cases z with
              | none =>
                simp only [fastest, optMin] at hf
                exact List.mem_cons_of_mem _ (ih y hf)
              | some a =>
                cases hz : fastest zs with
                | none =>
                  simp only [fastest, optMin, hz, Option.some.injEq] at hf
                  subst hf
                  exact List.mem_cons_self _ _
                | some w =>
                  simp only [fastest, optMin, hz, Option.some.injEq] at hf
                  rcases Nat.le_total a w with h | h
                  · rw [Nat.min_eq_left h] at hf
                    subst hf
                    exact List.mem_cons_self _ _
                  · rw [Nat.min_eq_right h] at hf
                    subst hf
                    exact List.mem_cons_of_mem _ (ih w hz)
          · trivial
        have := hmin' y hy.1
        simp only [fastest, optMin, hf, Option.some.injEq]
        omega

theorem slowest_eq_none : ∀ (l : List (Option Nat)), none ∈ l → slowest l = none
  | [], h => absurd h (List.not_mem_nil _)
  | x :: ds, h => by
    cases x with
    | none => simp only [slowest, optMax]
    | some a =>
      have hds : none ∈ ds := by
        rcases List.mem_cons.mp h with h | h
        · exact Option.noConfusion h
        · exact h
      simp only [slowest, optMax, slowest_eq_none ds hds]

theorem slowest_le : ∀ (l : List (Option Nat)) (d : Nat),
    (∀ x ∈ l, ∃ e, x = some e ∧ e ≤ d) → ∃ r, slowest l = some r ∧ r ≤ d
  | [], d, _ => ⟨0, rfl, Nat.zero_le _⟩
  | x :: ds, d, h => by
    obtain ⟨e, rfl, he⟩ := h x (List.mem_cons_self _ _)
    obtain ⟨r, hr, hrd⟩ := slowest_le ds d (fun y hy => h y (List.mem_cons_of_mem _ hy))
    exact ⟨max e r, by simp only [slowest, optMax, hr], max_le he hrd⟩

theorem slowest_eq_some : ∀ (l : List (Option Nat)) (d : Nat), some d ∈ l →
    (∀ x ∈ l, ∃ e, x = some e ∧ e ≤ d) → slowest l = some d
  | [], _, h, _ => absurd h (List.not_mem_nil _)
  | x :: ds, d, hmem, hmax => by
    obtain ⟨e, rfl, he⟩ := hmax (x) (List.mem_cons_self _ _)
    have hmax' : ∀ y ∈ ds, ∃ e, y = some e ∧ e ≤ d :=
      fun y hy => hmax y (List.mem_cons_of_mem _ hy)
    obtain ⟨r, hr, hrd⟩ := slowest_le ds d hmax'
    by_cases hds : some d ∈ ds
    · have ih := slowest_eq_some ds d hds hmax'
      simp only [slowest, optMax, ih, Option.some.injEq]
      omega
    · have hx : e = d := by
        rcases List.mem_cons.mp hmem with h | h
        · exact (Option.some.inj h).symm
        · exact absurd h hds
      subst hx
      simp only [slowest, optMax, hr, Option.some.injEq]
      omega

theorem pliesToLossAux_eq (human cpu : Cell) (hm : Marks human cpu) :
    ∀ (n : Nat) (b : List Cell) (p : Cell), (p = human ∨ p = cpu) → b.length = 9 →
      (emptyMoves b).length < n →
      pliesToLossAux human cpu n b p = pliesOfValue (valueAt human cpu b p)
  | 0, _, _, _, _, h => absurd h (Nat.not_lt_zero _)
  | n + 1, b, p, hpl, hlen, hn => by
    have hp : p ≠ Cell.empty := by
      rcases hpl with h | h
      · exact h ▸ hm.human_ne
      · exact h ▸ hm.cpu_ne
    have hpl' : other p = human ∨ other p = cpu := by
      rcases hpl with h | h
      · right; rw [h]; exact hm.other_human
      · left; rw [h]; exact hm.other_cpu
    have hmap : (emptyMoves b).map
          (fun i => pliesToLossAux human cpu n (b.set i p) (other p))
        = (emptyMoves b).map
          (fun i => pliesOfValue (valueAt human cpu (b.set i p) (other p))) := by
      apply List.map_congr_left
      intro i hi
      have hl := emptyMoves_length_set hp hi
      exact pliesToLossAux_eq human cpu hm n (b.set i p) (other p) hpl'
        (by simpa using hlen) (by omega)
    -- on a child, the adjusted score determines the score
    have hchild : ∀ j ∈ emptyMoves b,
        -10 ≤ valueAt human cpu (b.set j p) (other p) ∧
        (childValue human cpu b p j < 0 ↔ valueAt human cpu (b.set j p) (other p) < 0) ∧
        (valueAt human cpu (b.set j p) (other p) < 0 →
          childValue human cpu b p j = valueAt human cpu (b.set j p) (other p) + 1) := by
      intro j hj
      refine ⟨(valueAt_bounds human cpu (b.set j p) (other p) (other_ne_empty p)
        (by simpa using hlen)).1, (childValue_sign human cpu b p j hp hlen hj).2.1, ?_⟩
      intro hneg
      unfold childValue adjI
      split_ifs <;> omega
    rcases valueAt_cases human cpu b p hp hlen with ⟨hc, hv⟩ | ⟨hc, hh, hv⟩ | ⟨hc, hh, hf, hv⟩ |
      ⟨hc, hh, hf, i0, hi0, _, hv, hmax, _⟩
    · simp [pliesToLossAux, hc, hv, pliesOfValue]
    · have hne : ¬ human = cpu := fun e => hc (hh.trans e)
      simp [pliesToLossAux, hh, hne, hv, pliesOfValue]
    · simp [pliesToLossAux, hc, hh, hf, hv, pliesOfValue]
    · simp only [pliesToLossAux, hc, hh, hf, if_false, Bool.false_eq_true]
      rw [hmap, hv]
      obtain ⟨hge0, hs0, hcv0⟩ := hchild i0 hi0
      by_cases hpc : p = cpu
      · subst hpc
        have ho : orient p p = 1 := by simp [orient]
        simp only [ho, one_mul] at hmax
        simp only [if_true]
        by_cases hneg : childValue human p b p i0 < 0
        · have hv0 := hs0.mp hneg
          rw [slowest_eq_some _ (valueAt human p (b.set i0 p) (other p) + 10).toNat]
          · simp only [pliesOfValue, hneg, if_true, Option.map_some', Option.some.injEq]
            rw [hcv0 hv0]
            omega
          · exact List.mem_map.mpr ⟨i0, hi0, by simp [pliesOfValue, hv0]⟩
          · intro x hx
            obtain ⟨j, hj, rfl⟩ := List.mem_map.mp hx
            obtain ⟨hgej, hsj, hcvj⟩ := hchild j hj
            have h1 := hmax j hj
            have hvj := hsj.mp (by omega)
            refine ⟨(valueAt human p (b.set j p) (other p) + 10).toNat,
              by simp [pliesOfValue, hvj], ?_⟩
            have := hcvj hvj
            have := hcv0 hv0
            omega
        · have hv0 : ¬ valueAt human p (b.set i0 p) (other p) < 0 :=
            fun h => hneg (hs0.mpr h)
          rw [slowest_eq_none _ (List.mem_map.mpr ⟨i0, hi0, by simp [pliesOfValue, hv0]⟩)]
          simp [pliesOfValue, hneg]
      · have ho : orient cpu p = -1 := by simp [orient, hpc]
        simp only [ho] at hmax
        simp only [hpc, if_false]
        by_cases hneg : childValue human cpu b p i0 < 0
        · have hv0 := hs0.mp hneg
          rw [fastest_eq_some _ (valueAt human cpu (b.set i0 p) (other p) + 10).toNat]
          · simp only [pliesOfValue, hneg, if_true, Option.map_some', Option.some.injEq]
            rw [hcv0 hv0]
            omega
          · exact List.mem_map.mpr ⟨i0, hi0, by simp [pliesOfValue, hv0]⟩
          · intro e he
            obtain ⟨j, hj, hje⟩ := List.mem_map.mp he
            obtain ⟨hgej, hsj, hcvj⟩ := hchild j hj
            have h1 := hmax j hj
            unfold pliesOfValue at hje
            split_ifs at hje with hvj
            have := Option.some.inj hje
            have := hcvj hvj
            have := hcv0 hv0
            omega
        · rw [fastest_eq_none]
          · simp [pliesOfValue, hneg]
          · intro x hx
            obtain ⟨j, hj, rfl⟩ := List.mem_map.mp hx
            obtain ⟨_, hsj, _⟩ := hchild j hj
            have h1 := hmax j hj
            have : ¬ valueAt human cpu (b.set j p) (other p) < 0 :=
              fun h => by have := hsj.mpr h; omega
            simp [pliesOfValue, this]

theorem pliesToLoss_eq (human cpu : Cell) (hm : Marks human cpu) (b : List Cell) (p : Cell)
    (hpl : p = human ∨ p = cpu) (hlen : b.length = 9) :
    pliesToLoss human cpu b p = pliesOfValue (valueAt human cpu b p) :=
  pliesToLossAux_eq human cpu hm _ b p hpl hlen (by omega)

/-- C5. Losses are delayed as long as possible: on a nine-cell non-terminal
board with the CPU to move on which every CPU move leads to a human win under
optimal play (plain minimax value `-1`), `bestMoveMinimax(b, cpu).idx` is an
empty cell that maximises the number of plies until the human's winning move,
the human winning as fast as possible and the CPU delaying as long as possible
in the continuation. -/
theorem loss_delayed_longest (human cpu : Cell) (hm : Marks human cpu) (b : List Cell)
    (hlen : b.length = 9) (ht : isTerminal b = false)
    (hlost : ∀ i ∈ emptyMoves b, plainMinimax human cpu (b.set i cpu) human = -1) :
    ∃ i ∈ emptyMoves b, ∃ s d,
      bestMoveMinimax human cpu b cpu = some ⟨some (i : Int), s⟩ ∧
      pliesToLoss human cpu (b.set i cpu) human = some d ∧
      ∀ j ∈ emptyMoves b, ∃ e, pliesToLoss human cpu (b.set j cpu) human = some e ∧ e ≤ d := by
  obtain ⟨i0, hi0, hbest, _, hmax, _⟩ :=
    valueAt_nonterminal human cpu hm b cpu hm.cpu_ne hlen ht
  have ho : orient cpu cpu = 1 := by simp [orient]
  simp only [ho, one_mul] at hmax
  have hneg : ∀ j ∈ emptyMoves b,
      valueAt human cpu (b.set j cpu) human < 0 ∧ -10 ≤ valueAt human cpu (b.set j cpu) human ∧
      childValue human cpu b cpu j = valueAt human cpu (b.set j cpu) human + 1 ∧
      pliesToLoss human cpu (b.set j cpu) human
        = some (valueAt human cpu (b.set j cpu) human + 10).toNat := by
    intro j hj
    have h1 := hlost j hj
    rw [plainMinimax_eq_sgn human cpu _ _ hm.human_ne (by simpa using hlen)] at h1
    have hv : valueAt human cpu (b.set j cpu) human < 0 := by
      unfold sgn at h1
      by_contra hcon
      split_ifs at h1
    refine ⟨hv, (valueAt_bounds human cpu _ _ hm.human_ne (by simpa using hlen)).1, ?_, ?_⟩
    · unfold childValue adjI
      rw [hm.other_cpu]
      split_ifs <;> omega
    · rw [pliesToLoss_eq human cpu hm _ _ (Or.inl rfl) (by simpa using hlen)]
      simp [pliesOfValue, hv]
  obtain ⟨_, h0ge, h0cv, h0p⟩ := hneg i0 hi0
  refine ⟨i0, hi0, _, _, hbest, h0p, ?_⟩
  intro j hj
  obtain ⟨_, hjge, hjcv, hjp⟩ := hneg j hj
  refine ⟨_, hjp, ?_⟩
  have := hmax j hj
  omega

/-- Witness for C5: X (human) threatens both cell 2 and cell 6; O (CPU) loses
after every move. -/
theorem loss_delayed_longest_witness :
    Marks Cell.X Cell.O ∧
    isTerminal [Cell.X, Cell.X, Cell.empty, Cell.X, Cell.O, Cell.O, Cell.empty, Cell.O,
      Cell.X] = false ∧
    (∀ i ∈ emptyMoves [Cell.X, Cell.X, Cell.empty, Cell.X, Cell.O, Cell.O, Cell.empty, Cell.O,
        Cell.X],
      plainMinimax Cell.X Cell.O
        ([Cell.X, Cell.X, Cell.empty, Cell.X, Cell.O, Cell.O, Cell.empty, Cell.O,
          Cell.X].set i Cell.O) Cell.X = -1) ∧
    ∃ i ∈ emptyMoves [Cell.X, Cell.X, Cell.empty, Cell.X, Cell.O, Cell.O, Cell.empty, Cell.O,
        Cell.X], ∃ s d,
      bestMoveMinimax Cell.X Cell.O [Cell.X, Cell.X, Cell.empty, Cell.X, Cell.O, Cell.O,
        Cell.empty, Cell.O, Cell.X] Cell.O = some ⟨some (i : Int), s⟩ ∧
      pliesToLoss Cell.X Cell.O ([Cell.X, Cell.X, Cell.empty, Cell.X, Cell.O, Cell.O,
        Cell.empty, Cell.O, Cell.X].set i Cell.O) Cell.X = some d ∧
      ∀ j ∈ emptyMoves [Cell.X, Cell.X, Cell.empty, Cell.X, Cell.O, Cell.O, Cell.empty, Cell.O,
        Cell.X], ∃ e,
        pliesToLoss Cell.X Cell.O ([Cell.X, Cell.X, Cell.empty, Cell.X, Cell.O, Cell.O,
          Cell.empty, Cell.O, Cell.X].set j Cell.O) Cell.X = some e ∧ e ≤ d :=
  ⟨Or.inl ⟨rfl, rfl⟩, by decide, by decide,
    loss_delayed_longest Cell.X Cell.O (Or.inl ⟨rfl, rfl⟩) _ rfl (by decide) (by decide)⟩

/-! ## C10: illegal human moves -/

theorem boardAt_out_of_range {b : List Cell} (hlen : b.length = 9) {idx : Int}
    (h : idx < 0 ∨ 8 < idx) : boardAt b (some idx) = none := by
  unfold boardAt
  simp only
  split_ifs with h0
  · apply List.getElem?_eq_none
    omega
  · rfl

theorem applyMove_rejected (s : State) (idx : Option Int) (player : Cell)
    (h : boardAt s.board idx ≠ some Cell.empty) : applyMove s idx player = (s, false) := by
  unfold applyMove
  cases idx with
  | none => rfl
  | some i => simp only [h, ne_eq, not_false_eq_true, if_true]

/-- C10. Illegal human moves are no-ops: in a session state with a nine-cell
board, if `current` is not the human's mark, or the cell `board[idx]` is
non-empty, or `idx` is outside `0..8`, then `tryHumanMove(idx)` leaves the
whole state unchanged (board, current, gameOver, lastMove, winningLine, score,
and no callback is scheduled); and when the cell is non-empty or out of range
`applyMove` returns false and leaves the state as it is. -/
theorem illegal_human_move_noop (s : State) (idx : Int) (hlen : s.board.length = 9)
    (h : s.current ≠ s.human ∨
      (∃ m, m ≠ Cell.empty ∧ boardAt s.board (some idx) = some m) ∨ idx < 0 ∨ 8 < idx) :
    tryHumanMove s idx = s ∧
    (((∃ m, m ≠ Cell.empty ∧ boardAt s.board (some idx) = some m) ∨ idx < 0 ∨ 8 < idx) →
      ∀ player, applyMove s (some idx) player = (s, false)) := by
  have hrej : ((∃ m, m ≠ Cell.empty ∧ boardAt s.board (some idx) = some m) ∨ idx < 0 ∨ 8 < idx) →
      boardAt s.board (some idx) ≠ some Cell.empty := by
    rintro (⟨m, hm, hb⟩ | hr)
    · rw [hb]
      exact fun e => hm (Option.some.inj e)
    · rw [boardAt_out_of_range hlen hr]
      exact fun e => Option.noConfusion e
  constructor
  · unfold tryHumanMove
    by_cases hg : s.gameOver = true
    · simp [hg]
    · by_cases hcur : s.current = s.human
      · rcases h with h | h
        · exact absurd hcur h
        · simp [hg, hcur, applyMove_rejected s (some idx) s.human (hrej h)]
      · simp [hg, hcur]
  · intro h' player
    exact applyMove_rejected s (some idx) player (hrej h')

/-- Witness for C10: the human (X) clicks the cell 0 that X already holds. -/
theorem illegal_human_move_noop_witness :
    exampleState.board.length = 9 ∧
    (∃ m, m ≠ Cell.empty ∧ boardAt exampleState.board (some 0) = some m) ∧
    tryHumanMove exampleState 0 = exampleState :=
  ⟨rfl, ⟨Cell.X, by decide, by decide⟩,
    (illegal_human_move_noop exampleState 0 rfl
      (Or.inr (Or.inl ⟨Cell.X, by decide, by decide⟩))).1⟩

/-! ## Lemmas: rounding to doubles -/

theorem ulp_pos (x : ℚ) : 0 < ulp x := by
  unfold ulp
  positivity

theorem log_two_eq {x : ℚ} {e : ℤ} (h1 : (2 : ℚ) ^ e ≤ x) (h2 : x < (2 : ℚ) ^ (e + 1)) :
    Int.log 2 x = e := by
  have hx : 0 < x := lt_of_lt_of_le (by positivity) h1
  have a : e ≤ Int.log 2 x := (Int.zpow_le_iff_le_log (by norm_num) hx).mp (by exact_mod_cast h1)
  have b : Int.log 2 x < e + 1 := (Int.lt_zpow_iff_log_lt (by norm_num) hx).mp (by exact_mod_cast h2)
  omega

theorem ulp_eq {x : ℚ} {e : ℤ} (h1 : (2 : ℚ) ^ e ≤ x) (h2 : x < (2 : ℚ) ^ (e + 1))
    (he : -1022 ≤ e) : ulp x = (2 : ℚ) ^ (e - 52) := by
  unfold ulp
  rw [log_two_eq h1 h2, max_eq_left he]

theorem floorDouble_le (x : ℚ) : floorDouble x ≤ x := by
  unfold floorDouble
  have h := Int.floor_le (x / ulp x)
  calc (⌊x / ulp x⌋ : ℚ) * ulp x ≤ x / ulp x * ulp x :=
        mul_le_mul_of_nonneg_right h (ulp_pos x).le
    _ = x := div_mul_cancel₀ x (ulp_pos x).ne'

theorem floorDouble_nonneg {x : ℚ} (h : 0 ≤ x) : 0 ≤ floorDouble x := by
  unfold floorDouble
  have : 0 ≤ x / ulp x := div_nonneg h (ulp_pos x).le
  have := Int.floor_nonneg.mpr this
  have : (0 : ℚ) ≤ ⌊x / ulp x⌋ := by exact_mod_cast this
  exact mul_nonneg this (ulp_pos x).le

theorem floorDouble_of_isDouble {x : ℚ} (h : IsDouble x) : floorDouble x = x := by
  obtain ⟨m, hm⟩ := h
  unfold floorDouble
  have : x / ulp x = m := by
    rw [div_eq_iff (ulp_pos x).ne']
    exact hm
  rw [this, Int.floor_intCast]
  exact hm.symm

theorem roundDouble_of_isDouble {x : ℚ} (h : IsDouble x) : roundDouble x = x := by
  obtain ⟨m, hm⟩ := h
  unfold roundDouble
  have : x / ulp x = m := by
    rw [div_eq_iff (ulp_pos x).ne']
    exact hm
  rw [this, Int.floor_intCast, if_pos (by simp)]
  exact hm.symm

theorem ulp_half {r : ℚ} (h0 : 1 / 2 ≤ r) (h1 : r < 1) : ulp r = 1 / 2 ^ 53 := by
  have h := ulp_eq (x := r) (e := -1) (by rw [zpow_neg]; norm_num; linarith)
    (by norm_num; exact h1) (by norm_num)
  rw [h, show ((-1 : ℤ) - 52) = -53 by norm_num, zpow_neg]
  norm_num

/-- Every draw is below 1 by at least `2 ^ (-53)`. -/
theorem floorDouble_lt_one {r : ℚ} (h1 : r < 1) :
    floorDouble r ≤ 1 - 1 / 2 ^ 53 := by
  by_cases hr : r < 1 / 2
  · have := floorDouble_le r
    have h2 : (1 : ℚ) / 2 ^ 53 ≤ 1 / 2 := by norm_num
    linarith
  · push_neg at hr
    unfold floorDouble
    rw [ulp_half hr h1]
    have hlt : r / (1 / 2 ^ 53) < (((2 : ℤ) ^ 53 : ℤ) : ℚ) := by
      rw [div_lt_iff₀ (by norm_num)]
      norm_num
      exact h1
    have hfl : ⌊r / (1 / 2 ^ 53 : ℚ)⌋ < (2 : ℤ) ^ 53 := Int.floor_lt.mpr hlt
    have hfl' : ⌊r / (1 / 2 ^ 53 : ℚ)⌋ ≤ (2 : ℤ) ^ 53 - 1 := by omega
    have hq : ((⌊r / (1 / 2 ^ 53 : ℚ)⌋ : ℤ) : ℚ) ≤ (2 : ℚ) ^ 53 - 1 := by
      have h : ((⌊r / (1 / 2 ^ 53 : ℚ)⌋ : ℤ) : ℚ) ≤ (((2 : ℤ) ^ 53 - 1 : ℤ) : ℚ) :=
        Int.cast_le.mpr hfl'
      rw [Int.cast_sub, Int.cast_pow] at h
      exact_mod_cast h
    calc ((⌊r / (1 / 2 ^ 53 : ℚ)⌋ : ℤ) : ℚ) * (1 / 2 ^ 53)
        ≤ ((2 : ℚ) ^ 53 - 1) * (1 / 2 ^ 53) := mul_le_mul_of_nonneg_right hq (by norm_num)
      _ = 1 - 1 / 2 ^ 53 := by norm_num

theorem roundDouble_zero : roundDouble 0 = 0 := by
  unfold roundDouble
  simp

theorem roundDouble_nonneg {x : ℚ} (h : 0 ≤ x) : 0 ≤ roundDouble x := by
  have hq : 0 ≤ x / ulp x := div_nonneg h (ulp_pos x).le
  have hf : (0 : ℚ) ≤ ⌊x / ulp x⌋ := by exact_mod_cast Int.floor_nonneg.mpr hq
  have hu := (ulp_pos x).le
  unfold roundDouble
  split_ifs
  · exact mul_nonneg hf hu
  · exact mul_nonneg (by linarith) hu
  · exact mul_nonneg hf hu
  · exact mul_nonneg (by linarith) hu

theorem ulp_lt {x : ℚ} {n : ℕ} (hx : 0 < x) (hn : x < n) : ulp x < n / 2 ^ 52 := by
  have hn1 : (1 : ℚ) ≤ n := by
    have : 0 < n := by
      rcases Nat.eq_zero_or_pos n with h | h
      · rw [h] at hn
        simp at hn
        linarith
      · exact h
    exact_mod_cast this
  unfold ulp
  rcases le_total (-1022) (Int.log 2 x) with h | h
  · rw [max_eq_left h, zpow_sub₀ (by norm_num)]
    have h2 : (2 : ℚ) ^ Int.log 2 x ≤ x := by
      have := Int.zpow_log_le_self (b := 2) (r := x) (by norm_num) hx
      exact_mod_cast this
    have h3 : (2 : ℚ) ^ (52 : ℤ) = 2 ^ 52 := by norm_cast
    rw [h3]
    apply div_lt_div_of_pos_right _ (by positivity)
    linarith
  · rw [max_eq_right h]
    have h3 : (2 : ℚ) ^ ((-1022 : ℤ) - 52) = 1 / 2 ^ 1074 := by
      rw [show ((-1022 : ℤ) - 52) = -(1074 : ℕ) by norm_num, zpow_neg, zpow_natCast]
      norm_num
    rw [h3]
    have h4 : (1 : ℚ) / 2 ^ 1074 < 1 / 2 ^ 52 := by
      apply one_div_lt_one_div_of_lt (by positivity)
      exact pow_lt_pow_right₀ (by norm_num) (by norm_num)
    have h5 : (1 : ℚ) / 2 ^ 52 ≤ n / 2 ^ 52 := by
      apply div_le_div_of_nonneg_right hn1 (by positivity)
    linarith

/-- The rounded product of a draw and a length `n` stays below `n`. -/
theorem roundDouble_mul_lt {d : ℚ} {n : ℕ} (hd0 : 0 ≤ d) (hd1 : d ≤ 1 - 1 / 2 ^ 53)
    (hn : 0 < n) : roundDouble (d * n) < n := by
  have hn0 : (0 : ℚ) < n := by exact_mod_cast hn
  have hx1 : d * n ≤ n - n / 2 ^ 53 := by
    have := mul_le_mul_of_nonneg_right hd1 hn0.le
    calc d * n ≤ (1 - 1 / 2 ^ 53) * n := this
      _ = n - n / 2 ^ 53 := by ring
  have hlt : d * (n : ℚ) < n := by
    have : (0 : ℚ) < n / 2 ^ 53 := by positivity
    linarith
  rcases (mul_nonneg hd0 hn0.le).eq_or_lt with h0 | hpos
  · rw [← h0, roundDouble_zero]
    exact hn0
  · have hu := ulp_pos (d * n)
    have hul := ulp_lt hpos hlt
    have hfl := Int.floor_le (d * n / ulp (d * n))
    have hdown : (⌊d * n / ulp (d * n)⌋ : ℚ) * ulp (d * n) ≤ d * n := by
      calc (⌊d * n / ulp (d * n)⌋ : ℚ) * ulp (d * n)
          ≤ d * n / ulp (d * n) * ulp (d * n) := mul_le_mul_of_nonneg_right hfl hu.le
        _ = d * n := div_mul_cancel₀ _ hu.ne'
    have hup : ¬ 2 * (d * n / ulp (d * n) - ⌊d * n / ulp (d * n)⌋) < 1 →
        ((⌊d * n / ulp (d * n)⌋ : ℚ) + 1) * ulp (d * n) < n := by
      intro hf
      push_neg at hf
      have h1 : (⌊d * n / ulp (d * n)⌋ : ℚ) + 1 ≤ d * n / ulp (d * n) + 1 / 2 := by linarith
      have h2 : ((⌊d * n / ulp (d * n)⌋ : ℚ) + 1) * ulp (d * n)
          ≤ (d * n / ulp (d * n) + 1 / 2) * ulp (d * n) :=
        mul_le_mul_of_nonneg_right h1 hu.le
      have h3 : (d * n / ulp (d * n) + 1 / 2) * ulp (d * n) = d * n + ulp (d * n) / 2 := by
        rw [add_mul, div_mul_cancel₀ _ hu.ne']
        ring
      have h4 : ulp (d * n) / 2 < n / 2 ^ 53 := by
        have : (n : ℚ) / 2 ^ 53 = n / 2 ^ 52 / 2 := by ring
        rw [this]
        linarith
      linarith
    unfold roundDouble
    split_ifs with c1 c2 c3
    · linarith
    · exact hup c1
    · linarith
    · exact hup c1

/-- The index `Math.floor(r * n)` of a draw is below `n`. -/
theorem floor_index_lt {r : ℚ} {n : ℕ} (h0 : 0 ≤ r) (h1 : r < 1) (hn : 0 < n) :
    (roundDouble (floorDouble r * n)).floor.toNat < n := by
  have hd0 := floorDouble_nonneg h0
  have hlt := roundDouble_mul_lt hd0 (floorDouble_lt_one h1) hn
  have hnn : 0 ≤ roundDouble (floorDouble r * n) :=
    roundDouble_nonneg (mul_nonneg hd0 (by positivity))
  have hf : ⌊roundDouble (floorDouble r * n)⌋ < (n : ℤ) := Int.floor_lt.mpr (by exact_mod_cast hlt)
  have hf0 : 0 ≤ ⌊roundDouble (floorDouble r * n)⌋ := Int.floor_nonneg.mpr hnn
  show (⌊roundDouble (floorDouble r * n)⌋).toNat < n
  omega

theorem isDouble_natCast {m : ℕ} (h1 : 1 ≤ m) (h2 : m ≤ 2 ^ 53) : IsDouble (m : ℚ) := by
  have hm0 : (0 : ℚ) < m := by exact_mod_cast h1
  have hlo : (0 : ℤ) ≤ Int.log 2 (m : ℚ) :=
    (Int.zpow_le_iff_le_log (by norm_num) hm0).mp (by simpa using (by exact_mod_cast h1 : (1 : ℚ) ≤ m))
  have hhi : Int.log 2 (m : ℚ) < 54 := by
    apply (Int.lt_zpow_iff_log_lt (by norm_num) hm0).mp
    have : (m : ℚ) ≤ 2 ^ 53 := by exact_mod_cast h2
    have h3 : ((2 : ℕ) : ℚ) ^ (54 : ℤ) = 2 ^ 54 := by norm_cast
    rw [h3]
    linarith [show (2 : ℚ) ^ 53 < 2 ^ 54 by norm_num]
  have hle : (2 : ℚ) ^ Int.log 2 (m : ℚ) ≤ m := by
    have := Int.zpow_log_le_self (b := 2) (r := (m : ℚ)) (by norm_num) hm0
    exact_mod_cast this
  obtain ⟨j, hj⟩ := Int.eq_ofNat_of_zero_le hlo
  have hu : ulp (m : ℚ) = (2 : ℚ) ^ ((j : ℤ) - 52) := by
    unfold ulp
    rw [hj, max_eq_left (by omega)]
  rw [hj] at hhi hle
  have hj53 : j ≤ 53 := by omega
  rcases Nat.lt_or_ge j 53 with hlt | hge
  · refine ⟨(m : ℤ) * 2 ^ (52 - j), ?_⟩
    rw [hu]
    have : ((j : ℤ) - 52) = -((52 - j : ℕ) : ℤ) := by omega
    rw [this, zpow_neg, zpow_natCast]
    push_cast
    field_simp
  · have hj' : j = 53 := by omega
    subst hj'
    have hm : (m : ℚ) = 2 ^ 53 := by
      have h3 : (m : ℚ) ≤ 2 ^ 53 := by exact_mod_cast h2
      have h4 : (2 : ℚ) ^ ((53 : ℕ) : ℤ) = 2 ^ 53 := by norm_cast
      rw [h4] at hle
      linarith
    refine ⟨2 ^ 52, ?_⟩
    rw [hu, hm]
    norm_num

/-- Below `2 ^ 53` the statement `x += 1` adds one. -/
theorem addOne_of_lt {n : ℕ} (h : n < 2 ^ 53) : addOne n = n + 1 := by
  unfold addOne
  have hd : IsDouble (((n + 1 : ℕ) : ℚ)) := isDouble_natCast (by omega) (by omega)
  have hc : ((n : ℚ) + 1) = ((n + 1 : ℕ) : ℚ) := by push_cast; rfl
  rw [hc, roundDouble_of_isDouble hd]
  show (⌊((n + 1 : ℕ) : ℚ)⌋).toNat = n + 1
  rw [Int.floor_natCast]
  rfl

/-- At `2 ^ 53` the statement `x += 1` leaves the counter as it is. -/
theorem addOne_saturated : addOne (2 ^ 53) = 2 ^ 53 := by
  unfold addOne
  have hu : ulp (((2 ^ 53 : ℕ) : ℚ) + 1) = 2 := by
    rw [ulp_eq (e := 53) (by norm_num) (by norm_num) (by norm_num)]
    norm_num
  have hfl : ⌊(((2 ^ 53 : ℕ) : ℚ) + 1) / 2⌋ = 2 ^ 52 := by
    rw [Int.floor_eq_iff]
    constructor <;> norm_num
  have hr : roundDouble (((2 ^ 53 : ℕ) : ℚ) + 1) = ((2 ^ 53 : ℕ) : ℚ) := by
    unfold roundDouble
    rw [hu, hfl]
    norm_num
  rw [hr]
  show (⌊((2 ^ 53 : ℕ) : ℚ)⌋).toNat = 2 ^ 53
  rw [Int.floor_natCast]
  rfl

/-- The literal `0.35` of the source is the double `3152519739159347 / 2 ^ 53`. -/
theorem roundDouble_literal :
    roundDouble (35 / 100) = 3152519739159347 / 2 ^ 53 ∧
    roundDouble (35 / 100) < 35 / 100 := by
  have hu : ulp (35 / 100) = 1 / 2 ^ 54 := by
    rw [ulp_eq (e := -2) (by rw [zpow_neg]; norm_num) (by norm_num) (by norm_num)]
    rw [show ((-2 : ℤ) - 52) = -(54 : ℕ) by norm_num, zpow_neg, zpow_natCast]
    norm_num
  have hfl : ⌊(35 / 100 : ℚ) / (1 / 2 ^ 54)⌋ = 6305039478318694 := by
    rw [Int.floor_eq_iff]
    constructor <;> norm_num
  have hr : roundDouble (35 / 100) = 3152519739159347 / 2 ^ 53 := by
    unfold roundDouble
    rw [hu, hfl]
    norm_num
  rw [hr]
  exact ⟨rfl, by norm_num⟩

/-! ## C11: terminal states are absorbing -/

theorem tryHumanMove_gameOver (s : State) (idx : Int) (h : s.gameOver = true) :
    tryHumanMove s idx = s := by
  simp [tryHumanMove, h]

theorem cpuTimeout_gameOver (r1 r2 : ℚ) (s : State) (h : s.gameOver = true) :
    cpuTimeout r1 r2 s = some s := by
  simp [cpuTimeout, h]

theorem maybeCpuMove_fields (s : State) :
    (maybeCpuMove s).board = s.board ∧ (maybeCpuMove s).human = s.human ∧
    (maybeCpuMove s).cpu = s.cpu ∧ (maybeCpuMove s).difficulty = s.difficulty ∧
    (maybeCpuMove s).current = s.current ∧ (maybeCpuMove s).gameOver = s.gameOver ∧
    (maybeCpuMove s).lastMove = s.lastMove ∧ (maybeCpuMove s).winningLine = s.winningLine ∧
    (maybeCpuMove s).score = s.score ∧
    (maybeCpuMove s).pending
      = s.pending + (if s.gameOver = false ∧ s.current = s.cpu then 1 else 0) := by
  unfold maybeCpuMove
  by_cases hg : s.gameOver = true
  · simp [hg]
  · by_cases hc : s.current = s.cpu
    · simp [hg, hc]
    · simp [hg, hc]

theorem sameRound_of_terminal_run :
    ∀ (es : List Event) (s t : State), s.gameOver = true → (∀ e ∈ es, e.isMove = true) →
      runEvents s es = some t → SameRound s t ∧ t.human = s.human ∧ t.cpu = s.cpu
  | [], s, t, _, _, h => by
    simp only [runEvents, Option.some.injEq] at h
    subst h
    exact ⟨⟨rfl, rfl, rfl, rfl, rfl, rfl⟩, rfl, rfl⟩
  | e :: es, s, t, hg, hm, h => by
    have hme := hm e (List.mem_cons_self _ _)
    have hrest : ∀ e' ∈ es, e'.isMove = true := fun e' he => hm e' (List.mem_cons_of_mem _ he)
    cases e with
    | click idx =>
      simp only [runEvents, applyEvent, tryHumanMove_gameOver s idx hg] at h
      exact sameRound_of_terminal_run es s t hg hrest h
    | timeout r1 r2 =>
      simp only [runEvents, applyEvent, fireTimeout] at h
      by_cases hp : s.pending = 0
      · simp [hp] at h
      · simp only [hp, if_false] at h
        rw [cpuTimeout_gameOver r1 r2 { s with pending := s.pending - 1 } hg] at h
        simp only at h
        exact sameRound_of_terminal_run es { s with pending := s.pending - 1 } t hg hrest h
    | newGame => simp [Event.isMove] at hme
    | side c => simp [Event.isMove] at hme
    | level d => simp [Event.isMove] at hme
    | clearScore => simp [Event.isMove] at hme

/-- C11. Terminal states are absorbing: in a state with `gameOver = true`
every `tryHumanMove(idx)` returns the state as it is, every deferred CPU
callback leaves it as it is, and so every finite sequence of such events
leaves `board`, `current`, `gameOver`, `lastMove`, `winningLine` and `score`
unchanged; `newRound` sets `gameOver` to false. -/
theorem terminal_absorbing (s : State) (hg : s.gameOver = true) :
    (∀ idx, tryHumanMove s idx = s) ∧
    (∀ r1 r2, cpuTimeout r1 r2 s = some s) ∧
    (∀ (es : List Event) (t : State), (∀ e ∈ es, e.isMove = true) →
      runEvents s es = some t → SameRound s t) ∧
    (∀ cpuStarts, (newRound s cpuStarts).gameOver = false) :=
  ⟨fun idx => tryHumanMove_gameOver s idx hg,
    fun r1 r2 => cpuTimeout_gameOver r1 r2 s hg,
    fun es t hm h => (sameRound_of_terminal_run es s t hg hm h).1,
    fun cpuStarts => by unfold newRound; rw [(maybeCpuMove_fields _).2.2.2.2.2.1]⟩

/-! ## C12 and C13: round reset and score accounting -/

/-- Witness for C11: a click on an empty cell, the pending callback and a
second click after the CPU has won. -/
theorem terminal_absorbing_witness :
    wonState.gameOver = true ∧
    runEvents wonState [Event.click 3, Event.timeout (1 / 2) (1 / 2), Event.click 5]
      = some { wonState with pending := 0 } ∧
    SameRound wonState { wonState with pending := 0 } :=
  ⟨rfl, by decide,
    (terminal_absorbing wonState rfl).2.2.1
      [Event.click 3, Event.timeout (1 / 2) (1 / 2), Event.click 5]
      { wonState with pending := 0 } (by decide) (by decide)⟩

/-- The fields of the state after `newRound({ cpuStarts })`. -/
theorem newRound_fields (s : State) (cpuStarts : Option Bool) :
    (newRound s cpuStarts).board = List.replicate 9 Cell.empty ∧
    (newRound s cpuStarts).gameOver = false ∧
    (newRound s cpuStarts).lastMove = -1 ∧
    (newRound s cpuStarts).winningLine = none ∧
    (cpuStarts = some true → (newRound s cpuStarts).current = s.cpu) ∧
    (cpuStarts = some false → (newRound s cpuStarts).current = s.human) ∧
    (cpuStarts = none → (newRound s cpuStarts).current = Cell.X) ∧
    (newRound s cpuStarts).score = s.score ∧
    (newRound s cpuStarts).human = s.human ∧
    (newRound s cpuStarts).cpu = s.cpu ∧
    (newRound s cpuStarts).difficulty = s.difficulty ∧
    (newRound s cpuStarts).pending
      = s.pending + (if (newRound s cpuStarts).current = s.cpu then 1 else 0) := by
  unfold newRound
  rcases cpuStarts with _ | _ | _
  all_goals
    obtain ⟨h1, h2, h3, h4, h5, h6, h7, h8, h9, h10⟩ := maybeCpuMove_fields
      { s with
        board := List.replicate 9 Cell.empty,
        gameOver := false,
        lastMove := -1,
        winningLine := none,
        current := _ }
    refine ⟨h1, h6, h7, h8, ?_, ?_, ?_, h9, h2, h3, h4, ?_⟩
    · intro h; first | exact h5 | exact absurd h (by simp)
    · intro h; first | exact h5 | exact absurd h (by simp)
    · intro h; first | exact h5 | exact absurd h (by simp)
    · rw [h10, h5]
      simp

/-- C12. Round reset: from every state `newRound({ cpuStarts })` yields a board
of nine empty cells, `gameOver = false`, `lastMove = -1`, `winningLine = null`
and `current` equal to `cpu`, `human` or `"X"` for `cpuStarts` true, false or
null; `score`, `human`, `cpu` and `difficulty` are unchanged, and one callback
is scheduled exactly when the CPU is to move. -/
theorem round_reset (s : State) (cpuStarts : Option Bool) :
    (newRound s cpuStarts).board = List.replicate 9 Cell.empty ∧
    (newRound s cpuStarts).gameOver = false ∧
    (newRound s cpuStarts).lastMove = -1 ∧
    (newRound s cpuStarts).winningLine = none ∧
    (cpuStarts = some true → (newRound s cpuStarts).current = s.cpu) ∧
    (cpuStarts = some false → (newRound s cpuStarts).current = s.human) ∧
    (cpuStarts = none → (newRound s cpuStarts).current = Cell.X) ∧
    (newRound s cpuStarts).score = s.score ∧
    (newRound s cpuStarts).human = s.human ∧
    (newRound s cpuStarts).cpu = s.cpu ∧
    (newRound s cpuStarts).difficulty = s.difficulty ∧
    (newRound s cpuStarts).pending
      = s.pending + (if (newRound s cpuStarts).current = s.cpu then 1 else 0) :=
  newRound_fields s cpuStarts

theorem getWinner_line_none {b : List Cell} (h : (getWinner b).winner = Cell.empty) :
    getWinner b = ⟨Cell.empty, none⟩ :=
  getWinner_of_no_line (getWinner_eq_empty_iff.mp h)

/-- C13, amended. Score accounting on round end, for every state whose three
counters are below `2 ^ 53`: `endIfNeeded` returns true exactly when the board
has a completed line or no empty cell; then `gameOver` becomes true,
`winningLine` is the line reported by `getWinner` (`null` for a draw) and
exactly one counter grows by one: `score.human` when `getWinner` reports the
human's mark, `score.cpu` when it reports the CPU's, `score.draw` when the
board is full with no completed line; when it returns false the state is
unchanged. -/
theorem score_accounting (s : State) (hm : Marks s.human s.cpu)
    (hs : s.score.human < 2 ^ 53 ∧ s.score.cpu < 2 ^ 53 ∧ s.score.draw < 2 ^ 53) :
    ((endIfNeeded s).2 = true ↔
      ((∃ l ∈ WIN_LINES, ∃ m, m ≠ Cell.empty ∧ LineHolds s.board l m) ∨
        allFilled s.board = true)) ∧
    ((endIfNeeded s).2 = true →
      (endIfNeeded s).1 =
        { s with
          gameOver := true,
          winningLine := (getWinner s.board).line,
          score := (endIfNeeded s).1.score } ∧
      ((getWinner s.board).winner = s.human →
        (endIfNeeded s).1.score = { s.score with human := s.score.human + 1 }) ∧
      ((getWinner s.board).winner = s.cpu →
        (endIfNeeded s).1.score = { s.score with cpu := s.score.cpu + 1 }) ∧
      ((getWinner s.board).winner = Cell.empty →
        (endIfNeeded s).1.score = { s.score with draw := s.score.draw + 1 } ∧
        (endIfNeeded s).1.winningLine = none)) ∧
    ((endIfNeeded s).2 = false → (endIfNeeded s).1 = s) := by
  have hline : (∃ l ∈ WIN_LINES, ∃ m, m ≠ Cell.empty ∧ LineHolds s.board l m) ↔
      (getWinner s.board).winner ≠ Cell.empty := by
    rw [ne_eq, getWinner_eq_empty_iff]
    constructor
    · rintro ⟨l, hl, m, hm', hh⟩ hall
      exact hall l hl m hm' hh
    · intro h
      by_contra hcon
      apply h
      intro l hl m hm' hh
      exact hcon ⟨l, hl, m, hm', hh⟩
  rw [hline]
  have hne1 : ¬ Cell.empty = s.human := fun h => hm.human_ne h.symm
  have hne2 : ¬ Cell.empty = s.cpu := fun h => hm.cpu_ne h.symm
  by_cases hw : (getWinner s.board).winner = Cell.empty
  · have hg := getWinner_line_none hw
    by_cases hf : allFilled s.board = true
    · have hd : isDraw s.board = true := by simp [isDraw, hf, hw]
      simp [endIfNeeded, hw, hd, hf, hg, hne1, hne2, addOne_of_lt hs.2.2]
    · have hd : isDraw s.board = false := by simp [isDraw, hf]
      simp [endIfNeeded, hw, hd, hf]
  · by_cases hh : (getWinner s.board).winner = s.human
    · have hne3 : ¬ s.human = s.cpu := hm.ne
      have hne4 : ¬ s.human = Cell.empty := hm.human_ne
      simp [endIfNeeded, hw, hh, hne3, hne4, addOne_of_lt hs.1]
    · simp [endIfNeeded, hw, hh, addOne_of_lt hs.2.1]

/-- Witness for C13: O (CPU) has just completed the top row. -/
theorem score_accounting_witness :
    Marks wonState.human wonState.cpu ∧
    (wonState.score.human < 2 ^ 53 ∧ wonState.score.cpu < 2 ^ 53 ∧
      wonState.score.draw < 2 ^ 53) ∧
    (endIfNeeded { wonState with gameOver := false, winningLine := none }).2 = true ∧
    (endIfNeeded { wonState with gameOver := false, winningLine := none }).1.score
      = { human := 0, cpu := 2, draw := 0 } :=
  ⟨Or.inl ⟨rfl, rfl⟩, by decide, by decide,
    ((score_accounting { wonState with gameOver := false, winningLine := none }
      (Or.inl ⟨rfl, rfl⟩) (by decide)).2.1 (by decide)).2.2.1 (by decide)⟩

/-! ## C16: the CPU moves on an empty cell -/

/-- What `chooseCpuMove` returns on a non-terminal nine-cell board. -/
theorem chooseCpuMove_spec (s : State) (r1 r2 : ℚ) (hm : Marks s.human s.cpu)
    (hlen : s.board.length = 9) (ht : isTerminal s.board = false)
    (h2 : 0 ≤ r2 ∧ r2 < 1) :
    ∃ i ∈ emptyMoves s.board, ∃ sc,
      bestMoveMinimax s.human s.cpu s.board s.cpu = some ⟨some (i : Int), sc⟩ ∧
      ∃ j ∈ emptyMoves s.board, chooseCpuMove r1 r2 s = some (some (j : Int)) ∧
        (s.difficulty = Difficulty.hard → j = i) ∧
        (s.difficulty = Difficulty.easy → floorDouble r1 < roundDouble (35 / 100) →
          (emptyMoves s.board)[(roundDouble
            (floorDouble r2 * ((emptyMoves s.board).length : ℚ))).floor.toNat]? = some j) ∧
        (s.difficulty = Difficulty.easy → ¬ floorDouble r1 < roundDouble (35 / 100) →
          j = i) := by
  obtain ⟨i, hi, hbest, _⟩ :=
    valueAt_nonterminal s.human s.cpu hm s.board s.cpu hm.cpu_ne hlen ht
  refine ⟨i, hi, _, hbest, ?_⟩
  have hpos : 0 < (emptyMoves s.board).length := List.length_pos_of_mem hi
  have hne0 : ¬ (emptyMoves s.board).length = 0 := by omega
  by_cases hrand : s.difficulty = Difficulty.easy ∧ floorDouble r1 < roundDouble (35 / 100)
  · have hidx := floor_index_lt h2.1 h2.2 hpos
    refine ⟨(emptyMoves s.board)[(roundDouble
        (floorDouble r2 * ((emptyMoves s.board).length : ℚ))).floor.toNat],
      List.getElem_mem _, ?_, ?_, ?_, ?_⟩
    · unfold chooseCpuMove
      simp only [hne0, if_false, hrand, and_self, if_true, List.getElem?_eq_getElem hidx,
        Option.map_some']
      rfl
    · intro hd
      rw [hrand.1] at hd
      exact Difficulty.noConfusion hd
    · intro _ _
      exact List.getElem?_eq_getElem hidx
    · intro _ hn
      exact absurd hrand.2 hn
  · refine ⟨i, hi, ?_, fun _ => rfl, ?_, fun _ _ => rfl⟩
    · unfold chooseCpuMove
      simp only [hne0, if_false, hrand, hbest, Option.map_some']
    · intro hd hr
      exact absurd ⟨hd, hr⟩ hrand

/-- The product of the draw 0.4444444444444444 and 9 rounds up to 4: the
double product gives index 4 where the exact product gives 3. -/
theorem roundDouble_product_example :
    IsDouble (2001599834386887 / 2 ^ 52) ∧
    (roundDouble (floorDouble (2001599834386887 / 2 ^ 52) * (9 : ℕ))).floor.toNat = 4 ∧
    ((2001599834386887 / 2 ^ 52 : ℚ) * (9 : ℕ)).floor.toNat = 3 := by
  have hu1 : ulp (2001599834386887 / 2 ^ 52) = 1 / 2 ^ 54 := by
    rw [ulp_eq (e := -2) (by rw [zpow_neg]; norm_num) (by norm_num) (by norm_num)]
    rw [show ((-2 : ℤ) - 52) = -(54 : ℕ) by norm_num, zpow_neg, zpow_natCast]
    norm_num
  have hd : IsDouble (2001599834386887 / 2 ^ 52) := by
    refine ⟨2001599834386887 * 4, ?_⟩
    rw [hu1]
    norm_num
  refine ⟨hd, ?_, ?_⟩
  · rw [floorDouble_of_isDouble hd]
    have hu : ulp (2001599834386887 / 2 ^ 52 * (9 : ℕ)) = 1 / 2 ^ 51 := by
      rw [ulp_eq (e := 1) (by norm_num) (by norm_num) (by norm_num)]
      rw [show ((1 : ℤ) - 52) = -(51 : ℕ) by norm_num, zpow_neg, zpow_natCast]
      norm_num
    have hfl : ⌊(2001599834386887 / 2 ^ 52 * (9 : ℕ) : ℚ) / (1 / 2 ^ 51)⌋
        = 9007199254740991 := by
      rw [Int.floor_eq_iff]
      constructor <;> norm_num
    have hr : roundDouble (2001599834386887 / 2 ^ 52 * (9 : ℕ)) = 4 := by
      unfold roundDouble
      rw [hu, hfl]
      norm_num
    rw [hr]
    show (⌊(4 : ℚ)⌋).toNat = 4
    have : ⌊(4 : ℚ)⌋ = 4 := by
      rw [Int.floor_eq_iff]
      constructor <;> norm_num
    rw [this]
    rfl
  · show (⌊(2001599834386887 / 2 ^ 52 : ℚ) * (9 : ℕ)⌋).toNat = 3
    have : ⌊(2001599834386887 / 2 ^ 52 : ℚ) * (9 : ℕ)⌋ = 3 := by
      rw [Int.floor_eq_iff]
      constructor <;> norm_num
    rw [this]
    rfl

/-- The model at two draws where exact arithmetic would choose otherwise, on
the empty board with the CPU (X) to open on easy: with the second draw
0.4444444444444444 the random move is `moves[4]`, and with the first draw equal
to the double `0.35` the test `r1 < 0.35` fails and the minimax move is played. -/
theorem chooseCpuMove_double_examples :
    chooseCpuMove (1 / 4) (2001599834386887 / 2 ^ 52)
      { cpuOpensState with difficulty := Difficulty.easy } = some (some 4) ∧
    chooseCpuMove (3152519739159347 / 2 ^ 53) (1 / 2)
      { cpuOpensState with difficulty := Difficulty.easy } = some (some 0) := by
  have hquarter : floorDouble (1 / 4) = 1 / 4 := by
    apply floorDouble_of_isDouble
    refine ⟨2 ^ 52, ?_⟩
    rw [ulp_eq (e := -2) (by rw [zpow_neg]; norm_num) (by norm_num) (by norm_num)]
    rw [show ((-2 : ℤ) - 52) = -(54 : ℕ) by norm_num, zpow_neg, zpow_natCast]
    norm_num
  have hlit : floorDouble (3152519739159347 / 2 ^ 53) = 3152519739159347 / 2 ^ 53 := by
    apply floorDouble_of_isDouble
    refine ⟨3152519739159347 * 2, ?_⟩
    rw [ulp_eq (e := -2) (by rw [zpow_neg]; norm_num) (by norm_num) (by norm_num)]
    rw [show ((-2 : ℤ) - 52) = -(54 : ℕ) by norm_num, zpow_neg, zpow_natCast]
    norm_num
  have hmoves : emptyMoves cpuOpensState.board = [0, 1, 2, 3, 4, 5, 6, 7, 8] := by decide
  constructor
  · unfold chooseCpuMove
    simp only [hmoves]
    rw [if_neg (by decide), if_pos ⟨trivial, by rw [hquarter, roundDouble_literal.1]; norm_num⟩]
    have h := roundDouble_product_example.2.1
    simp only [List.length_cons, List.length_nil] at h ⊢
    rw [h]
    rfl
  · unfold chooseCpuMove
    simp only [hmoves]
    rw [if_neg (by decide), if_neg (by
      rw [hlit, roundDouble_literal.1]
      simp)]
    show (bestMoveMinimax Cell.O Cell.X cpuOpensState.board Cell.X).map (fun r => r.idx) = _
    have hb : cpuOpensState.board = [Cell.empty, Cell.empty, Cell.empty, Cell.empty, Cell.empty,
        Cell.empty, Cell.empty, Cell.empty, Cell.empty] := rfl
    rw [hb, selfPlay_OX_1]
    rfl

/-- C16. `chooseCpuMove` always returns a legal move: on a nine-cell board with
no completed line and an empty cell, for both difficulties and all draws of
the two calls of `Math.random()` (the doubles `floorDouble r1` and
`floorDouble r2` in `[0, 1)`, which are `r1` and `r2` when these are doubles),
it returns an index in `0..8` whose cell is empty; on hard it is
`bestMoveMinimax(board, cpu).idx` whatever the draws, on easy it is
`emptyMoves(board)[floor(r2 * length)]`, with the product rounded to a double,
when `r1 < 0.35`, the literal being the double nearest to 35/100, and that
minimax index otherwise. -/
theorem chooseCpuMove_legal (s : State) (r1 r2 : ℚ) (hm : Marks s.human s.cpu)
    (hlen : s.board.length = 9) (hw : (getWinner s.board).winner = Cell.empty)
    (hne : emptyMoves s.board ≠ []) (h2 : 0 ≤ r2 ∧ r2 < 1) :
    (IsDouble r1 → floorDouble r1 = r1) ∧ (IsDouble r2 → floorDouble r2 = r2) ∧
    0 ≤ floorDouble r2 ∧ floorDouble r2 < 1 ∧
    roundDouble (35 / 100) = 3152519739159347 / 2 ^ 53 ∧
    ∃ (i : Nat) (sc : Score),
      bestMoveMinimax s.human s.cpu s.board s.cpu = some ⟨some (i : Int), sc⟩ ∧
      ∃ j : Nat, chooseCpuMove r1 r2 s = some (some (j : Int)) ∧
        j < 9 ∧ s.board[j]? = some Cell.empty ∧
        (s.difficulty = Difficulty.hard → j = i) ∧
        (s.difficulty = Difficulty.easy → floorDouble r1 < roundDouble (35 / 100) →
          (emptyMoves s.board)[(roundDouble
            (floorDouble r2 * ((emptyMoves s.board).length : ℚ))).floor.toNat]? = some j) ∧
        (s.difficulty = Difficulty.easy → ¬ floorDouble r1 < roundDouble (35 / 100) →
          j = i) := by
  obtain ⟨i0, hi0⟩ := List.exists_mem_of_ne_nil _ hne
  have ht : isTerminal s.board = false :=
    isTerminal_false_iff.mpr ⟨hw, allFilled_false_of_mem hi0⟩
  obtain ⟨i, _, sc, hbest, j, hj, hch, h3, h4, h5⟩ := chooseCpuMove_spec s r1 r2 hm hlen ht h2
  have hlt : floorDouble r2 < 1 := lt_of_le_of_lt (floorDouble_le r2) h2.2
  exact ⟨floorDouble_of_isDouble, floorDouble_of_isDouble, floorDouble_nonneg h2.1, hlt,
    roundDouble_literal.1, i, sc, hbest, j, hch, (mem_emptyMoves.mp hj).1,
    (mem_emptyMoves.mp hj).2, h3, h4, h5⟩

/-- Witness for C16: the mid-game state with X at 0 and O at 4, were the CPU to
choose there, on draws 1/4 and 1/2. -/
theorem chooseCpuMove_legal_witness :
    Marks exampleState.human exampleState.cpu ∧ exampleState.board.length = 9 ∧
    (getWinner exampleState.board).winner = Cell.empty ∧
    emptyMoves exampleState.board ≠ [] ∧
    ∃ (i : Nat) (sc : Score),
      bestMoveMinimax exampleState.human exampleState.cpu exampleState.board exampleState.cpu
        = some ⟨some (i : Int), sc⟩ ∧
      ∃ j : Nat, chooseCpuMove (1 / 4) (1 / 2) exampleState = some (some (j : Int)) ∧
        j < 9 ∧ exampleState.board[j]? = some Cell.empty ∧
        (exampleState.difficulty = Difficulty.hard → j = i) ∧
        (exampleState.difficulty = Difficulty.easy →
          floorDouble (1 / 4) < roundDouble (35 / 100) →
          (emptyMoves exampleState.board)[(roundDouble (floorDouble (1 / 2) *
            ((emptyMoves exampleState.board).length : ℚ))).floor.toNat]? = some j) ∧
        (exampleState.difficulty = Difficulty.easy →
          ¬ floorDouble (1 / 4) < roundDouble (35 / 100) → j = i) :=
  ⟨Or.inl ⟨rfl, rfl⟩, rfl, by decide, by decide,
    (chooseCpuMove_legal exampleState (1 / 4) (1 / 2) (Or.inl ⟨rfl, rfl⟩) rfl (by decide)
      (by decide) ⟨by norm_num, by norm_num⟩).2.2.2.2.2⟩

/-! ## Lemmas: an invariant of the reachable states -/

theorem endIfNeeded_fields (s : State) :
    (endIfNeeded s).2 = isTerminal s.board ∧
    (endIfNeeded s).1.board = s.board ∧ (endIfNeeded s).1.human = s.human ∧
    (endIfNeeded s).1.cpu = s.cpu ∧ (endIfNeeded s).1.current = s.current ∧
    (endIfNeeded s).1.difficulty = s.difficulty ∧ (endIfNeeded s).1.pending = s.pending ∧
    (endIfNeeded s).1.lastMove = s.lastMove ∧
    (endIfNeeded s).1.gameOver = (s.gameOver || isTerminal s.board) := by
  unfold endIfNeeded isTerminal
  by_cases hw : (getWinner s.board).winner = Cell.empty
  · by_cases hd : isDraw s.board = true
    · simp [hw, hd]
    · simp [hw, hd]
  · simp [hw]

theorem count_set_mark {b : List Cell} {i : Nat} {m : Cell} (hi : b[i]? = some Cell.empty)
    (x : Cell) (hx : x ≠ Cell.empty) :
    (b.set i m).count x = b.count x + (if m = x then 1 else 0) := by
  have hlt : i < b.length := by
    by_contra hcon
    rw [List.getElem?_eq_none (by omega)] at hi
    exact Option.noConfusion hi
  have hget : b[i] = Cell.empty := by
    rw [List.getElem?_eq_getElem hlt] at hi
    exact Option.some.inj hi
  rw [List.count_set _ _ _ _ hlt, hget]
  have h1 : (Cell.empty == x) = false := by
    simpa using (fun h : Cell.empty = x => hx h.symm)
  simp only [h1, Bool.false_eq_true, if_false, Nat.sub_zero, beq_iff_eq]

/-- A mark written by the player to move into an empty cell keeps the
invariant, once `gameOver` and `current` are updated as the handlers do. -/
theorem gameInv_move {b : List Cell} {human cpu cur : Cell}
    (hinv : GameInv b human cpu cur false) (hcur : cur = human ∨ cur = cpu) {i : Nat}
    (hi : b[i]? = some Cell.empty) :
    (isTerminal (b.set i cur) = true → ∀ c, GameInv (b.set i cur) human cpu c true) ∧
    (isTerminal (b.set i cur) = false → GameInv (b.set i cur) human cpu (other cur) false) := by
  obtain ⟨hlen, hm, _, _, hturn⟩ := hinv
  have hcne : cur ≠ Cell.empty := by
    rcases hcur with h | h
    · exact h ▸ hm.human_ne
    · exact h ▸ hm.cpu_ne
  have hX := count_set_mark (m := cur) hi Cell.X (by simp)
  have hO := count_set_mark (m := cur) hi Cell.O (by simp)
  have hcases : (cur = Cell.X ∧ (b.set i cur).count Cell.X = (b.set i cur).count Cell.O + 1) ∨
      (cur = Cell.O ∧ (b.set i cur).count Cell.X = (b.set i cur).count Cell.O) := by
    rcases hturn rfl with ⟨hc, hcount⟩ | ⟨hc, hcount⟩
    · left
      subst hc
      simp only [if_true] at hX
      simp only [show ¬ Cell.X = Cell.O from by simp, if_false] at hO
      exact ⟨rfl, by omega⟩
    · right
      subst hc
      simp only [show ¬ Cell.O = Cell.X from by simp, if_false] at hX
      simp only [if_true] at hO
      exact ⟨rfl, by omega⟩
  have hlen' : (b.set i cur).length = 9 := by simpa using hlen
  constructor
  · intro ht c
    refine ⟨hlen', hm, ht.symm, ?_, fun h => Bool.noConfusion h⟩
    rcases hcases with ⟨_, h⟩ | ⟨_, h⟩
    · exact Or.inr h
    · exact Or.inl h
  · intro ht
    refine ⟨hlen', hm, ht.symm, ?_, fun _ => ?_⟩
    · rcases hcases with ⟨_, h⟩ | ⟨_, h⟩
      · exact Or.inr h
      · exact Or.inl h
    · rcases hcases with ⟨hc, h⟩ | ⟨hc, h⟩
      · right; exact ⟨by rw [hc]; rfl, h⟩
      · left; exact ⟨by rw [hc]; rfl, h⟩

theorem sessionInv_of_fields {t : State} {b : List Cell} {h c cur : Cell} {g : Bool}
    (h1 : t.board = b) (h2 : t.human = h) (h3 : t.cpu = c) (h4 : t.current = cur)
    (h5 : t.gameOver = g) (hinv : GameInv b h c cur g) : SessionInv t := by
  unfold SessionInv
  rw [h1, h2, h3, h4, h5]
  exact hinv

/-- The state after a successful `applyMove(i, m)` followed by `endIfNeeded()`
and, when the round goes on, by the hand-over of the turn to `next`. -/
theorem sessionInv_after_move (s : State) (i : Nat) (l : Int) (m next : Cell)
    (hinv : GameInv s.board s.human s.cpu m false) (hg : s.gameOver = false)
    (hm : m = s.human ∨ m = s.cpu) (hnext : next = other m)
    (hi : s.board[i]? = some Cell.empty) (t : State)
    (ht : t = (endIfNeeded { s with board := s.board.set i m, lastMove := l }).1) :
    ((endIfNeeded { s with board := s.board.set i m, lastMove := l }).2 = true →
      SessionInv t) ∧
    ((endIfNeeded { s with board := s.board.set i m, lastMove := l }).2 = false →
      ∀ u : State, u.board = t.board → u.human = t.human → u.cpu = t.cpu →
        u.current = next → u.gameOver = t.gameOver → SessionInv u) := by
  obtain ⟨e2, e3, e4, e5, e6, _, _, _, e10⟩ :=
    endIfNeeded_fields { s with board := s.board.set i m, lastMove := l }
  obtain ⟨hT, hF⟩ := gameInv_move hinv hm hi
  simp only at e2 e3 e4 e5 e6 e10
  constructor
  · intro h
    rw [e2] at h
    subst ht
    exact sessionInv_of_fields e3 e4 e5 e6 (by rw [e10, hg, h]; rfl) (hT h _)
  · intro h u h1 h2 h3 h4 h5
    rw [e2] at h
    subst ht
    exact sessionInv_of_fields (h1.trans e3) (h2.trans e4) (h3.trans e5) h4
      (by rw [h5, e10, hg, h]; rfl) (hnext ▸ hF h)

theorem sessionInv_tryHumanMove (s : State) (idx : Int) (h : SessionInv s) :
    SessionInv (tryHumanMove s idx) := by
  unfold tryHumanMove
  by_cases hg : s.gameOver = true
  · simpa [hg] using h
  · by_cases hc : s.current = s.human
    swap
    · simpa [hg, hc] using h
    · have hg' : s.gameOver = false := by simpa using hg
      by_cases hb : boardAt s.board (some idx) = some Cell.empty
      swap
      · simpa [hg, hc, applyMove, hb] using h
      · have hidx : 0 ≤ idx ∧ s.board[idx.toNat]? = some Cell.empty := by
          unfold boardAt at hb
          simp only at hb
          split_ifs at hb with h0
          exact ⟨h0, hb⟩
        have hinv : GameInv s.board s.human s.cpu s.human false := by
          have := h
          unfold SessionInv at this
          rwa [hg', hc] at this
        have hmarks : Marks s.human s.cpu := hinv.2.1
        obtain ⟨hT, hF⟩ := sessionInv_after_move s idx.toNat idx s.human s.cpu hinv hg'
          (Or.inl rfl) hmarks.other_human.symm hidx.2 _ rfl
        rw [if_neg hg, if_neg (not_not.mpr hc)]
        have happ : applyMove s (some idx) s.human =
            ({ s with board := s.board.set idx.toNat s.human, lastMove := idx }, true) := by
          simp [applyMove, hb]
        simp only [happ, Bool.not_true, Bool.false_eq_true, if_false]
        by_cases he : (endIfNeeded
            { s with board := s.board.set idx.toNat s.human, lastMove := idx }).2 = true
        · rw [if_pos he]
          exact hT he
        · rw [if_neg he]
          obtain ⟨m1, m2, m3, _, m5, m6, _⟩ := maybeCpuMove_fields
            { (endIfNeeded { s with board := s.board.set idx.toNat s.human, lastMove := idx }).1
              with current := (endIfNeeded
                { s with board := s.board.set idx.toNat s.human, lastMove := idx }).1.cpu }
          obtain ⟨_, _, _, e5, _⟩ := endIfNeeded_fields
            { s with board := s.board.set idx.toNat s.human, lastMove := idx }
          exact hF (by simpa using he) _ m1 m2 m3 (m5.trans e5) m6

theorem boardAt_natCast (b : List Cell) (j : Nat) : boardAt b (some (j : Int)) = b[j]? := by
  simp [boardAt]

/-- The callback keeps the invariant and always returns. -/
theorem sessionInv_cpuTimeout (s : State) (r1 r2 : ℚ) (h : SessionInv s)
    (h2 : 0 ≤ r2 ∧ r2 < 1) :
    ∃ t, cpuTimeout r1 r2 s = some t ∧ SessionInv t := by
  unfold cpuTimeout
  by_cases hguard : s.gameOver = true ∨ s.current ≠ s.cpu
  · exact ⟨s, by rw [if_pos hguard], h⟩
  · rw [if_neg hguard]
    have hg' : s.gameOver = false := by
      by_contra hcon
      exact hguard (Or.inl (by simpa using hcon))
    have hc : s.current = s.cpu := by
      by_contra hcon
      exact hguard (Or.inr hcon)
    have hinv : GameInv s.board s.human s.cpu s.cpu false := by
      have := h
      unfold SessionInv at this
      rwa [hg', hc] at this
    have hmarks : Marks s.human s.cpu := hinv.2.1
    have ht : isTerminal s.board = false := by
      have := hinv.2.2.1
      exact this.symm
    obtain ⟨_, _, _, _, j, hj, hch, _⟩ := chooseCpuMove_spec s r1 r2 hmarks hinv.1 ht h2
    have hje : s.board[j]? = some Cell.empty := (mem_emptyMoves.mp hj).2
    obtain ⟨hT, hF⟩ := sessionInv_after_move s j (j : Int) s.cpu s.human hinv hg'
      (Or.inr rfl) hmarks.other_cpu.symm hje _ rfl
    have happ : applyMove s (some (j : Int)) s.cpu =
        ({ s with board := s.board.set j s.cpu, lastMove := (j : Int) }, true) := by
      simp [applyMove, boardAt_natCast, hje]
    simp only [hch, happ]
    by_cases he : (endIfNeeded
        { s with board := s.board.set j s.cpu, lastMove := (j : Int) }).2 = true
    · rw [if_pos he]
      exact ⟨_, rfl, hT he⟩
    · rw [if_neg he]
      refine ⟨_, rfl, hF (by simpa using he) _ rfl rfl rfl ?_ rfl⟩
      exact (endIfNeeded_fields _).2.2.1

theorem sessionInv_pending (s : State) (n : Nat) (h : SessionInv s) :
    SessionInv { s with pending := n } := h

theorem sessionInv_newRound (s : State) (cpuStarts : Option Bool) (hm : Marks s.human s.cpu)
    (hcur : (newRound s cpuStarts).current = Cell.X) : SessionInv (newRound s cpuStarts) := by
  obtain ⟨h1, h2, _, _, _, _, _, _, h9, h10, _⟩ := newRound_fields s cpuStarts
  apply sessionInv_of_fields h1 h9 h10 hcur h2
  refine ⟨by simp, hm, by decide, Or.inl (by decide), fun _ => Or.inl ⟨rfl, by decide⟩⟩

theorem sessionInv_clickNewGame (s : State) (h : SessionInv s) :
    SessionInv (clickNewGame s) := by
  have hm : Marks s.human s.cpu := h.2.1
  unfold clickNewGame
  apply sessionInv_newRound s _ hm
  have hf := newRound_fields s (some (decide (s.human = Cell.O)))
  rcases hm with ⟨h1, h2⟩ | ⟨h1, h2⟩
  · have : decide (s.human = Cell.O) = false := by simp [h1]
    rw [this] at hf ⊢
    rw [hf.2.2.2.2.2.1 rfl, h1]
  · have : decide (s.human = Cell.O) = true := by simp [h1]
    rw [this] at hf ⊢
    rw [hf.2.2.2.2.1 rfl, h2]

theorem sessionInv_selectHuman (s : State) (c : Cell) (h : SessionInv s) :
    SessionInv (selectHuman s c) := by
  unfold selectHuman
  by_cases hc : c ≠ Cell.X ∧ c ≠ Cell.O
  · rw [if_pos hc]; exact h
  · rw [if_neg hc]
    have hm : Marks c (other c) := by
      cases c
      · exact absurd ⟨by simp, by simp⟩ hc
      · exact Or.inl ⟨rfl, rfl⟩
      · exact Or.inr ⟨rfl, rfl⟩
    apply sessionInv_newRound { s with human := c, cpu := other c } _ hm
    have hf := newRound_fields { s with human := c, cpu := other c }
      (some (decide (c = Cell.O)))
    rcases hm with ⟨h1, h2⟩ | ⟨h1, h2⟩
    · have : decide (c = Cell.O) = false := by simp [h1]
      rw [this] at hf ⊢
      rw [hf.2.2.2.2.2.1 rfl]
      exact h1
    · have : decide (c = Cell.O) = true := by simp [h1]
      rw [this] at hf ⊢
      rw [hf.2.2.2.2.1 rfl]
      exact h2

theorem sessionInv_init (saved : Tally) : SessionInv (init saved) := by
  unfold init
  apply sessionInv_newRound _ _ (Or.inl ⟨rfl, rfl⟩)
  exact (newRound_fields _ (some false)).2.2.2.2.2.1 rfl

theorem sessionInv_applyEvent (s t : State) (e : Event) (h : SessionInv s)
    (hr : e.drawsInRange) (he : applyEvent s e = some t) : SessionInv t := by
  cases e with
  | click idx =>
    simp only [applyEvent, Option.some.injEq] at he
    exact he ▸ sessionInv_tryHumanMove s idx h
  | timeout r1 r2 =>
    simp only [applyEvent, fireTimeout] at he
    split_ifs at he with hp
    obtain ⟨t', ht', hinv⟩ := sessionInv_cpuTimeout { s with pending := s.pending - 1 } r1 r2
      (sessionInv_pending s _ h) ⟨hr.2.2.1, hr.2.2.2⟩
    rw [ht'] at he
    exact Option.some.inj he ▸ hinv
  | newGame =>
    simp only [applyEvent, Option.some.injEq] at he
    exact he ▸ sessionInv_clickNewGame s h
  | side c =>
    simp only [applyEvent, Option.some.injEq] at he
    exact he ▸ sessionInv_selectHuman s c h
  | level d =>
    simp only [applyEvent, Option.some.injEq] at he
    exact he ▸ h
  | clearScore =>
    simp only [applyEvent, Option.some.injEq] at he
    exact he ▸ h

theorem sessionInv_runEvents :
    ∀ (es : List Event) (s t : State), SessionInv s → (∀ e ∈ es, e.drawsInRange) →
      runEvents s es = some t → SessionInv t
  | [], s, t, h, _, hr => by
    simp only [runEvents, Option.some.injEq] at hr
    exact hr ▸ h
  | e :: es, s, t, h, hd, hr => by
    simp only [runEvents] at hr
    cases he : applyEvent s e with
    | none => simp [he] at hr
    | some s' =>
      simp only [he] at hr
      exact sessionInv_runEvents es s' t
        (sessionInv_applyEvent s s' e h (hd e (List.mem_cons_self _ _)) he)
        (fun e' he' => hd e' (List.mem_cons_of_mem _ he')) hr

theorem sessionInv_of_reachable {s : State} (h : Reachable s) : SessionInv s := by
  obtain ⟨saved, es, hd, hr⟩ := h
  exact sessionInv_runEvents es _ s (sessionInv_init saved) hd hr

/-! ## C17 and C20: the engine on reachable states, alternation of turns -/

theorem reachable_openedState : Reachable openedState :=
  ⟨{ human := 0, cpu := 0, draw := 0 }, [Event.click 4],
    fun e he => by
      rw [List.mem_singleton] at he
      subst he
      trivial,
    by decide⟩

/-- C17. The decision engine is never invoked on a terminal board: in every
reachable state `gameOver` is false exactly when the board has no completed
line and an empty cell; so when the callback passes its guard the list of
moves is not empty, `bestMoveMinimax` returns an empty cell as index (not the
`-1` of its base cases), `chooseCpuMove` returns an empty cell and the
`applyMove` that follows succeeds; and a pending callback always returns. -/
theorem engine_never_on_terminal (s : State) (h : Reachable s) :
    (s.gameOver = false ↔
      (getWinner s.board).winner = Cell.empty ∧ ∃ i, i < 9 ∧ s.board[i]? = some Cell.empty) ∧
    (∀ r1 r2 : ℚ, 0 ≤ r2 → r2 < 1 → s.gameOver = false → s.current = s.cpu →
      (emptyMoves s.board).length ≠ 0 ∧
      (∃ i ∈ emptyMoves s.board, ∃ sc,
        bestMoveMinimax s.human s.cpu s.board s.cpu = some ⟨some (i : Int), sc⟩) ∧
      ∃ j ∈ emptyMoves s.board, chooseCpuMove r1 r2 s = some (some (j : Int)) ∧
        (applyMove s (some (j : Int)) s.cpu).2 = true) ∧
    (∀ r1 r2 : ℚ, 0 ≤ r2 → r2 < 1 → 0 < s.pending → ∃ t, fireTimeout r1 r2 s = some t) := by
  have hinv := sessionInv_of_reachable h
  have hlen : s.board.length = 9 := hinv.1
  have hm : Marks s.human s.cpu := hinv.2.1
  have hgo : s.gameOver = isTerminal s.board := hinv.2.2.1
  refine ⟨?_, ?_, ?_⟩
  · rw [hgo, isTerminal_false_iff]
    constructor
    · rintro ⟨hw, hf⟩
      obtain ⟨i, hi⟩ := List.exists_mem_of_ne_nil _ (emptyMoves_ne_nil hlen hf)
      exact ⟨hw, i, mem_emptyMoves.mp hi⟩
    · rintro ⟨hw, i, hi⟩
      exact ⟨hw, allFilled_false_of_mem (mem_emptyMoves.mpr hi)⟩
  · intro r1 r2 h0 h1 hg _
    have ht : isTerminal s.board = false := by rw [← hgo]; exact hg
    obtain ⟨i, hi, sc, hbest, j, hj, hch, _⟩ := chooseCpuMove_spec s r1 r2 hm hlen ht ⟨h0, h1⟩
    refine ⟨?_, ⟨i, hi, sc, hbest⟩, j, hj, hch, ?_⟩
    · have := List.length_pos_of_mem hi
      omega
    · simp [applyMove, boardAt_natCast, (mem_emptyMoves.mp hj).2]
  · intro r1 r2 h0 h1 hp
    obtain ⟨t, ht, _⟩ := sessionInv_cpuTimeout { s with pending := s.pending - 1 } r1 r2
      (sessionInv_pending s _ hinv) ⟨h0, h1⟩
    refine ⟨t, ?_⟩
    unfold fireTimeout
    rw [if_neg (by omega)]
    exact ht

/-- Witness for C17: after the human's opening move at the centre the CPU's
callback is pending and passes its guard. -/
theorem engine_never_on_terminal_witness :
    Reachable openedState ∧ openedState.gameOver = false ∧
    openedState.current = openedState.cpu ∧
    (emptyMoves openedState.board).length ≠ 0 ∧
    ∃ t, fireTimeout (1 / 2) (1 / 2) openedState = some t :=
  ⟨reachable_openedState, rfl, rfl,
    ((engine_never_on_terminal openedState reachable_openedState).2.1 (1 / 2) (1 / 2)
      (by norm_num) (by norm_num) rfl rfl).1,
    (engine_never_on_terminal openedState reachable_openedState).2.2 (1 / 2) (1 / 2)
      (by norm_num) (by norm_num) (by decide)⟩

/-- C20. Turns strictly alternate with X opening: in every reachable state
(stale callbacks included) the number of X cells equals the number of O cells
or exceeds it by one, and while `gameOver` is false `current` is `"X"` exactly
when the two counts are equal. -/
theorem turns_alternate (s : State) (h : Reachable s) :
    (s.board.count Cell.X = s.board.count Cell.O ∨
      s.board.count Cell.X = s.board.count Cell.O + 1) ∧
    (s.gameOver = false →
      (s.current = Cell.X ↔ s.board.count Cell.X = s.board.count Cell.O) ∧
      (s.current = Cell.O ↔ s.board.count Cell.X = s.board.count Cell.O + 1)) := by
  obtain ⟨_, _, _, hc, hturn⟩ := sessionInv_of_reachable h
  refine ⟨hc, fun hg => ?_⟩
  rcases hturn hg with ⟨h1, h2⟩ | ⟨h1, h2⟩
  · refine ⟨⟨fun _ => h2, fun _ => h1⟩, ⟨fun h => ?_, fun h => ?_⟩⟩
    · rw [h1] at h; exact Cell.noConfusion h
    · omega
  · refine ⟨⟨fun h => ?_, fun h => ?_⟩, ⟨fun _ => h2, fun _ => h1⟩⟩
    · rw [h1] at h; exact Cell.noConfusion h
    · omega

/-- Witness for C20: after the human's opening move X is one ahead and O is to
move. -/
theorem turns_alternate_witness :
    Reachable openedState ∧
    openedState.board.count Cell.X = openedState.board.count Cell.O + 1 ∧
    openedState.gameOver = false ∧
    (openedState.current = Cell.O ↔
      openedState.board.count Cell.X = openedState.board.count Cell.O + 1) :=
  ⟨reachable_openedState, by decide, rfl,
    ((turns_alternate openedState reachable_openedState).2 rfl).2⟩

/-! ## C18 and C19: termination and the depth adjustment -/

/-- C18. `bestMoveMinimax` terminates on every nine-cell board for either
player: a recursion depth of the number of empty cells (at most 9) is enough,
any larger bound gives the same result, and every recursive call is made on a
copy of the board that differs from it in exactly one cell, which was empty
and now holds the player's mark. -/
theorem minimax_terminates (human cpu : Cell) (b : List Cell) (player : Cell)
    (hp : player = Cell.X ∨ player = Cell.O) (hlen : b.length = 9) :
    (emptyMoves b).length ≤ 9 ∧
    (∃ r, bestMoveMinimaxAux human cpu ((emptyMoves b).length + 1) b player = some r ∧
      (∀ n, (emptyMoves b).length < n → bestMoveMinimaxAux human cpu n b player = some r) ∧
      bestMoveMinimax human cpu b player = some r) ∧
    (∀ i ∈ emptyMoves b,
      b[i]? = some Cell.empty ∧ (b.set i player)[i]? = some player ∧
      (∀ j : Nat, j ≠ i → (b.set i player)[j]? = b[j]?) ∧
      (b.set i player).length = 9 ∧
      (emptyMoves (b.set i player)).length + 1 = (emptyMoves b).length) := by
  have hpe : player ≠ Cell.empty := by rcases hp with h | h <;> simp [h]
  refine ⟨emptyMoves_length_le b, ?_, ?_⟩
  · obtain ⟨ix, v, h⟩ := aux_fin human cpu ((emptyMoves b).length + 1) b player hpe hlen
      (Nat.lt_succ_self _)
    refine ⟨_, h, ?_, ?_⟩
    · intro n hn
      rw [← h]
      exact aux_fuel_indep human cpu n _ b player hpe hn (Nat.lt_succ_self _)
    · rw [← h]
      exact bestMoveMinimax_eq_aux human cpu b player _ hpe (Nat.lt_succ_self _)
  · intro i hi
    have hie := (mem_emptyMoves.mp hi).2
    have hlt : i < b.length := by
      have := (mem_emptyMoves.mp hi).1
      omega
    refine ⟨hie, ?_, ?_, by simpa using hlen, emptyMoves_length_set hpe hi⟩
    · rw [List.getElem?_set_self hlt]
    · intro j hj
      exact List.getElem?_set_ne (fun e => hj e.symm)

/-- Witness for C18 on the empty board with X to move. -/
theorem minimax_terminates_witness :
    (Cell.X = Cell.X ∨ Cell.X = Cell.O) ∧ (List.replicate 9 Cell.empty).length = 9 ∧
    ∃ r, bestMoveMinimaxAux Cell.X Cell.O
        ((emptyMoves (List.replicate 9 Cell.empty)).length + 1)
        (List.replicate 9 Cell.empty) Cell.X = some r ∧
      (∀ n, (emptyMoves (List.replicate 9 Cell.empty)).length < n →
        bestMoveMinimaxAux Cell.X Cell.O n (List.replicate 9 Cell.empty) Cell.X = some r) ∧
      bestMoveMinimax Cell.X Cell.O (List.replicate 9 Cell.empty) Cell.X = some r :=
  ⟨Or.inl rfl, rfl,
    (minimax_terminates Cell.X Cell.O (List.replicate 9 Cell.empty) Cell.X (Or.inl rfl) rfl).2.1⟩

/-- C19. Depth adjustment preserves the game-theoretic value: on every
nine-cell board, for either player, `bestMoveMinimax` returns a finite integer
score in `[-10, 10]` whose sign is the value of plain minimax (same base
cases, no depth adjustment), and the adjustment of a child's score keeps its
sign: it never turns a win or a loss into 0 nor flips it. -/
theorem depth_adjustment_preserves_value (human cpu : Cell) (b : List Cell) (player : Cell)
    (hp : player = Cell.X ∨ player = Cell.O) (hlen : b.length = 9) :
    (∃ ix v, bestMoveMinimax human cpu b player = some ⟨ix, Score.fin v⟩ ∧
      -10 ≤ v ∧ v ≤ 10 ∧
      (0 < v ↔ plainMinimax human cpu b player = 1) ∧
      (v = 0 ↔ plainMinimax human cpu b player = 0) ∧
      (v < 0 ↔ plainMinimax human cpu b player = -1)) ∧
    (∀ i ∈ emptyMoves b, ∃ ix w a,
      bestMoveMinimax human cpu (b.set i player) (other player) = some ⟨ix, Score.fin w⟩ ∧
      scoreAdjusted (Score.fin w) = Score.fin a ∧
      (0 < a ↔ 0 < w) ∧ (a = 0 ↔ w = 0) ∧ (a < 0 ↔ w < 0)) := by
  have hpe : player ≠ Cell.empty := by rcases hp with h | h <;> simp [h]
  constructor
  · obtain ⟨ix, h⟩ := bestMoveMinimax_fin human cpu b player hpe hlen
    obtain ⟨h1, h2, _⟩ := valueAt_bounds human cpu b player hpe hlen
    have hs := plainMinimax_eq_sgn human cpu b player hpe hlen
    refine ⟨ix, _, h, h1, h2, ?_, ?_, ?_⟩
    all_goals
      rw [hs]
      unfold sgn
      constructor
      · intro hv
        split_ifs <;> omega
      · intro hv
        split_ifs at hv <;> omega
  · intro i hi
    obtain ⟨ix, h⟩ := bestMoveMinimax_fin human cpu (b.set i player) (other player)
      (other_ne_empty player) (by simpa using hlen)
    obtain ⟨s1, s2, s3⟩ := childValue_sign human cpu b player i hpe hlen hi
    exact ⟨ix, _, _, h, scoreAdjusted_fin _, s1, s3, s2⟩

/-- Witness for C19 on the board where O (CPU) can complete the diagonal. -/
theorem depth_adjustment_preserves_value_witness :
    (Cell.O = Cell.X ∨ Cell.O = Cell.O) ∧
    [Cell.O, Cell.X, Cell.X, Cell.empty, Cell.O, Cell.X, Cell.empty, Cell.O,
      Cell.empty].length = 9 ∧
    plainMinimax Cell.X Cell.O [Cell.O, Cell.X, Cell.X, Cell.empty, Cell.O, Cell.X, Cell.empty,
      Cell.O, Cell.empty] Cell.O = 1 ∧
    ∃ ix v, bestMoveMinimax Cell.X Cell.O [Cell.O, Cell.X, Cell.X, Cell.empty, Cell.O, Cell.X,
        Cell.empty, Cell.O, Cell.empty] Cell.O = some ⟨ix, Score.fin v⟩ ∧
      -10 ≤ v ∧ v ≤ 10 ∧
      (0 < v ↔ plainMinimax Cell.X Cell.O [Cell.O, Cell.X, Cell.X, Cell.empty, Cell.O, Cell.X,
        Cell.empty, Cell.O, Cell.empty] Cell.O = 1) ∧
      (v = 0 ↔ plainMinimax Cell.X Cell.O [Cell.O, Cell.X, Cell.X, Cell.empty, Cell.O, Cell.X,
        Cell.empty, Cell.O, Cell.empty] Cell.O = 0) ∧
      (v < 0 ↔ plainMinimax Cell.X Cell.O [Cell.O, Cell.X, Cell.X, Cell.empty, Cell.O, Cell.X,
        Cell.empty, Cell.O, Cell.empty] Cell.O = -1) :=
  ⟨Or.inr rfl, rfl, by decide,
    (depth_adjustment_preserves_value Cell.X Cell.O
      [Cell.O, Cell.X, Cell.X, Cell.empty, Cell.O, Cell.X, Cell.empty, Cell.O, Cell.empty]
      Cell.O (Or.inr rfl) rfl).1⟩

/-! ## Lemmas: runs of the session on hard difficulty -/

theorem cpuTimeout_of_choice (s : State) (r1 r2 : ℚ) (idx : Option Int)
    (hg : s.gameOver = false) (hc : s.current = s.cpu)
    (hch : chooseCpuMove r1 r2 s = some idx) :
    cpuTimeout r1 r2 s = some (afterCpuMove s idx) := by
  unfold cpuTimeout afterCpuMove
  rw [if_neg (by simp [hg, hc]), hch]
  simp only
  split_ifs <;> rfl

theorem scenario_reply_1 :
    bestMoveMinimax Cell.X Cell.O
      [Cell.empty, Cell.empty, Cell.empty, Cell.empty, Cell.X, Cell.empty, Cell.empty,
        Cell.empty, Cell.empty] Cell.O = some ⟨some 0, Score.fin 0⟩ :=
  certMove_sound Cell.X Cell.O 10 _ Cell.O Cell.X 0 0 (by decide) rfl (by decide!)

theorem scenario_reply_2 :
    bestMoveMinimax Cell.X Cell.O
      [Cell.O, Cell.empty, Cell.empty, Cell.empty, Cell.X, Cell.empty, Cell.empty, Cell.empty,
        Cell.X] Cell.O = some ⟨some 2, Score.fin 0⟩ :=
  certMove_sound Cell.X Cell.O 10 _ Cell.O Cell.X 2 0 (by decide) rfl (by decide!)

theorem scenario_reply_3 :
    bestMoveMinimax Cell.X Cell.O
      [Cell.O, Cell.empty, Cell.O, Cell.empty, Cell.X, Cell.empty, Cell.X, Cell.empty,
        Cell.X] Cell.O = some ⟨some 1, Score.fin 9⟩ :=
  certMove_sound Cell.X Cell.O 10 _ Cell.O Cell.X 1 9 (by decide) rfl (by decide!)

theorem fireTimeout_playing (board : List Cell) (lastMove : Int) (pending : Nat) (score : Tally)
    (r1 r2 : ℚ) (r : Result) (hne : (emptyMoves board).length ≠ 0)
    (hb : bestMoveMinimax Cell.X Cell.O board Cell.O = some r) :
    fireTimeout r1 r2 (playing board Cell.O lastMove (pending + 1) score)
      = some (afterCpuMove (playing board Cell.O lastMove pending score) r.idx) := by
  have hch : chooseCpuMove r1 r2 (playing board Cell.O lastMove pending score) = some r.idx := by
    unfold chooseCpuMove
    simp only [playing]
    rw [if_neg hne, hb]
    simp
  have hs : ({ playing board Cell.O lastMove (pending + 1) score with
      pending := (playing board Cell.O lastMove (pending + 1) score).pending - 1 } : State)
      = playing board Cell.O lastMove pending score := rfl
  unfold fireTimeout
  rw [if_neg (by simp [playing]), hs]
  exact cpuTimeout_of_choice (playing board Cell.O lastMove pending score) r1 r2 r.idx rfl rfl
    hch

theorem endIfNeeded_of_not_terminal (s : State) (h : isTerminal s.board = false) :
    endIfNeeded s = (s, false) := by
  obtain ⟨hw, hf⟩ := isTerminal_false_iff.mp h
  unfold endIfNeeded isDraw
  simp [hw, hf]

theorem tryHumanMove_playing (b : List Cell) (lm : Int) (pending : Nat) (score : Tally)
    (i : Nat) (hi : b[i]? = some Cell.empty) (ht : isTerminal (b.set i Cell.X) = false) :
    tryHumanMove (playing b Cell.X lm pending score) (i : Int)
      = playing (b.set i Cell.X) Cell.O (i : Int) (pending + 1) score := by
  have ha : applyMove (playing b Cell.X lm pending score) (some (i : Int)) Cell.X
      = (playing (b.set i Cell.X) Cell.X (i : Int) pending score, true) := by
    simp [applyMove, boardAt, playing, hi]
  have he := endIfNeeded_of_not_terminal (playing (b.set i Cell.X) Cell.X (i : Int) pending score)
    ht
  unfold tryHumanMove
  have h1 : (playing b Cell.X lm pending score).gameOver = false := rfl
  have h2 : (playing b Cell.X lm pending score).current
      = (playing b Cell.X lm pending score).human := rfl
  have h3 : (playing b Cell.X lm pending score).human = Cell.X := rfl
  rw [h1, h2, h3, ha]
  simp only [he]
  simp [maybeCpuMove, playing]

theorem afterCpuMove_playing (b : List Cell) (lm : Int) (pending : Nat) (score : Tally)
    (j : Nat) (hj : b[j]? = some Cell.empty) (ht : isTerminal (b.set j Cell.O) = false) :
    afterCpuMove (playing b Cell.O lm pending score) (some (j : Int))
      = playing (b.set j Cell.O) Cell.X (j : Int) pending score := by
  have ha : applyMove (playing b Cell.O lm pending score) (some (j : Int)) Cell.O
      = (playing (b.set j Cell.O) Cell.O (j : Int) pending score, true) := by
    simp [applyMove, boardAt, playing, hj]
  have he := endIfNeeded_of_not_terminal (playing (b.set j Cell.O) Cell.O (j : Int) pending score)
    ht
  unfold afterCpuMove
  have h3 : (playing b Cell.O lm pending score).cpu = Cell.O := rfl
  rw [h3, ha]
  simp only [he]
  simp [playing]

theorem runEvents_cons_some {s t : State} {e : Event} (es : List Event)
    (h : applyEvent s e = some t) : runEvents s (e :: es) = runEvents t es := by
  show (match applyEvent s e with
    | some s' => runEvents s' es
    | none => none) = _
  rw [h]

theorem init_eq_playing (saved : Tally) :
    init saved = playing (List.replicate 9 Cell.empty) Cell.X (-1) 0 saved := by
  simp [init, newRound, maybeCpuMove, playing]

theorem scenario_step_1 (saved : Tally) (r1 r2 : ℚ) :
    runEvents (init saved)
      [Event.click 4, Event.timeout r1 r2]
      = some (playing [Cell.O, Cell.empty, Cell.empty, Cell.empty, Cell.X,
      Cell.empty, Cell.empty, Cell.empty, Cell.empty] Cell.X 0 0 saved) := by
  have h0 := init_eq_playing saved
  have h1 : tryHumanMove (playing [Cell.empty, Cell.empty, Cell.empty, Cell.empty, Cell.empty,
      Cell.empty, Cell.empty, Cell.empty, Cell.empty] Cell.X (-1) 0 saved) 4
      = playing [Cell.empty, Cell.empty, Cell.empty, Cell.empty, Cell.X,
      Cell.empty, Cell.empty, Cell.empty, Cell.empty] Cell.O 4 1 saved :=
    tryHumanMove_playing [Cell.empty, Cell.empty, Cell.empty, Cell.empty, Cell.empty,
      Cell.empty, Cell.empty, Cell.empty, Cell.empty] (-1) 0 saved 4 (by decide) (by decide)
  have h2 : fireTimeout r1 r2 (playing [Cell.empty, Cell.empty, Cell.empty, Cell.empty, Cell.X,
      Cell.empty, Cell.empty, Cell.empty, Cell.empty] Cell.O 4 1 saved)
      = some (afterCpuMove (playing [Cell.empty, Cell.empty, Cell.empty, Cell.empty, Cell.X,
      Cell.empty, Cell.empty, Cell.empty, Cell.empty] Cell.O 4 0 saved) (some 0)) :=
    fireTimeout_playing _ 4 0 saved r1 r2 _ (by decide) scenario_reply_1
  have h3 : afterCpuMove (playing [Cell.empty, Cell.empty, Cell.empty, Cell.empty, Cell.X,
      Cell.empty, Cell.empty, Cell.empty, Cell.empty] Cell.O 4 0 saved) (some 0)
      = playing [Cell.O, Cell.empty, Cell.empty, Cell.empty, Cell.X,
      Cell.empty, Cell.empty, Cell.empty, Cell.empty] Cell.X 0 0 saved :=
    afterCpuMove_playing [Cell.empty, Cell.empty, Cell.empty, Cell.empty, Cell.X,
      Cell.empty, Cell.empty, Cell.empty, Cell.empty] 4 0 saved 0 (by decide)
      (by decide)
  have a1 : applyEvent (playing [Cell.empty, Cell.empty, Cell.empty, Cell.empty, Cell.empty,
      Cell.empty, Cell.empty, Cell.empty, Cell.empty] Cell.X (-1) 0 saved) (Event.click 4)
      = some (playing [Cell.empty, Cell.empty, Cell.empty, Cell.empty, Cell.X,
      Cell.empty, Cell.empty, Cell.empty, Cell.empty] Cell.O 4 1 saved) := by
    show some (tryHumanMove _ _) = _
    rw [h1]
  have a2 : applyEvent (playing [Cell.empty, Cell.empty, Cell.empty, Cell.empty, Cell.X,
      Cell.empty, Cell.empty, Cell.empty, Cell.empty] Cell.O 4 1 saved) (Event.timeout r1 r2)
      = some (playing [Cell.O, Cell.empty, Cell.empty, Cell.empty, Cell.X,
      Cell.empty, Cell.empty, Cell.empty, Cell.empty] Cell.X 0 0 saved) := by
    show fireTimeout r1 r2 _ = _
    rw [h2, h3]
  rw [h0]
  exact (runEvents_cons_some _ a1).trans ((runEvents_cons_some _ a2).trans rfl)

theorem scenario_step_2 (saved : Tally) (r1 r2 : ℚ) :
    runEvents (playing [Cell.O, Cell.empty, Cell.empty, Cell.empty, Cell.X,
      Cell.empty, Cell.empty, Cell.empty, Cell.empty] Cell.X 0 0 saved)
      [Event.click 8, Event.timeout r1 r2]
      = some (playing [Cell.O, Cell.empty, Cell.O, Cell.empty, Cell.X,
      Cell.empty, Cell.empty, Cell.empty, Cell.X] Cell.X 2 0 saved) := by
  have h1 : tryHumanMove (playing [Cell.O, Cell.empty, Cell.empty, Cell.empty, Cell.X,
      Cell.empty, Cell.empty, Cell.empty, Cell.empty] Cell.X (0) 0 saved) 8
      = playing [Cell.O, Cell.empty, Cell.empty, Cell.empty, Cell.X,
      Cell.empty, Cell.empty, Cell.empty, Cell.X] Cell.O 8 1 saved :=
    tryHumanMove_playing [Cell.O, Cell.empty, Cell.empty, Cell.empty, Cell.X,
      Cell.empty, Cell.empty, Cell.empty, Cell.empty] (0) 0 saved 8 (by decide) (by decide)
  have h2 : fireTimeout r1 r2 (playing [Cell.O, Cell.empty, Cell.empty, Cell.empty, Cell.X,
      Cell.empty, Cell.empty, Cell.empty, Cell.X] Cell.O 8 1 saved)
      = some (afterCpuMove (playing [Cell.O, Cell.empty, Cell.empty, Cell.empty, Cell.X,
      Cell.empty, Cell.empty, Cell.empty, Cell.X] Cell.O 8 0 saved) (some 2)) :=
    fireTimeout_playing _ 8 0 saved r1 r2 _ (by decide) scenario_reply_2
  have h3 : afterCpuMove (playing [Cell.O, Cell.empty, Cell.empty, Cell.empty, Cell.X,
      Cell.empty, Cell.empty, Cell.empty, Cell.X] Cell.O 8 0 saved) (some 2)
      = playing [Cell.O, Cell.empty, Cell.O, Cell.empty, Cell.X,
      Cell.empty, Cell.empty, Cell.empty, Cell.X] Cell.X 2 0 saved :=
    afterCpuMove_playing [Cell.O, Cell.empty, Cell.empty, Cell.empty, Cell.X,
      Cell.empty, Cell.empty, Cell.empty, Cell.X] 8 0 saved 2 (by decide)
      (by decide)
  have a1 : applyEvent ((playing [Cell.O, Cell.empty, Cell.empty, Cell.empty, Cell.X,
      Cell.empty, Cell.empty, Cell.empty, Cell.empty] Cell.X 0 0 saved)) (Event.click 8)
      = some (playing [Cell.O, Cell.empty, Cell.empty, Cell.empty, Cell.X,
      Cell.empty, Cell.empty, Cell.empty, Cell.X] Cell.O 8 1 saved) := by
    show some (tryHumanMove _ _) = _
    rw [h1]
  have a2 : applyEvent (playing [Cell.O, Cell.empty, Cell.empty, Cell.empty, Cell.X,
      Cell.empty, Cell.empty, Cell.empty, Cell.X] Cell.O 8 1 saved) (Event.timeout r1 r2)
      = some (playing [Cell.O, Cell.empty, Cell.O, Cell.empty, Cell.X,
      Cell.empty, Cell.empty, Cell.empty, Cell.X] Cell.X 2 0 saved) := by
    show fireTimeout r1 r2 _ = _
    rw [h2, h3]
  exact (runEvents_cons_some _ a1).trans ((runEvents_cons_some _ a2).trans rfl)

theorem scenario_step_3 (saved : Tally) (r1 r2 : ℚ) :
    runEvents (playing [Cell.O, Cell.empty, Cell.O, Cell.empty, Cell.X,
      Cell.empty, Cell.empty, Cell.empty, Cell.X] Cell.X 2 0 saved)
      [Event.click 6, Event.timeout r1 r2]
      = some (scenarioEnd saved) := by
  have h1 : tryHumanMove (playing [Cell.O, Cell.empty, Cell.O, Cell.empty, Cell.X,
      Cell.empty, Cell.empty, Cell.empty, Cell.X] Cell.X (2) 0 saved) 6
      = playing [Cell.O, Cell.empty, Cell.O, Cell.empty, Cell.X,
      Cell.empty, Cell.X, Cell.empty, Cell.X] Cell.O 6 1 saved :=
    tryHumanMove_playing [Cell.O, Cell.empty, Cell.O, Cell.empty, Cell.X,
      Cell.empty, Cell.empty, Cell.empty, Cell.X] (2) 0 saved 6 (by decide) (by decide)
  have h2 : fireTimeout r1 r2 (playing [Cell.O, Cell.empty, Cell.O, Cell.empty, Cell.X,
      Cell.empty, Cell.X, Cell.empty, Cell.X] Cell.O 6 1 saved)
      = some (afterCpuMove (playing [Cell.O, Cell.empty, Cell.O, Cell.empty, Cell.X,
      Cell.empty, Cell.X, Cell.empty, Cell.X] Cell.O 6 0 saved) (some 1)) :=
    fireTimeout_playing _ 6 0 saved r1 r2 _ (by decide) scenario_reply_3
  have h3 : afterCpuMove (playing [Cell.O, Cell.empty, Cell.O, Cell.empty, Cell.X,
      Cell.empty, Cell.X, Cell.empty, Cell.X] Cell.O 6 0 saved) (some 1)
      = scenarioEnd saved :=
    by
      have hw : getWinner [Cell.O, Cell.O, Cell.O, Cell.empty, Cell.X,
      Cell.empty, Cell.X, Cell.empty, Cell.X]
          = { winner := Cell.O, line := some (0, 1, 2) } := by decide
      simp [afterCpuMove, applyMove, boardAt, playing, endIfNeeded, hw, scenarioEnd]
  have a1 : applyEvent ((playing [Cell.O, Cell.empty, Cell.O, Cell.empty, Cell.X,
      Cell.empty, Cell.empty, Cell.empty, Cell.X] Cell.X 2 0 saved)) (Event.click 6)
      = some (playing [Cell.O, Cell.empty, Cell.O, Cell.empty, Cell.X,
      Cell.empty, Cell.X, Cell.empty, Cell.X] Cell.O 6 1 saved) := by
    show some (tryHumanMove _ _) = _
    rw [h1]
  have a2 : applyEvent (playing [Cell.O, Cell.empty, Cell.O, Cell.empty, Cell.X,
      Cell.empty, Cell.X, Cell.empty, Cell.X] Cell.O 6 1 saved) (Event.timeout r1 r2)
      = some (scenarioEnd saved) := by
    show fireTimeout r1 r2 _ = _
    rw [h2, h3]
  exact (runEvents_cons_some _ a1).trans ((runEvents_cons_some _ a2).trans rfl)

theorem runEvents_append :
    ∀ (es fs : List Event) (s t : State), runEvents s es = some t →
      runEvents s (es ++ fs) = runEvents t fs
  | [], fs, s, t, h => by
    simp only [runEvents, Option.some.injEq] at h
    rw [h]; rfl
  | e :: es, fs, s, t, h => by
    cases he : applyEvent s e with
    | none =>
      have : runEvents s (e :: es) = none := by
        show (match applyEvent s e with
          | some s' => runEvents s' es
          | none => none) = _
        rw [he]
      rw [this] at h
      cases h
    | some s' =>
      rw [runEvents_cons_some es he] at h
      rw [List.cons_append, runEvents_cons_some (es ++ fs) he]
      exact runEvents_append es fs s' t h

/-- The run of the scenario with the human moves 4, 8 and 6. -/
theorem scenario_run_cpu_win (saved : Tally) (r1 r2 r3 r4 r5 r6 : ℚ) :
    runEvents (init saved)
      [Event.click 4, Event.timeout r1 r2, Event.click 8, Event.timeout r3 r4, Event.click 6,
        Event.timeout r5 r6] = some (scenarioEnd saved) := by
  have h1 := scenario_step_1 saved r1 r2
  have h2 := scenario_step_2 saved r3 r4
  have h3 := scenario_step_3 saved r5 r6
  have h12 := (runEvents_append _ [Event.click 8, Event.timeout r3 r4] _ _ h1).trans h2
  exact (runEvents_append _ [Event.click 6, Event.timeout r5 r6] _ _ h12).trans h3

/-- The run of the scenario with the human moves 4, 8, 6 and 5. -/
theorem scenario_run (saved : Tally) (r1 r2 r3 r4 r5 r6 : ℚ) :
    runEvents (init saved)
      [Event.click 4, Event.timeout r1 r2, Event.click 8, Event.timeout r3 r4, Event.click 6,
        Event.timeout r5 r6, Event.click 5] = some (scenarioEnd saved) := by
  have h1 := scenario_step_1 saved r1 r2
  have h2 := scenario_step_2 saved r3 r4
  have h3 := scenario_step_3 saved r5 r6
  have h12 := (runEvents_append _ [Event.click 8, Event.timeout r3 r4] _ _ h1).trans h2
  have h123 := (runEvents_append _ [Event.click 6, Event.timeout r5 r6] _ _ h12).trans h3
  have h := runEvents_append _ [Event.click 5] _ _ h123
  exact h.trans (runEvents_cons_some [] (t := scenarioEnd saved) rfl)

/-! ## C15: the scenario 4, 8, 6, 5 against the hard CPU -/

/-- C15, counterexample. On a fresh session with human X and the hard CPU O,
the human moves 4, 8, 6, 5 with the deferred CPU moves in between do not end in
a draw: the CPU's last move is 1, not 3, it completes the line 0, 1, 2, cell 3
stays empty and the board is not full. -/
theorem scenario_draw_counterexample :
    ∃ t, runEvents (init { human := 0, cpu := 0, draw := 0 })
        [Event.click 4, Event.timeout (1 / 2) (1 / 2), Event.click 8,
          Event.timeout (1 / 2) (1 / 2), Event.click 6, Event.timeout (1 / 2) (1 / 2),
          Event.click 5] = some t ∧
      t.gameOver = true ∧ t.lastMove = 1 ∧ t.lastMove ≠ 3 ∧
      t.board = [Cell.O, Cell.O, Cell.O, Cell.empty, Cell.X, Cell.empty, Cell.X, Cell.empty,
        Cell.X] ∧
      allFilled t.board = false ∧ t.winningLine ≠ none ∧
      (getWinner t.board).winner = t.cpu :=
  ⟨scenarioEnd { human := 0, cpu := 0, draw := 0 },
    scenario_run _ (1 / 2) (1 / 2) (1 / 2) (1 / 2) (1 / 2) (1 / 2),
    rfl, rfl, by decide, rfl, by decide, by decide, by decide⟩

/-- C15, amended. Scenario, human X vs hard CPU O: from the state after
`init()`, whatever the saved score and the random draws, when the human plays
4, 8, 6 through `tryHumanMove` and each deferred CPU move fires in between, the
CPU's replies are 0, then 2, then 1; the reply 1 completes the line 0, 1, 2, so
the session is terminal as a CPU win: `gameOver` true, `winningLine` that line,
cells 3, 5 and 7 empty, `score.cpu` after one `+= 1` (one more CPU win when
the counter was below `2 ^ 53`); the human's move 5 that follows changes
nothing. -/
theorem scenario_cpu_wins (saved : Tally) (r1 r2 r3 r4 r5 r6 : ℚ) :
    init saved = playing (List.replicate 9 Cell.empty) Cell.X (-1) 0 saved ∧
    runEvents (init saved) [Event.click 4, Event.timeout r1 r2]
      = some (playing [Cell.O, Cell.empty, Cell.empty, Cell.empty, Cell.X, Cell.empty,
          Cell.empty, Cell.empty, Cell.empty] Cell.X 0 0 saved) ∧
    runEvents (init saved)
        [Event.click 4, Event.timeout r1 r2, Event.click 8, Event.timeout r3 r4]
      = some (playing [Cell.O, Cell.empty, Cell.O, Cell.empty, Cell.X, Cell.empty,
          Cell.empty, Cell.empty, Cell.X] Cell.X 2 0 saved) ∧
    runEvents (init saved)
        [Event.click 4, Event.timeout r1 r2, Event.click 8, Event.timeout r3 r4,
          Event.click 6, Event.timeout r5 r6]
      = some (scenarioEnd saved) ∧
    tryHumanMove (scenarioEnd saved) 5 = scenarioEnd saved ∧
    (scenarioEnd saved).gameOver = true ∧
    (scenarioEnd saved).lastMove = 1 ∧
    (scenarioEnd saved).winningLine = some (0, 1, 2) ∧
    getWinner (scenarioEnd saved).board = { winner := Cell.O, line := some (0, 1, 2) } ∧
    allFilled (scenarioEnd saved).board = false ∧
    (scenarioEnd saved).score = { saved with cpu := addOne saved.cpu } ∧
    (saved.cpu < 2 ^ 53 → (scenarioEnd saved).score = { saved with cpu := saved.cpu + 1 }) := by
  have h1 := scenario_step_1 saved r1 r2
  have h2 := scenario_step_2 saved r3 r4
  have h12 := (runEvents_append _ [Event.click 8, Event.timeout r3 r4] _ _ h1).trans h2
  have h123 := scenario_run_cpu_win saved r1 r2 r3 r4 r5 r6
  have hb : (scenarioEnd saved).board = [Cell.O, Cell.O, Cell.O, Cell.empty, Cell.X, Cell.empty,
      Cell.X, Cell.empty, Cell.X] := rfl
  refine ⟨init_eq_playing saved, h1, h12, h123, rfl, rfl, rfl, rfl, ?_, ?_, rfl, ?_⟩
  · rw [hb]
    decide
  · rw [hb]
    decide
  · intro hlt
    show ({ saved with cpu := addOne saved.cpu } : Tally) = _
    rw [addOne_of_lt hlt]

/-- Witness for C15: a session that starts with an empty score table. -/
theorem scenario_cpu_wins_witness :
    (0 : ℕ) < 2 ^ 53 ∧
    (scenarioEnd { human := 0, cpu := 0, draw := 0 }).score
      = { human := 0, cpu := 1, draw := 0 } :=
  ⟨by norm_num,
    (scenario_cpu_wins { human := 0, cpu := 0, draw := 0 } (1 / 2) (1 / 2) (1 / 2) (1 / 2)
      (1 / 2) (1 / 2)).2.2.2.2.2.2.2.2.2.2.2 (by norm_num)⟩

/-! ## C13: a counter at `2 ^ 53` -/

/-- C13, counterexample. The CPU (O) has just completed the top row and
`score.cpu` holds `2 ^ 53`: `endIfNeeded` returns true, `getWinner` reports the
CPU's mark, and no counter grows, since the double nearest to `2 ^ 53 + 1` is
`2 ^ 53`. A session whose stored score has `cpu = 2 ^ 53` reaches this in the
round of the human moves 4, 8, 6. -/
theorem score_accounting_counterexample :
    Marks saturatedState.human saturatedState.cpu ∧
    (getWinner saturatedState.board).winner = saturatedState.cpu ∧
    (endIfNeeded saturatedState).2 = true ∧
    (endIfNeeded saturatedState).1.score = saturatedState.score ∧
    ∃ t, runEvents (init { human := 0, cpu := 2 ^ 53, draw := 0 })
        [Event.click 4, Event.timeout (1 / 2) (1 / 2), Event.click 8,
          Event.timeout (1 / 2) (1 / 2), Event.click 6, Event.timeout (1 / 2) (1 / 2)]
        = some t ∧
      t.gameOver = true ∧ (getWinner t.board).winner = t.cpu ∧
      t.score = { human := 0, cpu := 2 ^ 53, draw := 0 } := by
  have hw : getWinner [Cell.O, Cell.O, Cell.O, Cell.empty, Cell.X, Cell.empty, Cell.X,
      Cell.empty, Cell.X] = { winner := Cell.O, line := some (0, 1, 2) } := by decide
  have he : endIfNeeded saturatedState
      = ({ saturatedState with gameOver := true, winningLine := some (0, 1, 2) }, true) := by
    unfold endIfNeeded
    simp only [saturatedState, hw]
    rw [if_pos (by decide), if_neg (by decide), addOne_saturated]
  refine ⟨Or.inl ⟨rfl, rfl⟩, by decide, ?_, ?_,
    scenarioEnd { human := 0, cpu := 2 ^ 53, draw := 0 },
    scenario_run_cpu_win _ (1 / 2) (1 / 2) (1 / 2) (1 / 2) (1 / 2) (1 / 2), rfl, by decide, ?_⟩
  · rw [he]
  · rw [he]
  · show ({ human := 0, cpu := addOne (2 ^ 53), draw := 0 } : Tally) = _
    rw [addOne_saturated]

/-! ## C14: a pending callback after a round reset -/

theorem isTerminal_single (j : Nat) (hj : j < 9) (c : Cell) :
    isTerminal ((List.replicate 9 Cell.empty).set j c) = false := by
  interval_cases j <;> cases c <;> decide

theorem fireTimeout_guard (s : State) (r1 r2 : ℚ) (hp : s.pending ≠ 0)
    (hc : s.gameOver = true ∨ s.current ≠ s.cpu) :
    fireTimeout r1 r2 s = some { s with pending := s.pending - 1 } := by
  unfold fireTimeout cpuTimeout
  rw [if_neg hp, if_pos hc]

theorem fireTimeout_fresh_board (s : State) (r1 r2 : ℚ) (hp : s.pending ≠ 0)
    (hb : s.board = List.replicate 9 Cell.empty) (hg : s.gameOver = false)
    (hc : s.current = s.cpu) (hm : Marks s.human s.cpu) (h2 : 0 ≤ r2 ∧ r2 < 1) :
    ∃ (j : Nat) (t : State), j < 9 ∧ fireTimeout r1 r2 s = some t ∧
      t.board = (List.replicate 9 Cell.empty).set j s.cpu ∧ t.lastMove = (j : Int) ∧
      t.current = s.human ∧ t.gameOver = false := by
  have ht : isTerminal s.board = false := by rw [hb]; decide
  obtain ⟨_, _, _, _, j, hj, hch, _⟩ :=
    chooseCpuMove_spec { s with pending := s.pending - 1 } r1 r2 hm (by rw [hb]; rfl) ht h2
  obtain ⟨hj9, hje⟩ := mem_emptyMoves.mp hj
  have hfire : fireTimeout r1 r2 s
      = some (afterCpuMove { s with pending := s.pending - 1 } (some (j : Int))) := by
    unfold fireTimeout
    rw [if_neg hp]
    exact cpuTimeout_of_choice { s with pending := s.pending - 1 } r1 r2 _ hg hc hch
  have happ : applyMove { s with pending := s.pending - 1 } (some (j : Int)) s.cpu =
      ({ s with pending := s.pending - 1, board := s.board.set j s.cpu, lastMove := (j : Int) },
        true) := by
    have hje' : s.board[j]? = some Cell.empty := hje
    simp [applyMove, boardAt_natCast, hje']
  have hend := endIfNeeded_of_not_terminal
    { s with pending := s.pending - 1, board := s.board.set j s.cpu, lastMove := (j : Int) }
    (by
      show isTerminal (s.board.set j s.cpu) = false
      rw [hb]
      exact isTerminal_single j hj9 s.cpu)
  refine ⟨j, _, hj9, hfire, ?_, ?_, ?_, ?_⟩
  all_goals
    unfold afterCpuMove
    have hcpu : ({ s with pending := s.pending - 1 } : State).cpu = s.cpu := rfl
    rw [hcpu, happ]
    simp only [hend]
    simp [hb, hg]

theorem reachable_cpuOpensState : Reachable cpuOpensState :=
  ⟨{ human := 0, cpu := 0, draw := 0 }, [Event.side Cell.O],
    fun e he => by
      rw [List.mem_singleton] at he
      subst he
      trivial,
    by decide⟩

theorem cpuOpens_stale_fire (r1 r2 : ℚ) :
    fireTimeout r1 r2 (newRound cpuOpensState (some true))
      = some { cpuOpensState with
          board := [Cell.X, Cell.empty, Cell.empty, Cell.empty, Cell.empty, Cell.empty,
            Cell.empty, Cell.empty, Cell.empty],
          current := Cell.O, lastMove := 0 } := by
  have hR : newRound cpuOpensState (some true) = { cpuOpensState with pending := 2 } := by
    decide
  have hch : chooseCpuMove r1 r2 cpuOpensState = some (some 0) := by
    unfold chooseCpuMove
    simp only [cpuOpensState]
    rw [if_neg (by decide), selfPlay_OX_1]
    simp
  have hfire : fireTimeout r1 r2 { cpuOpensState with pending := 2 }
      = cpuTimeout r1 r2 cpuOpensState := by
    unfold fireTimeout
    rw [if_neg (by decide)]
    rfl
  rw [hR, hfire, cpuTimeout_of_choice cpuOpensState r1 r2 (some 0) rfl rfl hch]
  decide

/-- C14, counterexample. The human has chosen O, so the CPU (X) is to open and
its callback is pending; New Game calls `newRound` with the CPU to start. When
the callback of the round before fires it passes the guard and plays X at
cell 0: board, current and lastMove are not as `newRound` set them. -/
theorem stale_callback_counterexample :
    Reachable cpuOpensState ∧ 0 < cpuOpensState.pending ∧
    clickNewGame cpuOpensState = newRound cpuOpensState (some true) ∧
    ∃ t, fireTimeout (1 / 2) (1 / 2) (newRound cpuOpensState (some true)) = some t ∧
      t.board = [Cell.X, Cell.empty, Cell.empty, Cell.empty, Cell.empty, Cell.empty,
        Cell.empty, Cell.empty, Cell.empty] ∧
      t.board ≠ (newRound cpuOpensState (some true)).board ∧
      t.current ≠ (newRound cpuOpensState (some true)).current ∧
      t.lastMove ≠ (newRound cpuOpensState (some true)).lastMove :=
  ⟨reachable_cpuOpensState, by decide, by decide, _, cpuOpens_stale_fire (1 / 2) (1 / 2), rfl,
    by decide, by decide, by decide⟩

/-- C14, amended. For every state in which a CPU move is pending, if `newRound`
is called before the callback fires and leaves the human to move
(`current ≠ cpu`), then the pending callback, when it fires, applies no move:
the state stays as `newRound` set it (board, current, lastMove and the rest;
only the timer is used up). If `newRound` leaves the CPU to move, the pending
callback is not discarded: with X and O bound to the players and the second
draw in `[0, 1)` it puts the CPU's mark on one cell of the new, empty board,
sets lastMove to that cell and hands the turn to the human. -/
theorem stale_callback_after_reset (s : State) (cpuStarts : Option Bool) (r1 r2 : ℚ)
    (hp : 0 < s.pending) :
    ((newRound s cpuStarts).current ≠ (newRound s cpuStarts).cpu →
      (newRound s cpuStarts).pending = s.pending ∧
      ∃ t, fireTimeout r1 r2 (newRound s cpuStarts) = some t ∧
        SameRound (newRound s cpuStarts) t ∧ t.pending = s.pending - 1) ∧
    ((newRound s cpuStarts).current = (newRound s cpuStarts).cpu →
      Marks s.human s.cpu → 0 ≤ r2 ∧ r2 < 1 →
      ∃ (j : Nat) (t : State), j < 9 ∧ fireTimeout r1 r2 (newRound s cpuStarts) = some t ∧
        t.board = (List.replicate 9 Cell.empty).set j s.cpu ∧ t.lastMove = (j : Int) ∧
        t.current = s.human ∧ t.gameOver = false) := by
  obtain ⟨h1, h2, _, _, _, _, _, _, h9, h10, _, h12⟩ := newRound_fields s cpuStarts
  constructor
  · intro hc
    have hpend : (newRound s cpuStarts).pending = s.pending := by
      rw [h12, if_neg (by rw [← h10]; exact hc)]
      rfl
    refine ⟨hpend, _, fireTimeout_guard _ r1 r2 (by omega) (Or.inr hc), ?_, ?_⟩
    · exact ⟨rfl, rfl, rfl, rfl, rfl, rfl⟩
    · show (newRound s cpuStarts).pending - 1 = s.pending - 1
      rw [hpend]
  · intro hc hm h2r
    have hpend : (newRound s cpuStarts).pending ≠ 0 := by
      rw [h12]
      omega
    obtain ⟨j, t, hj, hf, hb, hl, hcur, hg⟩ := fireTimeout_fresh_board (newRound s cpuStarts)
      r1 r2 hpend h1 h2 hc (by rw [h9, h10]; exact hm) h2r
    exact ⟨j, t, hj, hf, by rw [hb, h10], hl, by rw [hcur, h9], hg⟩

theorem stale_callback_after_reset_witness :
    0 < openedState.pending ∧
    ((newRound openedState (some false)).pending = openedState.pending ∧
      ∃ t, fireTimeout (1 / 2) (1 / 2) (newRound openedState (some false)) = some t ∧
        SameRound (newRound openedState (some false)) t ∧
        t.pending = openedState.pending - 1) ∧
    (∃ (j : Nat) (t : State), j < 9 ∧
      fireTimeout (1 / 2) (1 / 2) (newRound openedState (some true)) = some t ∧
      t.board = (List.replicate 9 Cell.empty).set j openedState.cpu ∧
      t.lastMove = (j : Int) ∧ t.current = openedState.human ∧ t.gameOver = false) :=
  ⟨by decide,
    (stale_callback_after_reset openedState (some false) (1 / 2) (1 / 2) (by decide)).1
      (by decide),
    (stale_callback_after_reset openedState (some true) (1 / 2) (1 / 2) (by decide)).2
      (by decide) (Or.inl ⟨rfl, rfl⟩) ⟨by norm_num, by norm_num⟩⟩

end TicTacToe
